import Mathlib

/-!
# Japanese typesetting: line breaking and prohibition (kinsoku) rules

A shallow embedding of the line-breaking core of the `japanese-typesetting`
repository, of its ruby parser, its command line and its plugin registry:

* `core/unicode/unicode.cpp`             (`UnicodeHandler`)
* `core/typesetting/typesetting_rules.cpp` (`TypesettingRules`)
* `core/typesetting/line_break.cpp`      (`LineBreaker`)
* `core/typesetting/typesetting_engine.cpp` (`TypesettingEngine`)
* `core/typesetting/ruby.cpp`            (`RubyProcessor`)
* `cli/cli.cpp`                          (`CommandLineInterface`)
* `plugin/plugin_manager.cpp`            (`PluginManager`)
* `samples/plugins/sample_ruby_plugin.cpp` (`SampleRubyPlugin`)

Conventions of the embedding.

* A `char32_t` is a `Nat`, a `std::u32string` is a `List Nat`.
* A `double` is the rational number it denotes; the infinite values of the
  solver (`std::numeric_limits<double>::infinity()` in the table, a penalty
  computed from a division by zero) are `none` in an `Option ℚ`.
  Comparisons of doubles are exact. The operations of the engine whose
  rounding decides a branch are rounded to binary64 by `roundDouble`: the
  product `baseWidth * 0.5` of the character width, the sum
  `currentLine.width + charWidth` of the greedy loop and the product
  `maxWidth * 0.95` of the justification. The other operations are kept
  exact: the solver and the width accounting of the adjustment are stated
  for exact arithmetic.
* `std::set<char32_t>` is a `Finset Nat`.
* A call that can throw (`std::u32string::substr` with a start offset past
  the end) returns an `Option`; `size_t` subtraction wraps modulo `2 ^ 64`.
* The East Asian Width property queried through ICU is not code of the
  repository; the two predicates built on it are fields of `UnicodeHandler`.
-/

namespace JapaneseTypesetting

/-! ## Definitions -/

/-! ### `UnicodeHandler` -/

/-- The part of `UnicodeHandler` that is answered by ICU
(`u_getIntPropertyValue(c, UCHAR_EAST_ASIAN_WIDTH)`): full-width means the
property is Fullwidth or Wide, half-width means Halfwidth or Narrow. -/
structure UnicodeHandler where
  isFullWidthCharacter : Nat → Bool
  isHalfWidthCharacter : Nat → Bool

/-- The ranges registered by the constructor of `UnicodeHandler`: hiragana,
katakana, CJK unified ideographs, full-width forms. -/
def UnicodeHandler.japaneseRanges : List (Nat × Nat) :=
  [(0x3040, 0x309F), (0x30A0, 0x30FF), (0x4E00, 0x9FFF), (0xFF00, 0xFFEF)]

/-- `UnicodeHandler::isJapaneseCharacter`: membership in one of the ranges. -/
def UnicodeHandler.isJapaneseCharacter (character : Nat) : Bool :=
  UnicodeHandler.japaneseRanges.any (fun range => decide (range.1 ≤ character ∧ character ≤ range.2))

/-! ### `Style` -/

/-- `style::TextAlignment`. -/
inductive TextAlignment where
  | Left
  | Right
  | Center
  | Justify
  deriving DecidableEq, Repr

/-- The fields of `style::Style` read by the typesetting core. -/
structure Style where
  fontSize : ℚ
  lineHeight : ℚ
  textAlignment : TextAlignment

/-! ### Double-precision rounding -/

/-- The power `2 ^ e` of an integer exponent, as a rational. -/
def pow2 (e : ℤ) : ℚ :=
  if 0 ≤ e then ((2 ^ e.toNat : ℕ) : ℚ) else 1 / ((2 ^ (-e).toNat : ℕ) : ℚ)

/-- The number of halvings that bring `n` below 2, at most `fuel` of them. -/
def log2Loop : Nat → Nat → Nat
  | 0, _ => 0
  | fuel + 1, n => if 2 ≤ n then log2Loop fuel (n / 2) + 1 else 0

/-- The integer `k` with `2 ^ k ≤ q < 2 ^ (k + 1)`, for a positive rational. -/
def floorLog2 (q : ℚ) : ℤ :=
  let k : ℤ := (log2Loop q.num.toNat q.num.toNat : ℤ) - (log2Loop q.den q.den : ℤ)
  if pow2 k ≤ q then k else k - 1

/-- Rounding of a rational to the nearest integer, a tie to the even one. -/
def roundHalfEven (q : ℚ) : ℤ :=
  if q - ⌊q⌋ < 1 / 2 then ⌊q⌋
  else if 1 / 2 < q - ⌊q⌋ then ⌊q⌋ + 1
  else if ⌊q⌋ % 2 = 0 then ⌊q⌋ else ⌊q⌋ + 1

/-- The exponent of the unit in the last place of the double nearest to `q`:
53 significant bits, and the exponent of the subnormal numbers at the least. -/
def doubleExponent (q : ℚ) : ℤ :=
  max (floorLog2 |q| - 52) (-1074)

/-- The result of a double-precision operation whose exact result is `q`:
`q` rounded to the nearest binary64 number, a tie to the even significand.
A result of magnitude `2 ^ 1024` or more is an infinity in the code and, as
every infinity of the engine, outside the model. -/
def roundDouble (q : ℚ) : ℚ :=
  (roundHalfEven (q / pow2 (doubleExponent q)) : ℚ) * pow2 (doubleExponent q)

/-! ### `TypesettingRules` -/

/-- The four character sets of `TypesettingRules`. -/
structure TypesettingRules where
  lineStartProhibitedChars : Finset Nat
  lineEndProhibitedChars : Finset Nat
  inseparableChars : Finset Nat
  hangingChars : Finset Nat
  deriving DecidableEq

namespace TypesettingRules

/-- The state of the four sets before the constructor body runs. -/
def empty : TypesettingRules := ⟨∅, ∅, ∅, ∅⟩

def addLineStartProhibitedCharacter (r : TypesettingRules) (character : Nat) : TypesettingRules :=
  { r with lineStartProhibitedChars := insert character r.lineStartProhibitedChars }

def isLineStartProhibited (r : TypesettingRules) (character : Nat) : Bool :=
  decide (character ∈ r.lineStartProhibitedChars)

def addLineEndProhibitedCharacter (r : TypesettingRules) (character : Nat) : TypesettingRules :=
  { r with lineEndProhibitedChars := insert character r.lineEndProhibitedChars }

def isLineEndProhibited (r : TypesettingRules) (character : Nat) : Bool :=
  decide (character ∈ r.lineEndProhibitedChars)

def addInseparableCharacter (r : TypesettingRules) (character : Nat) : TypesettingRules :=
  { r with inseparableChars := insert character r.inseparableChars }

def isInseparable (r : TypesettingRules) (character : Nat) : Bool :=
  decide (character ∈ r.inseparableChars)

def addHangingCharacter (r : TypesettingRules) (character : Nat) : TypesettingRules :=
  { r with hangingChars := insert character r.hangingChars }

def isHangingCharacter (r : TypesettingRules) (character : Nat) : Bool :=
  decide (character ∈ r.hangingChars)

/-- The arguments of the `addLineStartProhibitedCharacter` calls of
`setDefaultJisX4051Rules`, in source order (repetitions included). -/
def defaultLineStartProhibited : List Nat :=
  [0x3001, 0x3002, 0xFF0C, 0xFF0E, 0x30FB, 0xFF1A, 0xFF1B, 0xFF1F, 0xFF01, 0x2025, 0x2026,
   0x2014, 0x2015,
   0xFF09, 0xFF3D, 0xFF5D, 0x300D, 0x300F, 0x3011, 0x3015, 0x3009, 0x300B, 0xFF09, 0x3017,
   0x3019, 0x301F,
   0x30FB, 0xFF1A, 0xFF1B,
   0x309D, 0x309E, 0x30FC, 0x30A1, 0x30A3, 0x30A5, 0x30A7, 0x30A9, 0x30C3, 0x30E3, 0x30E5,
   0x30E7, 0x30EE, 0x30F5, 0x30F6, 0x3041, 0x3043, 0x3045, 0x3047, 0x3049, 0x3063, 0x3083,
   0x3085, 0x3087, 0x308E, 0x3005, 0x303B, 0x2010, 0x30A0, 0x2013, 0x301C, 0x003F, 0x0021,
   0x203C, 0x2047, 0x2048, 0x2049, 0x2103, 0xFF05, 0x2030, 0x2031, 0x00B0]

/-- The arguments of the `addLineEndProhibitedCharacter` calls. -/
def defaultLineEndProhibited : List Nat :=
  [0xFF08, 0xFF3B, 0xFF5B, 0x300C, 0x300E, 0x3010, 0x3014, 0x3008, 0x300A, 0x3016, 0x3018,
   0x301D]

/-- The arguments of the `addInseparableCharacter` calls. -/
def defaultInseparable : List Nat :=
  [0x0024, 0xFFE5, 0xFFE1, 0x2103, 0x00B0]

/-- The arguments of the `addHangingCharacter` calls. -/
def defaultHanging : List Nat :=
  [0x3001, 0x3002, 0xFF0C, 0xFF0E,
   0xFF09, 0xFF3D, 0xFF5D, 0x300D, 0x300F, 0x3011, 0x3015, 0x3009, 0x300B]

/-- `TypesettingRules::setDefaultJisX4051Rules`: a sequence of `add` calls on
the current state (nothing is cleared). -/
def setDefaultJisX4051Rules (r : TypesettingRules) : TypesettingRules :=
  let r1 := defaultLineStartProhibited.foldl addLineStartProhibitedCharacter r
  let r2 := defaultLineEndProhibited.foldl addLineEndProhibitedCharacter r1
  let r3 := defaultInseparable.foldl addInseparableCharacter r2
  defaultHanging.foldl addHangingCharacter r3

/-- The constructor `TypesettingRules::TypesettingRules()`. -/
def new : TypesettingRules := setDefaultJisX4051Rules empty

end TypesettingRules

/-! ### `std::u32string` helpers -/

/-- Subtraction of two `size_t` values (both below `2 ^ 64`), wrapping. -/
def sizeSub (a b : Nat) : Nat :=
  if b ≤ a then a - b else a + 2 ^ 64 - b

/-- `s.substr(pos, n)`: throws `std::out_of_range` when `pos > s.size()`,
otherwise the characters `[pos, min(pos + n, size))`. -/
def substr (s : List Nat) (pos n : Nat) : Option (List Nat) :=
  if s.length < pos then none else some ((s.drop pos).take n)

/-- `s.substr(pos)`: throws when `pos > s.size()`, otherwise `[pos, size)`. -/
def substrFrom (s : List Nat) (pos : Nat) : Option (List Nat) :=
  if s.length < pos then none else some (s.drop pos)

/-! ### Rule files of `TypesettingRules`

A `std::string` is a `List Char`; the file system is left out: `loadFromFile`
takes the content of the file (`none` when the file cannot be opened) and
`saveToFile` gives the content it writes. -/

namespace TypesettingRules

/-- `std::getline(in, piece, delim)` repeated until it fails: the pieces of `s`
between the delimiters; an empty rest after the last delimiter gives no piece. -/
def getlines (delim : Char) (s : List Char) : List (List Char) :=
  if (s.splitOn delim).getLast? = some [] then (s.splitOn delim).dropLast else s.splitOn delim

/-- `isspace` in the "C" locale: space, `\t`, `\n`, `\v`, `\f`, `\r`. -/
def isSpace (c : Char) : Bool :=
  c.toNat = 0x20 || (0x09 ≤ c.toNat && c.toNat ≤ 0x0D)

/-- The value of a hexadecimal digit, if `c` is one. -/
def hexDigitValue (c : Char) : Option Nat :=
  if 0x30 ≤ c.toNat ∧ c.toNat ≤ 0x39 then some (c.toNat - 0x30)
  else if 0x41 ≤ c.toNat ∧ c.toNat ≤ 0x46 then some (c.toNat - 0x41 + 10)
  else if 0x61 ≤ c.toNat ∧ c.toNat ≤ 0x66 then some (c.toNat - 0x61 + 10)
  else none

/-- `std::stoul(str, nullptr, 16)` with a 64-bit `unsigned long`: white space is
skipped, then an optional sign and an optional `0x` or `0X` are read, then the
longest run of hexadecimal digits. `none` when it throws: `std::invalid_argument`
when there is no digit, `std::out_of_range` when the digits exceed `2 ^ 64 - 1`. -/
def stoul16 (str : List Char) : Option Nat :=
  let s1 := (str.takeWhile (fun c => c.toNat ≠ 0)).dropWhile isSpace
  let negative := s1.head? = some '-'
  let s2 := if s1.head? = some '-' ∨ s1.head? = some '+' then s1.drop 1 else s1
  let s3 := match s2 with
    | z :: x :: d :: rest =>
      if z = '0' ∧ (x = 'x' ∨ x = 'X') ∧ (hexDigitValue d).isSome = true then d :: rest else s2
    | _ => s2
  let digits := s3.takeWhile (fun c => (hexDigitValue c).isSome)
  if digits = [] then none
  else
    let value := digits.foldl (fun acc c => 16 * acc + (hexDigitValue c).getD 0) 0
    if 2 ^ 64 ≤ value then none
    else some (if negative then (2 ^ 64 - value) % 2 ^ 64 else value)

/-- The upper-case hexadecimal digit of `d < 16`. -/
def hexDigitChar (d : Nat) : Char :=
  if d < 10 then Char.ofNat (0x30 + d) else Char.ofNat (0x41 + (d - 10))

/-- Digits of `n` in base 16, most significant first, in front of `acc`. -/
def hexUpperAux : Nat → Nat → List Char → List Char
  | 0, _, acc => acc
  | fuel + 1, n, acc =>
    if n / 16 = 0 then hexDigitChar (n % 16) :: acc
    else hexUpperAux fuel (n / 16) (hexDigitChar (n % 16) :: acc)

/-- `out << std::hex << std::uppercase << value` for a `uint32_t` value (at
most eight digits, no leading zero, `0` for zero). -/
def hexUpper (value : Nat) : List Char :=
  hexUpperAux 8 value []

/-- The line that `saveToFile` writes for one set: `U+` and the upper-case
hexadecimal code of each member in ascending order, separated by commas. -/
def writeCodes (chars : Finset Nat) : List Char :=
  List.intercalate [',']
    ((chars.sort (fun a b => a ≤ b)).map (fun c => 'U' :: '+' :: hexUpper (c % 2 ^ 32)))

/-- The content that `TypesettingRules::saveToFile` writes (it then returns
`true`; when the file cannot be opened it writes nothing and returns `false`). -/
def saveToFile (r : TypesettingRules) : List Char :=
  "[LineStartProhibited]\n".toList ++ writeCodes r.lineStartProhibitedChars ++ "\n\n".toList
    ++ "[LineEndProhibited]\n".toList ++ writeCodes r.lineEndProhibitedChars ++ "\n\n".toList
    ++ "[Inseparable]\n".toList ++ writeCodes r.inseparableChars ++ "\n\n".toList
    ++ "[Hanging]\n".toList ++ writeCodes r.hangingChars ++ "\n".toList

/-- The chain of section comparisons of `loadFromFile` for one parsed code. -/
def addToSection (currentSection : List Char) (r : TypesettingRules) (character : Nat) :
    TypesettingRules :=
  if currentSection = "LineStartProhibited".toList then
    r.addLineStartProhibitedCharacter character
  else if currentSection = "LineEndProhibited".toList then
    r.addLineEndProhibitedCharacter character
  else if currentSection = "Inseparable".toList then r.addInseparableCharacter character
  else if currentSection = "Hanging".toList then r.addHangingCharacter character
  else r

/-- The body of the token loop of `loadFromFile`; `Except.error` carries the
state of the object when `std::stoul` throws. -/
def loadToken (currentSection : List Char) (r : TypesettingRules) (token : List Char) :
    Except TypesettingRules TypesettingRules :=
  if token.take 2 = "U+".toList then
    match stoul16 (token.drop 2) with
    | none => Except.error r
    | some value => Except.ok (addToSection currentSection r (value % 2 ^ 32))
  else Except.ok r

/-- The token loop `while (std::getline(iss, token, ','))`. -/
def loadTokens (currentSection : List Char) :
    TypesettingRules → List (List Char) → Except TypesettingRules TypesettingRules
  | r, [] => Except.ok r
  | r, token :: rest =>
    match loadToken currentSection r token with
    | Except.ok r' => loadTokens currentSection r' rest
    | Except.error r' => Except.error r'

/-- The line loop `while (std::getline(file, line))` of `loadFromFile`. -/
def loadLines :
    List Char → TypesettingRules → List (List Char) → Except TypesettingRules TypesettingRules
  | _, r, [] => Except.ok r
  | currentSection, r, line :: rest =>
    if line = [] then loadLines currentSection r rest
    else if line.head? = some '[' ∧ line.getLast? = some ']' then
      loadLines ((line.drop 1).take (sizeSub line.length 2)) r rest
    else if currentSection ≠ [] then
      match loadTokens currentSection r (getlines ',' line) with
      | Except.ok r' => loadLines currentSection r' rest
      | Except.error r' => Except.error r'
    else loadLines currentSection r rest

/-- How a call of `loadFromFile` ends: it returns a value, or an exception
leaves it; in both cases with the state of the object afterwards. -/
inductive LoadResult where
  | returned (rules : TypesettingRules) (value : Bool)
  | threw (rules : TypesettingRules)
  deriving DecidableEq

/-- `TypesettingRules::loadFromFile`; `file` is the content of the file, `none`
when it cannot be opened. -/
def loadFromFile (r : TypesettingRules) (file : Option (List Char)) : LoadResult :=
  match file with
  | none => LoadResult.returned r false
  | some content =>
    match loadLines [] r (getlines '\n' content) with
    | Except.ok r' => LoadResult.returned r' true
    | Except.error r' => LoadResult.threw r'

/-- The objects that the public interface can produce: the constructor, the
four `add` operations on `char32_t` arguments, `setDefaultJisX4051Rules` and
`loadFromFile` (whether it returns or throws). -/
inductive Reachable : TypesettingRules → Prop where
  | construct : Reachable new
  | addLineStartProhibited (r : TypesettingRules) (c : Nat) :
      Reachable r → c < 2 ^ 32 → Reachable (r.addLineStartProhibitedCharacter c)
  | addLineEndProhibited (r : TypesettingRules) (c : Nat) :
      Reachable r → c < 2 ^ 32 → Reachable (r.addLineEndProhibitedCharacter c)
  | addInseparable (r : TypesettingRules) (c : Nat) :
      Reachable r → c < 2 ^ 32 → Reachable (r.addInseparableCharacter c)
  | addHanging (r : TypesettingRules) (c : Nat) :
      Reachable r → c < 2 ^ 32 → Reachable (r.addHangingCharacter c)
  | setDefault (r : TypesettingRules) : Reachable r → Reachable r.setDefaultJisX4051Rules
  | loadReturned (r r' : TypesettingRules) (file : Option (List Char)) (value : Bool) :
      Reachable r → loadFromFile r file = LoadResult.returned r' value → Reachable r'
  | loadThrew (r r' : TypesettingRules) (file : Option (List Char)) :
      Reachable r → loadFromFile r file = LoadResult.threw r' → Reachable r'

/-- Every member of a set of `b` is a member of the same set of `a`. -/
def includes (a b : TypesettingRules) : Prop :=
  b.lineStartProhibitedChars ⊆ a.lineStartProhibitedChars
  ∧ b.lineEndProhibitedChars ⊆ a.lineEndProhibitedChars
  ∧ b.inseparableChars ⊆ a.inseparableChars
  ∧ b.hangingChars ⊆ a.hangingChars

/-- Every member of the four sets is a `char32_t` value. -/
def bounded (r : TypesettingRules) : Prop :=
  (∀ c ∈ r.lineStartProhibitedChars, c < 2 ^ 32)
  ∧ (∀ c ∈ r.lineEndProhibitedChars, c < 2 ^ 32)
  ∧ (∀ c ∈ r.inseparableChars, c < 2 ^ 32)
  ∧ (∀ c ∈ r.hangingChars, c < 2 ^ 32)

end TypesettingRules

/-! ### `LineBreaker` -/

/-- `struct BreakPoint`. -/
structure BreakPoint where
  position : Nat
  penalty : ℚ
  mandatory : Bool
  deriving DecidableEq, Inhabited

namespace LineBreaker

/-- `LineBreaker::calculateCharacterWidth`. -/
def calculateCharacterWidth (u : UnicodeHandler) (character : Nat) (style : Style)
    (_vertical : Bool) : ℚ :=
  let baseWidth := style.fontSize
  if u.isFullWidthCharacter character then baseWidth
  else if u.isHalfWidthCharacter character then baseWidth * (1 / 2)
  else baseWidth

/-- The body of the scanning loop of `findBreakPoints` at index `i`. -/
def findBreakPointsStep (rules : TypesettingRules) (text : List Nat)
    (breakPoints : List BreakPoint) (i : Nat) : List BreakPoint :=
  let ch := text.getD i 0
  if ch = 0x0A then
    breakPoints ++ [{ position := i + 1, penalty := 0, mandatory := true }]
  else if ch = 0x20 ∨ ch = 0x09 then
    breakPoints ++ [{ position := i + 1, penalty := 50, mandatory := false }]
  else if 0 < i ∧ UnicodeHandler.isJapaneseCharacter (text.getD (i - 1) 0) = true
      ∧ UnicodeHandler.isJapaneseCharacter ch = true then
    if rules.isLineStartProhibited ch = true then breakPoints
    else if rules.isLineEndProhibited (text.getD (i - 1) 0) = true then breakPoints
    else if rules.isInseparable ch = true ∨ rules.isInseparable (text.getD (i - 1) 0) = true then
      breakPoints
    else breakPoints ++ [{ position := i, penalty := 100, mandatory := false }]
  else breakPoints

/-- `LineBreaker::findBreakPoints`. -/
def findBreakPoints (rules : TypesettingRules) (text : List Nat) : List BreakPoint :=
  (List.range text.length).foldl (findBreakPointsStep rules text)
      [{ position := 0, penalty := 1000, mandatory := false }]
    ++ [{ position := text.length, penalty := 0, mandatory := true }]

/-- The two tables of the solver: `minPenalty` (`none` is `+∞`) and `prev`. -/
structure Table where
  minPenalty : List (Option ℚ)
  prev : List Nat
  deriving DecidableEq

/-- The comparison `a < b` of two table values, `none` being `+∞`. -/
def ltInf : Option ℚ → Option ℚ → Bool
  | some a, some b => decide (a < b)
  | some _, none => true
  | none, _ => false

/-- The width of a segment: the accumulation loop over its characters. -/
def segmentWidth (u : UnicodeHandler) (style : Style) (vertical : Bool) (segment : List Nat) : ℚ :=
  segment.foldl (fun width ch => width + calculateCharacterWidth u ch style vertical) 0

/-- The body of the inner loop of `calculateOptimalBreaks` for the pair
`(i, j)`. The only division, `width / maxWidth`, is evaluated under
`width < maxWidth`; for `maxWidth = 0` the quotient of the two doubles is
infinite and so is the line penalty, which is `none` here. -/
def relax (u : UnicodeHandler) (text : List Nat) (breakPoints : List BreakPoint) (style : Style)
    (maxWidth : ℚ) (vertical : Bool) (j : Nat) (t : Table) (i : Nat) : Option Table := do
  let endPos := (breakPoints.getD j default).position
  let startPos := (breakPoints.getD i default).position
  let segment ← substr text startPos (sizeSub endPos startPos)
  let width := segmentWidth u style vertical segment
  if width > maxWidth ∧ (breakPoints.getD j default).mandatory = false then
    some t
  else
    let linePenalty : Option ℚ :=
      if width < maxWidth then
        if maxWidth = 0 then none
        else
          let ratio := width / maxWidth
          some (100 * (1 - ratio) * (1 - ratio))
      else some 0
    let breakPenalty := (breakPoints.getD j default).penalty
    let totalPenalty := (t.minPenalty.getD i none).bind
      (fun m => linePenalty.map (fun p => m + p + breakPenalty))
    if ltInf totalPenalty (t.minPenalty.getD j none) = true then
      some { minPenalty := t.minPenalty.set j totalPenalty, prev := t.prev.set j i }
    else some t

/-- The backward walk `while (j > 0) { j = prev[j]; if (j > 0) push }`, with
a bound on the number of iterations; `none` when the bound is reached. -/
def walkBack (breakPoints : List BreakPoint) (prev : List Nat) :
    Nat → Nat → List Nat → Option (List Nat)
  | _, 0, breaks => some breaks
  | 0, _ + 1, _ => none
  | fuel + 1, j + 1, breaks =>
    let j1 := prev.getD (j + 1) 0
    walkBack breakPoints prev fuel j1
      (if 0 < j1 then breaks ++ [(breakPoints.getD j1 default).position] else breaks)

/-- `LineBreaker::calculateOptimalBreaks`. -/
def calculateOptimalBreaks (u : UnicodeHandler) (text : List Nat) (breakPoints : List BreakPoint)
    (style : Style) (maxWidth : ℚ) (vertical : Bool) : Option (List Nat) :=
  if breakPoints.length ≤ 1 then some []
  else do
    let init : Table :=
      { minPenalty := (List.replicate breakPoints.length none).set 0 (some 0),
        prev := List.replicate breakPoints.length 0 }
    let t ← (List.range' 1 (breakPoints.length - 1)).foldlM
      (fun t j => (List.range j).foldlM (relax u text breakPoints style maxWidth vertical j) t) init
    let breaks ← walkBack breakPoints t.prev breakPoints.length (breakPoints.length - 1) []
    some breaks.reverse

/-- The slicing loop of `breakLines`: state is `(lines, startPos)`. -/
def sliceStep (text : List Nat) (acc : List (List Nat) × Nat) (breakPos : Nat) :
    Option (List (List Nat) × Nat) := do
  let line ← substr text acc.2 (sizeSub breakPos acc.2)
  some (acc.1 ++ [line], breakPos)

/-- `LineBreaker::breakLines`. -/
def breakLines (rules : TypesettingRules) (u : UnicodeHandler) (text : List Nat) (style : Style)
    (maxWidth : ℚ) (vertical : Bool) : Option (List (List Nat)) := do
  let breakPoints := findBreakPoints rules text
  let optimalBreaks ← calculateOptimalBreaks u text breakPoints style maxWidth vertical
  let acc ← optimalBreaks.foldlM (sliceStep text) ([], 0)
  if acc.2 < text.length then do
    let line ← substrFrom text acc.2
    some (acc.1 ++ [line])
  else some acc.1

end LineBreaker

/-! ### `TypesettingEngine` -/

/-- `struct TextLine`. -/
structure TextLine where
  text : List Nat
  width : ℚ
  height : ℚ
  baseline : ℚ
  hasLineBreak : Bool
  deriving DecidableEq

/-- `struct TextBlock`. -/
structure TextBlock where
  lines : List TextLine
  width : ℚ
  height : ℚ
  deriving DecidableEq

namespace TypesettingEngine

/-- `TypesettingEngine::calculateCharacterWidth`. The product
`baseWidth * 0.5` is a double-precision product. -/
def calculateCharacterWidth (u : UnicodeHandler) (character : Nat) (style : Style)
    (_vertical : Bool) : ℚ :=
  let baseWidth := style.fontSize
  if u.isFullWidthCharacter character then baseWidth
  else if u.isHalfWidthCharacter character then roundDouble (baseWidth * (1 / 2))
  else baseWidth

/-- The loop state of `breakLines`: the lines pushed so far and the line
under construction. -/
structure BreakState where
  lines : List TextLine
  currentLine : TextLine

/-- The statements that start a new line: `text.clear()`, `width = 0.0`,
`hasLineBreak = false`. -/
def startNewLine (currentLine : TextLine) : TextLine :=
  { currentLine with text := [], width := 0, hasLineBreak := false }

/-- The body of the character loop of `breakLines`. The sum
`currentLine.width + charWidth` is a double-precision sum, in the test and in
`currentLine.width += charWidth`. -/
def breakLinesStep (u : UnicodeHandler) (style : Style) (maxWidth : ℚ) (vertical : Bool)
    (st : BreakState) (ch : Nat) : BreakState :=
  if ch = 0x0A then
    { lines := st.lines ++ [{ st.currentLine with hasLineBreak := true }],
      currentLine := startNewLine { st.currentLine with hasLineBreak := true } }
  else
    let charWidth := calculateCharacterWidth u ch style vertical
    let st1 : BreakState :=
      if roundDouble (st.currentLine.width + charWidth) > maxWidth
          ∧ st.currentLine.text ≠ [] then
        { lines := st.lines ++ [st.currentLine], currentLine := startNewLine st.currentLine }
      else st
    { lines := st1.lines,
      currentLine := { st1.currentLine with
        text := st1.currentLine.text ++ [ch],
        width := roundDouble (st1.currentLine.width + charWidth) } }

/-- `TypesettingEngine::breakLines`. -/
def breakLines (u : UnicodeHandler) (text : List Nat) (style : Style) (maxWidth : ℚ)
    (vertical : Bool) : List TextLine :=
  let currentLine : TextLine :=
    { text := [], width := 0, height := style.fontSize * style.lineHeight,
      baseline := style.fontSize * (8 / 10), hasLineBreak := false }
  let st := text.foldl (breakLinesStep u style maxWidth vertical)
    { lines := [], currentLine := currentLine }
  if st.currentLine.text ≠ [] then st.lines ++ [st.currentLine] else st.lines

/-- The body of the loop of `applyProhibitionRules` on the pair
`(currentLine, nextLine) = (lines[i], lines[i + 1])`. -/
def adjustPair (rules : TypesettingRules) (u : UnicodeHandler) (style : Style) (vertical : Bool)
    (currentLine nextLine : TextLine) : TextLine × TextLine :=
  if currentLine.hasLineBreak = true then (currentLine, nextLine)
  else if nextLine.text = [] then (currentLine, nextLine)
  else
    let afterEnd : TextLine × TextLine :=
      match currentLine.text.getLast? with
      | some lastChar =>
        if rules.isLineEndProhibited lastChar = true then
          ({ currentLine with
              text := currentLine.text.dropLast,
              width := currentLine.width - calculateCharacterWidth u lastChar style vertical },
           { nextLine with
              text := lastChar :: nextLine.text,
              width := nextLine.width + calculateCharacterWidth u lastChar style vertical })
        else (currentLine, nextLine)
      | none => (currentLine, nextLine)
    match afterEnd.2.text with
    | firstChar :: rest =>
      if rules.isLineStartProhibited firstChar = true then
        ({ afterEnd.1 with
            text := afterEnd.1.text ++ [firstChar],
            width := afterEnd.1.width + calculateCharacterWidth u firstChar style vertical },
         { afterEnd.2 with
            text := rest,
            width := afterEnd.2.width - calculateCharacterWidth u firstChar style vertical })
      else afterEnd
    | [] => afterEnd

/-- One iteration of the loop of `applyProhibitionRules`, at index `i`. -/
def adjustAt (rules : TypesettingRules) (u : UnicodeHandler) (style : Style) (vertical : Bool)
    (lines : List TextLine) (i : Nat) : List TextLine :=
  match lines[i]?, lines[i + 1]? with
  | some currentLine, some nextLine =>
    let p := adjustPair rules u style vertical currentLine nextLine
    (lines.set i p.1).set (i + 1) p.2
  | _, _ => lines

/-- `TypesettingEngine::applyProhibitionRules`. -/
def applyProhibitionRules (rules : TypesettingRules) (u : UnicodeHandler) (lines : List TextLine)
    (style : Style) (vertical : Bool) : List TextLine :=
  if lines.length < 2 then lines
  else (List.range (lines.length - 1)).foldl (adjustAt rules u style vertical) lines

/-- `TypesettingEngine::applyJustification`. In the threshold
`maxWidth * 0.95` the literal `0.95` is the double nearest to 95/100 and the
product is a double-precision product. -/
def applyJustification (lines : List TextLine) (style : Style) (maxWidth : ℚ)
    (_vertical : Bool) : List TextLine :=
  if style.textAlignment ≠ TextAlignment.Justify then lines
  else lines.map (fun line =>
    if line.hasLineBreak = true ∨ line.width ≥ roundDouble (maxWidth * roundDouble (95 / 100)) then line
    else if line.text.length ≤ 1 then line
    else { line with width := maxWidth })

/-- `TypesettingEngine::applyHanging`. -/
def applyHanging (rules : TypesettingRules) (u : UnicodeHandler) (lines : List TextLine)
    (style : Style) (vertical : Bool) : List TextLine :=
  lines.map (fun line =>
    match line.text.getLast? with
    | none => line
    | some lastChar =>
      if rules.isHangingCharacter lastChar = true then
        { line with
          width := line.width - calculateCharacterWidth u lastChar style vertical * (1 / 2) }
      else line)

/-- `TypesettingEngine::typeset`, on the code points that
`UnicodeHandler::utf8ToUtf32` (ICU) returns for the UTF-8 argument. -/
def typeset (rules : TypesettingRules) (u : UnicodeHandler) (utf32Text : List Nat) (style : Style)
    (width : ℚ) (vertical : Bool) : TextBlock :=
  let lines := breakLines u utf32Text style width vertical
  let lines := applyProhibitionRules rules u lines style vertical
  let lines := applyJustification lines style width vertical
  let lines := applyHanging rules u lines style vertical
  { lines := lines, width := width,
    height := lines.foldl (fun h line => h + line.height) 0 }

/-- The loop of `applyProhibitionRules` written as a recursion on the list of
lines: the pair at the head is adjusted, the first line of the result is
final, the second one is the current line of the next iteration. -/
def sweep (rules : TypesettingRules) (u : UnicodeHandler) (style : Style) (vertical : Bool) :
    List TextLine → List TextLine
  | currentLine :: nextLine :: rest =>
    (adjustPair rules u style vertical currentLine nextLine).1 ::
      sweep rules u style vertical
        ((adjustPair rules u style vertical currentLine nextLine).2 :: rest)
  | [l] => [l]
  | [] => []
termination_by ls => ls.length


end TypesettingEngine

/-! ### `RubyProcessor` -/

/-- `struct RubyText`. -/
structure RubyText where
  base : List Nat
  ruby : List Nat
  startPos : Nat
  endPos : Nat
  deriving DecidableEq

namespace RubyProcessor

/-- The search loop `for (size_t i = startPos; i < text.length(); ++i)` of the
three tag finders, with `remaining` iterations left: the first index whose
character satisfies `isTag`; `none` is the value `static_cast<size_t>(-1)`
returned after the loop. -/
def findTagLoop (isTag : Nat → Bool) (text : List Nat) : Nat → Nat → Option Nat
  | 0, _ => none
  | remaining + 1, i =>
    if isTag (text.getD i 0) = true then some i
    else findTagLoop isTag text remaining (i + 1)

/-- `RubyProcessor::findRubyStartTag`: searches `｜` (U+FF5C) or `《` (U+300A). -/
def findRubyStartTag (text : List Nat) (startPos : Nat) : Option Nat :=
  findTagLoop (fun c => decide (c = 0xFF5C ∨ c = 0x300A)) text (text.length - startPos) startPos

/-- `RubyProcessor::findRubyTextTag`: searches `《` (U+300A). -/
def findRubyTextTag (text : List Nat) (startPos : Nat) : Option Nat :=
  findTagLoop (fun c => decide (c = 0x300A)) text (text.length - startPos) startPos

/-- `RubyProcessor::findRubyEndTag`: searches `》` (U+300B). -/
def findRubyEndTag (text : List Nat) (startPos : Nat) : Option Nat :=
  findTagLoop (fun c => decide (c = 0x300B)) text (text.length - startPos) startPos

/-- The loop `while (pos < text.length())` of `parseRuby`, with a bound on the
number of iterations; `none` when the bound is reached or `substr` throws. -/
def parseRubyLoop (text : List Nat) : Nat → Nat → List RubyText → Option (List RubyText)
  | 0, _, _ => none
  | fuel + 1, pos, result =>
    if pos < text.length then
      match findRubyStartTag text pos with
      | none => some result
      | some rubyStartPos =>
        match findRubyTextTag text (rubyStartPos + 1) with
        | none => parseRubyLoop text fuel (rubyStartPos + 1) result
        | some rubyTextTagPos =>
          match findRubyEndTag text (rubyTextTagPos + 1) with
          | none => parseRubyLoop text fuel (rubyTextTagPos + 1) result
          | some rubyEndPos =>
            match substr text (rubyStartPos + 1) (sizeSub (sizeSub rubyTextTagPos rubyStartPos) 1),
                substr text (rubyTextTagPos + 1) (sizeSub (sizeSub rubyEndPos rubyTextTagPos) 1) with
            | some baseText, some rubyText =>
              parseRubyLoop text fuel (rubyEndPos + 1)
                (result ++ [{ base := baseText, ruby := rubyText, startPos := rubyStartPos,
                              endPos := rubyEndPos + 1 }])
            | _, _ => none
    else some result

/-- `RubyProcessor::parseRuby`. Every iteration moves `pos` forward, so
`text.length + 1` iterations are enough. -/
def parseRuby (text : List Nat) : Option (List RubyText) :=
  parseRubyLoop text (text.length + 1) 0 []

end RubyProcessor

/-! ### `CommandLineInterface`

A `std::string` and a C string of `argv` are a `List Char`. A `double` option
value is an `Option ℚ` (`none` for a value that is not finite). `std::stod`
is not code of the repository and the properties below do not depend on its
values: it is a parameter `stod`, `none` when it throws. `showError` only
writes to the error stream and is left out. -/

/-- `struct CommandLineOptions`; `extraOptions` is the map from keys to
values. -/
structure CommandLineOptions where
  inputFile : List Char
  outputFile : List Char
  outputFormat : List Char
  styleFile : List Char
  vertical : Bool
  pageWidth : Option ℚ
  pageHeight : Option ℚ
  marginTop : Option ℚ
  marginBottom : Option ℚ
  marginLeft : Option ℚ
  marginRight : Option ℚ
  fontFamily : List Char
  fontSize : Option ℚ
  lineHeight : Option ℚ
  verbose : Bool
  help : Bool
  version : Bool
  extraOptions : List Char → Option (List Char)

namespace CommandLineInterface

/-- The values that `parseCommandLine` sets before the loop. -/
def defaultOptions : CommandLineOptions where
  inputFile := []
  outputFile := []
  outputFormat := "pdf".toList
  styleFile := []
  vertical := true
  pageWidth := some 210
  pageHeight := some 297
  marginTop := some 20
  marginBottom := some 20
  marginLeft := some 20
  marginRight := some 20
  fontFamily := "Mincho".toList
  fontSize := some (21 / 2)
  lineHeight := some (3 / 2)
  verbose := false
  help := false
  version := false
  extraOptions := fun _ => none

/-- The assignment `options.outputFormat = argv[++i]` followed by the reset to
`"pdf"` of a value that is none of the three formats. -/
def setOutputFormat (options : CommandLineOptions) (value : List Char) : CommandLineOptions :=
  if value ≠ "pdf".toList ∧ value ≠ "epub".toList ∧ value ≠ "html".toList then
    { options with outputFormat := "pdf".toList }
  else { options with outputFormat := value }

/-- The loop `for (int i = 1; i < argc; ++i)` of `parseCommandLine` on the
arguments from index `i` on; `none` when `std::stod` throws. In the branch of
a custom option the test `i + 1 < argc && argv[i + 1][0] != '-'` is written
before the next argument is taken, so its empty case is never reached. -/
def parseArgs (stod : List Char → Option (Option ℚ)) :
    CommandLineOptions → List (List Char) → Option CommandLineOptions
  | options, [] => some options
  | options, arg :: rest =>
    if arg = "-h".toList ∨ arg = "--help".toList then
      parseArgs stod { options with help := true } rest
    else if arg = "-v".toList ∨ arg = "--version".toList then
      parseArgs stod { options with version := true } rest
    else if arg = "--verbose".toList then
      parseArgs stod { options with verbose := true } rest
    else if arg = "-i".toList ∨ arg = "--input".toList then
      match rest with
      | value :: rest' => parseArgs stod { options with inputFile := value } rest'
      | [] => some options
    else if arg = "-o".toList ∨ arg = "--output".toList then
      match rest with
      | value :: rest' => parseArgs stod { options with outputFile := value } rest'
      | [] => some options
    else if arg = "-f".toList ∨ arg = "--format".toList then
      match rest with
      | value :: rest' => parseArgs stod (setOutputFormat options value) rest'
      | [] => some options
    else if arg = "-s".toList ∨ arg = "--style".toList then
      match rest with
      | value :: rest' => parseArgs stod { options with styleFile := value } rest'
      | [] => some options
    else if arg = "--horizontal".toList then
      parseArgs stod { options with vertical := false } rest
    else if arg = "--vertical".toList then
      parseArgs stod { options with vertical := true } rest
    else if arg = "--page-width".toList then
      match rest with
      | value :: rest' =>
        match stod value with
        | some d => parseArgs stod { options with pageWidth := d } rest'
        | none => none
      | [] => some options
    else if arg = "--page-height".toList then
      match rest with
      | value :: rest' =>
        match stod value with
        | some d => parseArgs stod { options with pageHeight := d } rest'
        | none => none
      | [] => some options
    else if arg = "--margin-top".toList then
      match rest with
      | value :: rest' =>
        match stod value with
        | some d => parseArgs stod { options with marginTop := d } rest'
        | none => none
      | [] => some options
    else if arg = "--margin-bottom".toList then
      match rest with
      | value :: rest' =>
        match stod value with
        | some d => parseArgs stod { options with marginBottom := d } rest'
        | none => none
      | [] => some options
    else if arg = "--margin-left".toList then
      match rest with
      | value :: rest' =>
        match stod value with
        | some d => parseArgs stod { options with marginLeft := d } rest'
        | none => none
      | [] => some options
    else if arg = "--margin-right".toList then
      match rest with
      | value :: rest' =>
        match stod value with
        | some d => parseArgs stod { options with marginRight := d } rest'
        | none => none
      | [] => some options
    else if arg = "--font-family".toList then
      match rest with
      | value :: rest' => parseArgs stod { options with fontFamily := value } rest'
      | [] => some options
    else if arg = "--font-size".toList then
      match rest with
      | value :: rest' =>
        match stod value with
        | some d => parseArgs stod { options with fontSize := d } rest'
        | none => none
      | [] => some options
    else if arg = "--line-height".toList then
      match rest with
      | value :: rest' =>
        match stod value with
        | some d => parseArgs stod { options with lineHeight := d } rest'
        | none => none
      | [] => some options
    else if arg.take 2 = "--".toList then
      if rest.head?.map (fun value => decide (value.head? ≠ some '-')) = some true then
        match rest with
        | value :: rest' =>
          parseArgs stod
            { options with extraOptions := Function.update options.extraOptions (arg.drop 2) value }
            rest'
        | [] => some options
      else
        parseArgs stod
          { options with
            extraOptions := Function.update options.extraOptions (arg.drop 2) "true".toList }
          rest
    else if options.inputFile = [] then
      parseArgs stod { options with inputFile := arg } rest
    else if options.outputFile = [] then
      parseArgs stod { options with outputFile := arg } rest
    else parseArgs stod options rest

/-- `CommandLineInterface::parseCommandLine`, with `argc` the length of
`argv`; `argv[0]` is not read. -/
def parseCommandLine (stod : List Char → Option (Option ℚ)) (argv : List (List Char)) :
    Option CommandLineOptions :=
  parseArgs stod defaultOptions (argv.drop 1)

end CommandLineInterface

/-! ### `PluginManager`

A plugin object is modelled by its state, a value of a type `P`; the virtual
methods of `class Plugin` are the fields of `PluginClass P`, and a method that
may change the object returns the new state next to its result. The map
`m_plugins` from ids to `std::shared_ptr<Plugin>` is a function from ids to
the states of the registered objects; the plugin passed to `registerPlugin`
is an object that the registry does not hold yet. -/

/-- `struct PluginInfo`: the fields that `registerPlugin` and
`resolveDependencies` read. -/
structure PluginInfo where
  id : List Char
  dependencies : List (List Char)
  enabled : Bool
  deriving DecidableEq

/-- The virtual methods of `class Plugin` called by `registerPlugin` and
`resolveDependencies`; `initializePlugin` is the method `initialize`. -/
structure PluginClass (P : Type) where
  getInfo : P → PluginInfo
  initializePlugin : P → Bool × P
  enable : P → Bool × P
  isEnabled : P → Bool

namespace PluginManager

/-- The loop of `resolveDependencies` over `info.dependencies`. -/
def resolveDependenciesLoop {P : Type} (c : PluginClass P) (m_plugins : List Char → Option P) :
    List (List Char) → Bool
  | [] => true
  | dependencyId :: rest =>
    match m_plugins dependencyId with
    | none => false
    | some dependency =>
      if c.isEnabled dependency = false then false
      else resolveDependenciesLoop c m_plugins rest

/-- `PluginManager::resolveDependencies`. -/
def resolveDependencies {P : Type} (c : PluginClass P) (m_plugins : List Char → Option P)
    (plugin : P) : Bool :=
  resolveDependenciesLoop c m_plugins (c.getInfo plugin).dependencies

/-- `PluginManager::registerPlugin`: the result and the map afterwards;
`plugin = none` is the null pointer. -/
def registerPlugin {P : Type} (c : PluginClass P) (m_plugins : List Char → Option P)
    (plugin : Option P) : Bool × (List Char → Option P) :=
  match plugin with
  | none => (false, m_plugins)
  | some p =>
    let info := c.getInfo p
    if (m_plugins info.id).isSome = true then (false, m_plugins)
    else if resolveDependencies c m_plugins p = false then (false, m_plugins)
    else if (c.initializePlugin p).1 = false then (false, m_plugins)
    else if info.enabled = true then
      if (c.enable (c.initializePlugin p).2).1 = false then
        (false,
          Function.update m_plugins info.id (some (c.enable (c.initializePlugin p).2).2))
      else
        (true, Function.update m_plugins info.id (some (c.enable (c.initializePlugin p).2).2))
    else (true, Function.update m_plugins info.id (some (c.initializePlugin p).2))

/-- `PluginManager::getPlugin`; `none` is the null pointer. -/
def getPlugin {P : Type} (m_plugins : List Char → Option P) (pluginId : List Char) : Option P :=
  m_plugins pluginId

/-- The state of the object `p` after the calls that a successful
`registerPlugin` makes on it: `initialize`, then `enable` when its info is
flagged enabled. -/
def afterRegistration {P : Type} (c : PluginClass P) (p : P) : P :=
  if (c.getInfo p).enabled = true then (c.enable (c.initializePlugin p).2).2
  else (c.initializePlugin p).2

/-- Every dependency of `p` is registered and enabled. -/
def dependenciesMet {P : Type} (c : PluginClass P) (m_plugins : List Char → Option P) (p : P) :
    Prop :=
  ∀ d ∈ (c.getInfo p).dependencies, ∃ dep, m_plugins d = some dep ∧ c.isEnabled dep = true

/-- A plugin class for the worked examples: `enable` succeeds when
`canEnable` is set. -/
structure ExamplePlugin where
  id : List Char
  dependencies : List (List Char)
  enabled : Bool
  canEnable : Bool
  deriving DecidableEq

/-- The methods of `ExamplePlugin`. -/
def examplePluginClass : PluginClass ExamplePlugin where
  getInfo := fun p => { id := p.id, dependencies := p.dependencies, enabled := p.enabled }
  initializePlugin := fun p => (true, p)
  enable := fun p => if p.canEnable = true then (true, { p with enabled := true }) else (false, p)
  isEnabled := fun p => p.enabled

end PluginManager

/-! ### `SampleRubyPlugin`

In this class a `std::string` is the list of its bytes (a `List Nat`); the
string literals of the source file are UTF-8 text, written `utf8 "..."`.
`std::regex_replace` is not code of the repository: it is a parameter
`regexReplace` of `applyRuby` (`none` when the construction of the regular
expression throws), and `literalReplace` is what it does for a pattern without
special characters and a format string without `$`. -/

/-- The UTF-8 bytes of a code point. -/
def utf8EncodeChar (c : Nat) : List Nat :=
  if c < 0x80 then [c]
  else if c < 0x800 then [0xC0 + c / 64, 0x80 + c % 64]
  else if c < 0x10000 then [0xE0 + c / 4096, 0x80 + c / 64 % 64, 0x80 + c % 64]
  else [0xF0 + c / 262144, 0x80 + c / 4096 % 64, 0x80 + c / 64 % 64, 0x80 + c % 64]

/-- The bytes of a UTF-8 string literal. -/
def utf8 (s : String) : List Nat :=
  s.toList.flatMap (fun c => utf8EncodeChar c.toNat)

/-- `operator<` of `std::string`: lexicographic order of the bytes. -/
def stringLt : List Nat → List Nat → Bool
  | [], [] => false
  | [], _ :: _ => true
  | _ :: _, [] => false
  | a :: as, b :: bs => if a < b then true else if b < a then false else stringLt as bs

/-- `m[key] = value` on a `std::map` with string keys, kept as the list of
its entries in key order. -/
def mapSet {β : Type} (m : List (List Nat × β)) (key : List Nat) (value : β) :
    List (List Nat × β) :=
  match m with
  | [] => [(key, value)]
  | (k, v) :: rest =>
    if key = k then (key, value) :: rest
    else if stringLt key k = true then (key, value) :: (k, v) :: rest
    else (k, v) :: mapSet rest key value

/-- `m.find(key)` on such a map. -/
def mapFind {β : Type} (m : List (List Nat × β)) (key : List Nat) : Option β :=
  (m.find? (fun kv => decide (kv.1 = key))).map (fun kv => kv.2)

/-- The values held by the `std::any` objects of the plugin configuration,
with the type that `std::any_cast` tests: a string literal assigned to a
`std::any` is held as a `const char*`, not as a `std::string`. -/
inductive AnyValue where
  | empty
  | bool (value : Bool)
  | int (value : Int)
  | string (value : List Nat)
  | cstring (value : List Nat)
  deriving DecidableEq

/-- How a call of `applyRuby` ends: it returns a string, or one of three
exceptions leaves it. -/
inductive ApplyRubyResult where
  | returned (text : List Nat)
  | badAnyCast
  | outOfRange
  | regexError
  deriving DecidableEq

/-- The members of `class SampleRubyPlugin`. -/
structure SampleRubyPlugin where
  m_enabled : Bool
  m_rubyMap : List (List Nat × List Nat)
  m_config : List (List Nat × AnyValue)
  deriving DecidableEq

/-- `std::regex_replace(text, std::regex(pattern), fmt)` inside a replaced
occurrence (`skip` bytes of it are left) and outside of one, for a non-empty
pattern. -/
def literalReplaceLoop (pattern fmt : List Nat) : Nat → List Nat → List Nat
  | _, [] => []
  | skip + 1, _ :: rest => literalReplaceLoop pattern fmt skip rest
  | 0, c :: rest =>
    if pattern.isPrefixOf (c :: rest) = true then
      fmt ++ literalReplaceLoop pattern fmt (pattern.length - 1) rest
    else c :: literalReplaceLoop pattern fmt 0 rest

/-- `std::regex_replace(text, std::regex(pattern), fmt)` for a pattern
without special characters and a format string without `$`: every occurrence
of the pattern, found from left to right without overlap, is replaced by
`fmt`; the empty pattern matches before every byte and at the end. -/
def literalReplace (text pattern fmt : List Nat) : Option (List Nat) :=
  if pattern = [] then some (text.flatMap (fun c => fmt ++ [c]) ++ fmt)
  else some (literalReplaceLoop pattern fmt 0 text)

namespace SampleRubyPlugin

/-- The mappings added by the constructor, in source order. -/
def defaultMappings : List (String × String) :=
  [("日本語", "にほんご"), ("漢字", "かんじ"), ("仮名", "かな"), ("組版", "くみはん"),
   ("禁則", "きんそく"), ("文字詰め", "もじづめ"), ("行分割", "ぎょうぶんかつ"),
   ("縦書き", "たてがき"), ("横書き", "よこがき")]

/-- The constructor `SampleRubyPlugin::SampleRubyPlugin()`. -/
def new : SampleRubyPlugin where
  m_enabled := false
  m_rubyMap := defaultMappings.foldl (fun m kv => mapSet m (utf8 kv.1) (utf8 kv.2)) []
  m_config :=
    mapSet
      (mapSet (mapSet [] (utf8 "autoApply") (AnyValue.bool true))
        (utf8 "rubyFormat") (AnyValue.cstring (utf8 "《》")))
      (utf8 "minKanjiLength") (AnyValue.int 2)

/-- `SampleRubyPlugin::enable` (it returns `true`). -/
def enable (p : SampleRubyPlugin) : SampleRubyPlugin :=
  { p with m_enabled := true }

/-- `SampleRubyPlugin::getConfig`. -/
def getConfig (p : SampleRubyPlugin) (key : List Nat) : AnyValue :=
  (mapFind p.m_config key).getD AnyValue.empty

/-- `SampleRubyPlugin::setConfig` (it returns `true`). -/
def setConfig (p : SampleRubyPlugin) (key : List Nat) (value : AnyValue) : SampleRubyPlugin :=
  { p with m_config := mapSet p.m_config key value }

/-- The loop of `applyRuby` over the mappings in key order. The comparison
`kanji.length() >= minKanjiLength` is made in `size_t`. -/
def applyMappings (regexReplace : List Nat → List Nat → List Nat → Option (List Nat))
    (rubyOpen rubyClose : List Nat) (minKanjiLength : Int) :
    List (List Nat × List Nat) → List Nat → ApplyRubyResult
  | [], result => ApplyRubyResult.returned result
  | (kanji, ruby) :: rest, result =>
    if (minKanjiLength % 2 ^ 64).toNat ≤ kanji.length then
      match regexReplace result kanji (kanji ++ rubyOpen ++ ruby ++ rubyClose) with
      | some replaced =>
        applyMappings regexReplace rubyOpen rubyClose minKanjiLength rest replaced
      | none => ApplyRubyResult.regexError
    else applyMappings regexReplace rubyOpen rubyClose minKanjiLength rest result

/-- `SampleRubyPlugin::applyRuby`. `std::any_cast` throws `std::bad_any_cast`
on a value of another type; `rubyFormat.substr(1, 1)` throws
`std::out_of_range` on the empty string. -/
def applyRuby (regexReplace : List Nat → List Nat → List Nat → Option (List Nat))
    (p : SampleRubyPlugin) (text : List Nat) : ApplyRubyResult :=
  if p.m_enabled = false then ApplyRubyResult.returned text
  else
    match p.getConfig (utf8 "autoApply") with
    | AnyValue.bool autoApply =>
      if autoApply = false then ApplyRubyResult.returned text
      else
        match p.getConfig (utf8 "rubyFormat") with
        | AnyValue.string rubyFormat =>
          if rubyFormat.length < 1 then ApplyRubyResult.outOfRange
          else
            match p.getConfig (utf8 "minKanjiLength") with
            | AnyValue.int minKanjiLength =>
              applyMappings regexReplace (rubyFormat.take 1) ((rubyFormat.drop 1).take 1)
                minKanjiLength p.m_rubyMap text
            | _ => ApplyRubyResult.badAnyCast
        | _ => ApplyRubyResult.badAnyCast
    | _ => ApplyRubyResult.badAnyCast

end SampleRubyPlugin

/-! ### Notions used to state the properties of the command line -/

namespace CommandLineInterface

/-- How an argument is read: an option standing alone, an option together
with the argument taken as its value, or an argument that is neither. -/
inductive ArgItem where
  | option (name : List Char)
  | optionValue (name value : List Char)
  | other (arg : List Char)
  deriving DecidableEq

/-- The options that take no value. -/
def flagNames : List (List Char) :=
  ["-h", "--help", "-v", "--version", "--verbose", "--horizontal", "--vertical"].map String.toList

/-- The options whose value is a string. -/
def stringOptionNames : List (List Char) :=
  ["-i", "--input", "-o", "--output", "-f", "--format", "-s", "--style",
   "--font-family"].map String.toList

/-- The options whose value is a number. -/
def numberOptionNames : List (List Char) :=
  ["--page-width", "--page-height", "--margin-top", "--margin-bottom", "--margin-left",
   "--margin-right", "--font-size", "--line-height"].map String.toList

/-- The reading of an argument list, from left to right: a known option takes
the next argument as its value when it needs one and there is one; any other
argument starting with `--` is an option, which takes the next argument as its
value unless that argument starts with `-`; every other argument is neither
an option nor the value of one. -/
def readArgs : List (List Char) → List ArgItem
  | [] => []
  | arg :: rest =>
    if arg ∈ flagNames then ArgItem.option arg :: readArgs rest
    else if arg ∈ stringOptionNames ∨ arg ∈ numberOptionNames then
      match rest with
      | value :: rest' => ArgItem.optionValue arg value :: readArgs rest'
      | [] => [ArgItem.option arg]
    else if arg.take 2 = "--".toList then
      if rest.head?.map (fun value => decide (value.head? ≠ some '-')) = some true then
        match rest with
        | value :: rest' => ArgItem.optionValue arg value :: readArgs rest'
        | [] => [ArgItem.option arg]
      else ArgItem.option arg :: readArgs rest
    else ArgItem.other arg :: readArgs rest

/-- The values given to the options called `names`, in order. -/
def valuesOf (names : List (List Char)) (items : List ArgItem) : List (List Char) :=
  items.filterMap (fun item =>
    match item with
    | ArgItem.optionValue name value => if name ∈ names then some value else none
    | _ => none)

/-- The arguments that are neither an option nor the value of one, in order. -/
def otherArgs (items : List ArgItem) : List (List Char) :=
  items.filterMap (fun item =>
    match item with
    | ArgItem.other arg => some arg
    | _ => none)

/-- The output format that the last `-f`/`--format` value stands for. -/
def formatOf (value : List Char) : List Char :=
  if value = "pdf".toList ∨ value = "epub".toList ∨ value = "html".toList then value
  else "pdf".toList

/-- The output format that an argument list asks for: that of the last
`-f`/`--format` value, `"pdf"` when there is none. -/
def expectedOutputFormat (args : List (List Char)) : List Char :=
  match (valuesOf ["-f".toList, "--format".toList] (readArgs args)).getLast? with
  | none => "pdf".toList
  | some value => formatOf value

/-- The first non-empty argument that is neither an option nor the value of
one; the empty string when there is none. -/
def firstOtherArg (args : List (List Char)) : List Char :=
  ((otherArgs (readArgs args)).find? (fun arg => decide (arg ≠ []))).getD []

end CommandLineInterface

/-! ### Notions used to state the properties of the solver -/

namespace LineBreaker

/-- The position of the break point of index `k`. -/
def pos (breakPoints : List BreakPoint) (k : Nat) : Nat :=
  (breakPoints.getD k default).position

/-- The width of the text between the break points of indices `i` and `j`:
the sum of the widths of its characters. -/
def edgeWidth (u : UnicodeHandler) (text : List Nat) (breakPoints : List BreakPoint)
    (style : Style) (vertical : Bool) (i j : Nat) : ℚ :=
  ((((text.drop (pos breakPoints i)).take (pos breakPoints j - pos breakPoints i))).map
    (fun ch => calculateCharacterWidth u ch style vertical)).sum

/-- The fill penalty of a line of width `w`: `100 * (1 - w / maxWidth) ^ 2`
below the maximum width, zero otherwise. -/
def fillPenalty (maxWidth w : ℚ) : ℚ :=
  if w < maxWidth then 100 * (1 - w / maxWidth) ^ 2 else 0

/-- A step from index `i` to index `j` is allowed: the segment fits, or the
break point `j` is mandatory. -/
def feasible (u : UnicodeHandler) (text : List Nat) (breakPoints : List BreakPoint)
    (style : Style) (maxWidth : ℚ) (vertical : Bool) (i j : Nat) : Prop :=
  edgeWidth u text breakPoints style vertical i j ≤ maxWidth
    ∨ (breakPoints.getD j default).mandatory = true

instance feasibleDecidable (u : UnicodeHandler) (text : List Nat)
    (breakPoints : List BreakPoint) (style : Style) (maxWidth : ℚ) (vertical : Bool)
    (i j : Nat) : Decidable (feasible u text breakPoints style maxWidth vertical i j) :=
  inferInstanceAs (Decidable (_ ∨ _))

/-- The cost of a step: fill penalty of the segment plus penalty of the break
point reached. -/
def stepCost (u : UnicodeHandler) (text : List Nat) (breakPoints : List BreakPoint)
    (style : Style) (maxWidth : ℚ) (vertical : Bool) (i j : Nat) : ℚ :=
  fillPenalty maxWidth (edgeWidth u text breakPoints style vertical i j)
    + (breakPoints.getD j default).penalty

/-- A path: indices `0 = k0 < k1 < ... < km = last index`, every step
allowed. -/
def IsPath (u : UnicodeHandler) (text : List Nat) (breakPoints : List BreakPoint)
    (style : Style) (maxWidth : ℚ) (vertical : Bool) (ks : List Nat) : Prop :=
  ks.head? = some 0 ∧ ks.getLast? = some (breakPoints.length - 1)
    ∧ List.Chain' (fun a b => a < b ∧ feasible u text breakPoints style maxWidth vertical a b) ks

/-- The cost of a path: the sum of the costs of its steps. -/
def pathCost (u : UnicodeHandler) (text : List Nat) (breakPoints : List BreakPoint)
    (style : Style) (maxWidth : ℚ) (vertical : Bool) : List Nat → ℚ
  | a :: b :: rest =>
    stepCost u text breakPoints style maxWidth vertical a b
      + pathCost u text breakPoints style maxWidth vertical (b :: rest)
  | _ => 0

/-- The break point that the body of the scanning loop of `findBreakPoints`
appends at index `i`, if it appends one. -/
def stepPoint (rules : TypesettingRules) (text : List Nat) (i : Nat) : Option BreakPoint :=
  if text.getD i 0 = 0x0A then some { position := i + 1, penalty := 0, mandatory := true }
  else if text.getD i 0 = 0x20 ∨ text.getD i 0 = 0x09 then
    some { position := i + 1, penalty := 50, mandatory := false }
  else if 0 < i ∧ UnicodeHandler.isJapaneseCharacter (text.getD (i - 1) 0) = true
      ∧ UnicodeHandler.isJapaneseCharacter (text.getD i 0) = true then
    if rules.isLineStartProhibited (text.getD i 0) = true then none
    else if rules.isLineEndProhibited (text.getD (i - 1) 0) = true then none
    else if rules.isInseparable (text.getD i 0) = true
        ∨ rules.isInseparable (text.getD (i - 1) 0) = true then none
    else some { position := i, penalty := 100, mandatory := false }
  else none

/-! Invariants of the two loops of the solver. -/

/-- Entry `j` of table `t` is settled with respect to the candidates below
`I`, whose values are read in `t0`: the value is a lower bound of every
candidate total, it is attained by the recorded predecessor, which is the
first candidate attaining it, and an infinite value has predecessor `0`. -/
def settled (u : UnicodeHandler) (text : List Nat) (breakPoints : List BreakPoint)
    (style : Style) (maxWidth : ℚ) (vertical : Bool) (I : Nat) (t0 t : Table) (j : Nat) : Prop :=
  (∀ i, i < I → feasible u text breakPoints style maxWidth vertical i j →
    ∀ mi, t0.minPenalty.getD i none = some mi →
      ∃ mj, t.minPenalty.getD j none = some mj
        ∧ mj ≤ mi + stepCost u text breakPoints style maxWidth vertical i j)
  ∧ (∀ mj, t.minPenalty.getD j none = some mj →
      t.prev.getD j 0 < I
      ∧ feasible u text breakPoints style maxWidth vertical (t.prev.getD j 0) j
      ∧ ∃ mp, t0.minPenalty.getD (t.prev.getD j 0) none = some mp
          ∧ mj = mp + stepCost u text breakPoints style maxWidth vertical (t.prev.getD j 0) j
          ∧ ∀ i, i < t.prev.getD j 0 →
              feasible u text breakPoints style maxWidth vertical i j →
              ∀ mi, t0.minPenalty.getD i none = some mi →
                mj < mi + stepCost u text breakPoints style maxWidth vertical i j)
  ∧ (t.minPenalty.getD j none = none → t.prev.getD j 0 = 0)

/-- The table after the outer loop has handled the indices below `J`. -/
def tableInv (u : UnicodeHandler) (text : List Nat) (breakPoints : List BreakPoint)
    (style : Style) (maxWidth : ℚ) (vertical : Bool) (J : Nat) (t : Table) : Prop :=
  t.minPenalty.length = breakPoints.length ∧ t.prev.length = breakPoints.length
  ∧ t.minPenalty.getD 0 none = some 0 ∧ t.prev.getD 0 0 = 0
  ∧ (∀ j, 1 ≤ j → j < J → settled u text breakPoints style maxWidth vertical j t t j)
  ∧ (∀ j, J ≤ j → t.minPenalty.getD j none = none ∧ t.prev.getD j 0 = 0)

/-- The indices pushed by the backward walk from `j`, in the order of the
walk. -/
def walkIndices (prev : List Nat) : Nat → Nat → List Nat
  | _, 0 => []
  | 0, _ + 1 => []
  | fuel + 1, j + 1 =>
    if 0 < prev.getD (j + 1) 0 then
      prev.getD (j + 1) 0 :: walkIndices prev fuel (prev.getD (j + 1) 0)
    else []

end LineBreaker

/-! ### Concrete data for the worked examples -/

/-- An East Asian Width table for the characters of the examples: Wide or
Fullwidth for U+3000..U+9FFF and U+FF01..U+FF60, Narrow for printable ASCII,
Neutral (neither full- nor half-width) otherwise, as for U+000A. -/
def exampleHandler : UnicodeHandler where
  isFullWidthCharacter := fun c =>
    decide ((0x3000 ≤ c ∧ c ≤ 0x9FFF) ∨ (0xFF01 ≤ c ∧ c ≤ 0xFF60))
  isHalfWidthCharacter := fun c => decide (0x20 ≤ c ∧ c ≤ 0x7E)

/-- A style with font size 10 and line height 1.5, left aligned. -/
def exampleStyle : Style where
  fontSize := 10
  lineHeight := 3 / 2
  textAlignment := TextAlignment.Left

/-- A line of `exampleStyle` (height 15, baseline 8) without explicit break. -/
def exampleLine (text : List Nat) (width : ℚ) : TextLine where
  text := text
  width := width
  height := 15
  baseline := 8
  hasLineBreak := false

/-! ### Notions used to state the properties -/

namespace TypesettingEngine

/-- The total character width of a text: the sum of the widths of its
characters. -/
def textWidth (u : UnicodeHandler) (style : Style) (vertical : Bool) (s : List Nat) : ℚ :=
  (s.map (fun c => calculateCharacterWidth u c style vertical)).sum

/-- The total character width of a text as the loop of `breakLines` computes
it: `width = 0.0`, then `width += charWidth` for each character from left to
right, every sum rounded to double precision. -/
def accumulatedWidth (u : UnicodeHandler) (style : Style) (vertical : Bool) (s : List Nat) : ℚ :=
  s.foldl (fun w c => roundDouble (w + calculateCharacterWidth u c style vertical)) 0

/-- A list of segments as lines: every segment but the last is followed by a
newline and is flagged; the last one is not flagged, and is left out when it
is empty. -/
def flagSegments (segments : List (List Nat)) : List (List Nat × Bool) :=
  segments.dropLast.map (fun s => (s, true)) ++
    (if segments.getLast?.getD [] = [] then [] else [(segments.getLast?.getD [], false)])

/-- The newline-delimited segments of a text, as lines. -/
def segmentLines (text : List Nat) : List (List Nat × Bool) :=
  flagSegments (text.splitOn 0x0A)

/-- A character is prohibited when it may not start a line or may not end
one. -/
def prohibited (rules : TypesettingRules) (c : Nat) : Prop :=
  rules.isLineStartProhibited c = true ∨ rules.isLineEndProhibited c = true

/-- Two characters may stand next to each other in a text with isolated
prohibited characters: they are not both prohibited. -/
def compatible (rules : TypesettingRules) (a b : Nat) : Prop :=
  ¬ (prohibited rules a ∧ prohibited rules b)

/-- No two adjacent characters of the text are both prohibited. -/
def noAdjacentProhibited (rules : TypesettingRules) (text : List Nat) : Prop :=
  List.Chain' (compatible rules) text

/-- The prohibition rules at one line boundary: when `current` has no explicit
break and `next` is not empty, `current` does not end with a
line-end-prohibited character and `next` does not start with a
line-start-prohibited one. -/
def kinsokuPair (rules : TypesettingRules) (current next : TextLine) : Prop :=
  current.hasLineBreak = false → next.text ≠ [] →
    (∀ c ∈ current.text.getLast?, rules.isLineEndProhibited c = false) ∧
    (∀ c ∈ next.text.head?, rules.isLineStartProhibited c = false)

/-- The prohibition rules at every boundary of adjacent lines. -/
def kinsokuHolds (rules : TypesettingRules) (lines : List TextLine) : Prop :=
  List.Chain' (kinsokuPair rules) lines

/-! Invariants of the greedy lines of a text with isolated prohibited
characters, used in the proof that the adjustment establishes the prohibition
rules. -/

/-- A line of such a text: its characters are pairwise compatible, and it is
empty only if it ends with an explicit break. -/
def lineOk (rules : TypesettingRules) (l : TextLine) : Prop :=
  List.Chain' (compatible rules) l.text ∧ (l.hasLineBreak = false → l.text ≠ [])

/-- A boundary without explicit break: the next line is not empty and the two
characters at the boundary are compatible. -/
def boundaryOk (rules : TypesettingRules) (current next : TextLine) : Prop :=
  current.hasLineBreak = false →
    next.text ≠ [] ∧ ∀ a ∈ current.text.getLast?, ∀ b ∈ next.text.head?, compatible rules a b

/-- The two conditions on a list of lines. -/
def linesOk (rules : TypesettingRules) (lines : List TextLine) : Prop :=
  (∀ l ∈ lines, lineOk rules l) ∧ List.Chain' (boundaryOk rules) lines

/-- The condition on the current line of an iteration of the adjustment loop,
which the previous iteration may have changed; `prevOpen` tells whether the
line before it has no explicit break. -/
def carryOk (rules : TypesettingRules) (prevOpen : Bool) (c : TextLine)
    (rest : List TextLine) : Prop :=
  List.Chain' (compatible rules) c.text
  ∧ (∀ n ∈ rest.head?, c.hasLineBreak = false →
      n.text ≠ [] ∧ (∀ a ∈ c.text.getLast?, ∀ b ∈ n.text.head?, compatible rules a b)
        ∧ (c.text = [] → ∀ b ∈ n.text.head?, rules.isLineStartProhibited b = false))
  ∧ (prevOpen = true → ∀ x ∈ c.text.head?, rules.isLineStartProhibited x = false)

/-- The text that a list of lines stands for: the texts of the lines in
order, with a `\n` after every line flagged `hasLineBreak`. -/
def renderLines (lines : List TextLine) : List Nat :=
  (lines.map (fun l => l.text ++ (if l.hasLineBreak = true then [0x0A] else []))).flatten

end TypesettingEngine

/-! ## Lemmas and theorems -/

/-! ### Double-precision rounding -/

theorem pow2_eq (e : ℤ) : pow2 e = (2 : ℚ) ^ e := by
  unfold pow2
  split_ifs with h
  · obtain ⟨n, rfl⟩ := Int.eq_ofNat_of_zero_le h
    simp
  · obtain ⟨n, hn⟩ := Int.eq_ofNat_of_zero_le (show 0 ≤ -e by omega)
    have he : e = -(n : ℤ) := by omega
    subst he
    simp

theorem pow2_pos (e : ℤ) : 0 < pow2 e := by
  rw [pow2_eq]; positivity

theorem log2Loop_spec : ∀ fuel n : Nat, n ≠ 0 → n ≤ fuel →
    2 ^ log2Loop fuel n ≤ n ∧ n < 2 ^ (log2Loop fuel n + 1) := by
  intro fuel
  induction fuel with
  | zero => intro n h0 h; omega
  | succ fuel ih =>
    intro n h0 h
    unfold log2Loop
    split_ifs with h2
    · obtain ⟨a, b⟩ := ih (n / 2) (by omega) (by omega)
      constructor
      · rw [pow_succ]; omega
      · rw [pow_succ] at b ⊢; omega
    · constructor
      · simp; omega
      · simp; omega

theorem floorLog2_spec (q : ℚ) (hq : 0 < q) :
    (2 : ℚ) ^ floorLog2 q ≤ q ∧ q < (2 : ℚ) ^ (floorLog2 q + 1) := by
  have hn : 0 < q.num := Rat.num_pos.mpr hq
  have hd : 0 < q.den := q.den_pos
  obtain ⟨a1, a2⟩ := log2Loop_spec q.num.toNat q.num.toNat (by omega) le_rfl
  obtain ⟨b1, b2⟩ := log2Loop_spec q.den q.den (by omega) le_rfl
  generalize ha : log2Loop q.num.toNat q.num.toNat = a at a1 a2
  generalize hb : log2Loop q.den q.den = b at b1 b2
  have hnum : ((q.num.toNat : ℕ) : ℚ) = (q.num : ℚ) := by
    have : ((q.num.toNat : ℕ) : ℤ) = q.num := Int.toNat_of_nonneg hn.le
    exact_mod_cast this
  have hqe : q = (q.num.toNat : ℚ) / (q.den : ℚ) := by
    rw [hnum]; exact (Rat.num_div_den q).symm
  have hdq : (0 : ℚ) < (q.den : ℚ) := by exact_mod_cast hd
  have A1 : (2 : ℚ) ^ a ≤ (q.num.toNat : ℚ) := by exact_mod_cast a1
  have A2 : (q.num.toNat : ℚ) < (2 : ℚ) ^ (a + 1) := by exact_mod_cast a2
  have B1 : (2 : ℚ) ^ b ≤ (q.den : ℚ) := by exact_mod_cast b1
  have B2 : (q.den : ℚ) < (2 : ℚ) ^ (b + 1) := by exact_mod_cast b2
  have hlt : q < (2 : ℚ) ^ ((a : ℤ) - (b : ℤ) + 1) := by
    have e : (2 : ℚ) ^ ((a : ℤ) - (b : ℤ) + 1) = (2 : ℚ) ^ (a + 1) / (2 : ℚ) ^ b := by
      rw [show (a : ℤ) - (b : ℤ) + 1 = ((a + 1 : ℕ) : ℤ) - ((b : ℕ) : ℤ) by push_cast; ring,
        zpow_sub₀ (by norm_num), zpow_natCast, zpow_natCast]
    rw [e, hqe, div_lt_div_iff₀ hdq (by positivity)]
    calc (q.num.toNat : ℚ) * 2 ^ b < 2 ^ (a + 1) * 2 ^ b := by
          apply mul_lt_mul_of_pos_right A2 (by positivity)
      _ ≤ 2 ^ (a + 1) * (q.den : ℚ) := by
          apply mul_le_mul_of_nonneg_left B1 (by positivity)
  have hgt : (2 : ℚ) ^ ((a : ℤ) - (b : ℤ) - 1) ≤ q := by
    have e : (2 : ℚ) ^ ((a : ℤ) - (b : ℤ) - 1) = (2 : ℚ) ^ a / (2 : ℚ) ^ (b + 1) := by
      rw [show (a : ℤ) - (b : ℤ) - 1 = ((a : ℕ) : ℤ) - ((b + 1 : ℕ) : ℤ) by push_cast; ring,
        zpow_sub₀ (by norm_num), zpow_natCast, zpow_natCast]
    rw [e, hqe, div_le_div_iff₀ (by positivity) hdq]
    calc (2 : ℚ) ^ a * (q.den : ℚ) ≤ 2 ^ a * 2 ^ (b + 1) := by
          apply mul_le_mul_of_nonneg_left B2.le (by positivity)
      _ ≤ (q.num.toNat : ℚ) * 2 ^ (b + 1) := by
          apply mul_le_mul_of_nonneg_right A1 (by positivity)
  unfold floorLog2
  simp only [ha, hb]
  split_ifs with h
  · rw [pow2_eq] at h
    exact ⟨h, hlt⟩
  · rw [pow2_eq] at h
    refine ⟨hgt, ?_⟩
    rw [sub_add_cancel]
    exact not_le.mp h

theorem floorLog2_mono (x y : ℚ) (hx : 0 < x) (hxy : x ≤ y) : floorLog2 x ≤ floorLog2 y := by
  obtain ⟨a, _⟩ := floorLog2_spec x hx
  obtain ⟨_, b⟩ := floorLog2_spec y (lt_of_lt_of_le hx hxy)
  have h : (2 : ℚ) ^ floorLog2 x < (2 : ℚ) ^ (floorLog2 y + 1) :=
    lt_of_le_of_lt (le_trans a hxy) b
  have := (zpow_lt_zpow_iff_right₀ (by norm_num : (1 : ℚ) < 2)).mp h
  omega

theorem floorLog2_lt (x : ℚ) (hx : 0 < x) (k : ℤ) (h : x < (2 : ℚ) ^ k) : floorLog2 x < k := by
  obtain ⟨a, _⟩ := floorLog2_spec x hx
  exact (zpow_lt_zpow_iff_right₀ (by norm_num : (1 : ℚ) < 2)).mp (lt_of_le_of_lt a h)

theorem floorLog2_ge (x : ℚ) (hx : 0 < x) (k : ℤ) (h : (2 : ℚ) ^ k ≤ x) : k ≤ floorLog2 x := by
  obtain ⟨_, b⟩ := floorLog2_spec x hx
  have := (zpow_lt_zpow_iff_right₀ (by norm_num : (1 : ℚ) < 2)).mp (lt_of_le_of_lt h b)
  omega

theorem roundHalfEven_intCast (n : ℤ) : roundHalfEven (n : ℚ) = n := by
  unfold roundHalfEven
  simp

theorem roundHalfEven_le (x : ℚ) : roundHalfEven x ≤ ⌊x⌋ + 1 := by
  unfold roundHalfEven
  split_ifs <;> omega

theorem floor_le_roundHalfEven (x : ℚ) : ⌊x⌋ ≤ roundHalfEven x := by
  unfold roundHalfEven
  split_ifs <;> omega

theorem roundHalfEven_mono (x y : ℚ) (h : x ≤ y) : roundHalfEven x ≤ roundHalfEven y := by
  rcases (Int.floor_mono h).lt_or_eq with hf | hf
  · exact le_trans (roundHalfEven_le x) (le_trans (by omega) (floor_le_roundHalfEven y))
  · unfold roundHalfEven
    rw [← hf]
    have hr : x - ⌊x⌋ ≤ y - ⌊x⌋ := by linarith
    split_ifs <;> first | omega | (exfalso; linarith)

theorem roundDouble_zero : roundDouble 0 = 0 := by
  unfold roundDouble
  rw [zero_div]
  have : roundHalfEven 0 = 0 := by have := roundHalfEven_intCast 0; simpa using this
  rw [this]; simp

theorem roundDouble_nonneg (x : ℚ) (hx : 0 ≤ x) : 0 ≤ roundDouble x := by
  unfold roundDouble
  have h0 : (0 : ℚ) ≤ x / pow2 (doubleExponent x) := div_nonneg hx (pow2_pos _).le
  have h1 := roundHalfEven_mono 0 _ h0
  have : roundHalfEven 0 = 0 := by have := roundHalfEven_intCast 0; simpa using this
  rw [this] at h1
  have h2 : (0 : ℚ) ≤ (roundHalfEven (x / pow2 (doubleExponent x)) : ℚ) := by exact_mod_cast h1
  exact mul_nonneg h2 (pow2_pos _).le

/-- The quotient by the unit in the last place is below `2 ^ 53`. -/
theorem scaled_lt (x : ℚ) (hx : 0 < x) : x / pow2 (doubleExponent x) < (2 : ℚ) ^ (53 : ℤ) := by
  obtain ⟨_, b⟩ := floorLog2_spec x hx
  have he : floorLog2 x - 52 ≤ doubleExponent x := by
    unfold doubleExponent; rw [abs_of_pos hx]; exact le_max_left _ _
  rw [pow2_eq, div_lt_iff₀ (by positivity), ← zpow_add₀ (by norm_num)]
  refine lt_of_lt_of_le b ?_
  exact zpow_le_zpow_right₀ (by norm_num) (by omega)

/-- Above the subnormal range the quotient by the unit in the last place is
at least `2 ^ 52`. -/
theorem scaled_ge (x : ℚ) (hx : 0 < x) (he : -1074 < doubleExponent x) :
    (2 : ℚ) ^ (52 : ℤ) ≤ x / pow2 (doubleExponent x) := by
  obtain ⟨a, _⟩ := floorLog2_spec x hx
  have hd : doubleExponent x = floorLog2 x - 52 := by
    unfold doubleExponent at he ⊢
    rw [abs_of_pos hx] at he ⊢
    rcases max_cases (floorLog2 x - 52) (-1074) with ⟨h1, _⟩ | ⟨h1, _⟩
    · exact h1
    · rw [h1] at he; omega
  rw [pow2_eq, le_div_iff₀ (by positivity), ← zpow_add₀ (by norm_num), hd]
  rw [show (52 : ℤ) + (floorLog2 x - 52) = floorLog2 x by ring]
  exact a

theorem doubleExponent_mono (x y : ℚ) (hx : 0 < x) (hxy : x ≤ y) :
    doubleExponent x ≤ doubleExponent y := by
  unfold doubleExponent
  rw [abs_of_pos hx, abs_of_pos (lt_of_lt_of_le hx hxy)]
  have := floorLog2_mono x y hx hxy
  exact max_le_max (by omega) le_rfl

theorem doubleExponent_ge (x : ℚ) : -1074 ≤ doubleExponent x := le_max_right _ _

/-- Rounding is monotone on the non-negative numbers. -/
theorem roundDouble_mono (x y : ℚ) (hx : 0 ≤ x) (hxy : x ≤ y) :
    roundDouble x ≤ roundDouble y := by
  rcases hx.lt_or_eq with hx | hx
  · have hy : 0 < y := lt_of_lt_of_le hx hxy
    rcases (doubleExponent_mono x y hx hxy).lt_or_eq with he | he
    · -- different binades
      have h1 : roundHalfEven (x / pow2 (doubleExponent x)) ≤ 2 ^ 53 := by
        have := roundHalfEven_mono _ _ (scaled_lt x hx).le
        have e : ((2 : ℚ) ^ (53 : ℤ)) = ((2 ^ 53 : ℤ) : ℚ) := by norm_num
        rw [e, roundHalfEven_intCast] at this
        exact this
      have h2 : 2 ^ 52 ≤ roundHalfEven (y / pow2 (doubleExponent y)) := by
        have := roundHalfEven_mono _ _
          (scaled_ge y hy (lt_of_le_of_lt (doubleExponent_ge x) he))
        have e : ((2 : ℚ) ^ (52 : ℤ)) = ((2 ^ 52 : ℤ) : ℚ) := by norm_num
        rw [e, roundHalfEven_intCast] at this
        exact this
      unfold roundDouble
      have h1q : (roundHalfEven (x / pow2 (doubleExponent x)) : ℚ) ≤ (2 : ℚ) ^ (53 : ℤ) := by
        have e : ((2 : ℚ) ^ (53 : ℤ)) = ((2 ^ 53 : ℤ) : ℚ) := by norm_num
        rw [e]
        exact_mod_cast h1
      have h2q : (2 : ℚ) ^ (52 : ℤ) ≤ (roundHalfEven (y / pow2 (doubleExponent y)) : ℚ) := by
        have e : ((2 : ℚ) ^ (52 : ℤ)) = ((2 ^ 52 : ℤ) : ℚ) := by norm_num
        rw [e]
        exact_mod_cast h2
      calc (roundHalfEven (x / pow2 (doubleExponent x)) : ℚ) * pow2 (doubleExponent x)
          ≤ (2 : ℚ) ^ (53 : ℤ) * pow2 (doubleExponent x) :=
            mul_le_mul_of_nonneg_right h1q (pow2_pos _).le
        _ = (2 : ℚ) ^ (53 + doubleExponent x) := by
            rw [pow2_eq, ← zpow_add₀ (by norm_num)]
        _ ≤ (2 : ℚ) ^ (52 + doubleExponent y) :=
            zpow_le_zpow_right₀ (by norm_num) (by omega)
        _ = (2 : ℚ) ^ (52 : ℤ) * pow2 (doubleExponent y) := by
            rw [pow2_eq, ← zpow_add₀ (by norm_num)]
        _ ≤ (roundHalfEven (y / pow2 (doubleExponent y)) : ℚ) * pow2 (doubleExponent y) :=
            mul_le_mul_of_nonneg_right h2q (pow2_pos _).le
    · unfold roundDouble
      rw [← he]
      have := roundHalfEven_mono (x / pow2 (doubleExponent x)) (y / pow2 (doubleExponent x))
        (div_le_div_of_nonneg_right hxy (pow2_pos _).le)
      have hq : (roundHalfEven (x / pow2 (doubleExponent x)) : ℚ)
          ≤ (roundHalfEven (y / pow2 (doubleExponent x)) : ℚ) := by exact_mod_cast this
      exact mul_le_mul_of_nonneg_right hq (pow2_pos _).le
  · rw [← hx, roundDouble_zero]
    exact roundDouble_nonneg y (le_trans (le_of_eq hx) hxy)

/-- A number with a significand of at most 53 bits and an exponent in range
is its own rounding. -/
theorem roundDouble_of_significand (m : ℕ) (e : ℤ) (hm : m ≤ 2 ^ 53) (he : -1074 ≤ e) :
    roundDouble ((m : ℚ) * (2 : ℚ) ^ e) = (m : ℚ) * (2 : ℚ) ^ e := by
  rcases Nat.eq_zero_or_pos m with h0 | hpos
  · subst h0; simp [roundDouble_zero]
  have hv : (0 : ℚ) < (m : ℚ) * (2 : ℚ) ^ e := by positivity
  -- the exponent of the value: at most `e`, or `e + 1` for `m = 2 ^ 53`
  rcases hm.lt_or_eq with hlt | heq
  · have hk : floorLog2 ((m : ℚ) * (2 : ℚ) ^ e) < 53 + e := by
      apply floorLog2_lt _ hv
      rw [zpow_add₀ (by norm_num)]
      apply mul_lt_mul_of_pos_right _ (by positivity)
      have e : ((2 : ℚ) ^ (53 : ℤ)) = ((2 ^ 53 : ℕ) : ℚ) := by norm_num
      rw [e]
      exact_mod_cast hlt
    have hd : doubleExponent ((m : ℚ) * (2 : ℚ) ^ e) ≤ e := by
      unfold doubleExponent
      rw [abs_of_pos hv]
      exact max_le (by omega) he
    obtain ⟨j, hj⟩ := Int.eq_ofNat_of_zero_le (show 0 ≤ e - doubleExponent ((m : ℚ) * 2 ^ e) by omega)
    unfold roundDouble
    generalize doubleExponent ((m : ℚ) * (2 : ℚ) ^ e) = d at hd hj
    have hs : (m : ℚ) * (2 : ℚ) ^ e / pow2 d = (((m * 2 ^ j : ℕ) : ℤ) : ℚ) := by
      rw [pow2_eq, mul_div_assoc, ← zpow_sub₀ (by norm_num), hj]
      push_cast
      rw [zpow_natCast]
    rw [hs, roundHalfEven_intCast, ← hs, pow2_eq]
    field_simp
  · subst heq
    have hval : ((2 ^ 53 : ℕ) : ℚ) * (2 : ℚ) ^ e = (2 : ℚ) ^ (53 + e) := by
      rw [zpow_add₀ (by norm_num)]; norm_num
    have hk : floorLog2 ((2 : ℚ) ^ (53 + e)) = 53 + e := by
      have hp : (0 : ℚ) < (2 : ℚ) ^ (53 + e) := by positivity
      have a := floorLog2_ge _ hp (53 + e) le_rfl
      have b := floorLog2_lt _ hp (53 + e + 1)
        (zpow_lt_zpow_right₀ (by norm_num) (by omega))
      omega
    rw [hval]
    have hp : (0 : ℚ) < (2 : ℚ) ^ (53 + e) := by positivity
    have hd : doubleExponent ((2 : ℚ) ^ (53 + e)) = e + 1 := by
      unfold doubleExponent
      rw [abs_of_pos hp, hk]
      rw [max_eq_left (by omega)]
      ring
    unfold roundDouble
    rw [hd]
    have hs : (2 : ℚ) ^ (53 + e) / pow2 (e + 1) = (((2 ^ 52 : ℕ) : ℤ) : ℚ) := by
      rw [pow2_eq, ← zpow_sub₀ (by norm_num)]
      rw [show 53 + e - (e + 1) = (52 : ℤ) by ring]
      norm_num
    rw [hs, roundHalfEven_intCast, ← hs, pow2_eq]
    field_simp

/-- The result of a rounding is a double: rounding it again changes nothing. -/
theorem roundDouble_idem (x : ℚ) (hx : 0 ≤ x) : roundDouble (roundDouble x) = roundDouble x := by
  rcases hx.lt_or_eq with hx | hx
  · have h0 : 0 ≤ roundHalfEven (x / pow2 (doubleExponent x)) := by
      have := roundHalfEven_mono 0 _ (div_nonneg hx.le (pow2_pos (doubleExponent x)).le)
      have e : roundHalfEven 0 = 0 := by have := roundHalfEven_intCast 0; simpa using this
      rw [e] at this; exact this
    have h1 : roundHalfEven (x / pow2 (doubleExponent x)) ≤ 2 ^ 53 := by
      have := roundHalfEven_mono _ _ (scaled_lt x hx).le
      have e : ((2 : ℚ) ^ (53 : ℤ)) = ((2 ^ 53 : ℤ) : ℚ) := by norm_num
      rw [e, roundHalfEven_intCast] at this
      exact this
    obtain ⟨m, hm⟩ := Int.eq_ofNat_of_zero_le h0
    have hr : roundDouble x = (m : ℚ) * (2 : ℚ) ^ doubleExponent x := by
      unfold roundDouble
      rw [hm, pow2_eq]
      simp
    rw [hr]
    exact roundDouble_of_significand m _ (by rw [hm] at h1; exact_mod_cast h1)
      (doubleExponent_ge x)
  · rw [← hx, roundDouble_zero, roundDouble_zero]

namespace TypesettingEngine

/-! ### The adjustment loop as a recursion -/

theorem foldl_adjustAt_append (rules : TypesettingRules) (u : UnicodeHandler) (style : Style)
    (vertical : Bool) :
    ∀ (n : Nat) (ls pre : List TextLine), ls.length = n →
      (List.range' pre.length (ls.length - 1)).foldl (adjustAt rules u style vertical) (pre ++ ls)
        = pre ++ sweep rules u style vertical ls := by
  intro n
  induction n with
  | zero =>
    intro ls pre h
    have : ls = [] := List.length_eq_zero.mp h
    subst this
    simp [sweep]
  | succ n ih =>
    intro ls pre h
    match ls, h with
    | [l], _ => simp [sweep]
    | c :: nx :: rest, h =>
      have hlen : (c :: nx :: rest).length - 1 = rest.length + 1 := by simp
      rw [hlen, List.range'_succ, List.foldl_cons]
      have hstep : adjustAt rules u style vertical (pre ++ c :: nx :: rest) pre.length
          = (pre ++ [(adjustPair rules u style vertical c nx).1]) ++
              ((adjustPair rules u style vertical c nx).2 :: rest) := by
        have h1 : (pre ++ c :: nx :: rest)[pre.length]? = some c := by
          rw [List.getElem?_append_right (le_refl _)]; simp
        have h2 : (pre ++ c :: nx :: rest)[pre.length + 1]? = some nx := by
          rw [List.getElem?_append_right (Nat.le_succ _)]; simp
        unfold adjustAt
        rw [h1, h2]
        simp [List.set_append]
      rw [hstep]
      have h2 := ih ((adjustPair rules u style vertical c nx).2 :: rest)
        (pre ++ [(adjustPair rules u style vertical c nx).1]) (by simpa using h)
      simp only [List.length_append, List.length_singleton, List.length_cons, List.length_nil,
        Nat.zero_add, Nat.add_sub_cancel] at h2
      rw [h2, sweep]
      simp

theorem applyProhibitionRules_eq_sweep (rules : TypesettingRules) (u : UnicodeHandler)
    (lines : List TextLine) (style : Style) (vertical : Bool) :
    applyProhibitionRules rules u lines style vertical = sweep rules u style vertical lines := by
  unfold applyProhibitionRules
  split
  · next hlt =>
    match lines, hlt with
    | [], _ => simp [sweep]
    | [l], _ => simp [sweep]
    | _ :: _ :: _, hlt => simp at hlt; omega
  · have := foldl_adjustAt_append rules u style vertical lines.length lines [] rfl
    simpa [List.range_eq_range'] using this

/-! ### Repair of a single pair (C9, C10) -/

theorem applyProhibitionRules_pair (rules : TypesettingRules) (u : UnicodeHandler)
    (style : Style) (vertical : Bool) (currentLine nextLine : TextLine) :
    applyProhibitionRules rules u [currentLine, nextLine] style vertical =
      [(adjustPair rules u style vertical currentLine nextLine).1,
       (adjustPair rules u style vertical currentLine nextLine).2] := by
  rw [applyProhibitionRules_eq_sweep, sweep, sweep]

/-- C9. Line-start repair: on a two-line list whose first line has no explicit
break and does not end with a line-end-prohibited character, and whose second
line starts with a line-start-prohibited character `c`, the adjuster appends
`c` to the first line and removes it from the second (the widths follow by the
width of `c`). -/
theorem applyProhibitionRules_lineStart_repair (rules : TypesettingRules) (u : UnicodeHandler)
    (style : Style) (vertical : Bool) (current next : TextLine) (c : Nat) (rest : List Nat)
    (hbreak : current.hasLineBreak = false)
    (hlast : ∀ l, current.text.getLast? = some l → rules.isLineEndProhibited l = false)
    (hnext : next.text = c :: rest)
    (hc : rules.isLineStartProhibited c = true) :
    applyProhibitionRules rules u [current, next] style vertical =
      [{ current with
          text := current.text ++ [c],
          width := current.width + calculateCharacterWidth u c style vertical },
       { next with
          text := rest,
          width := next.width - calculateCharacterWidth u c style vertical }] := by
  rw [applyProhibitionRules_pair]
  unfold adjustPair
  cases hl : current.text.getLast? with
  | none => simp [hbreak, hnext, hc]
  | some l => simp [hbreak, hnext, hc, hlast l hl]

/-- C9, worked example: the text "これは、テストです。" broken greedily at the
width of three full-width characters starts with the lines "これは" and
"、テス"; the adjuster turns them into "これは、" and "テス". -/
theorem applyProhibitionRules_lineStart_repair_witness :
    (breakLines exampleHandler
        [0x3053, 0x308C, 0x306F, 0x3001, 0x30C6, 0x30B9, 0x30C8, 0x3067, 0x3059, 0x3002]
        exampleStyle 30 false).take 2
      = [exampleLine [0x3053, 0x308C, 0x306F] 30, exampleLine [0x3001, 0x30C6, 0x30B9] 30]
    ∧ applyProhibitionRules TypesettingRules.new exampleHandler
        [exampleLine [0x3053, 0x308C, 0x306F] 30, exampleLine [0x3001, 0x30C6, 0x30B9] 30]
        exampleStyle false
      = [exampleLine [0x3053, 0x308C, 0x306F, 0x3001] 40, exampleLine [0x30C6, 0x30B9] 20] := by
  refine ⟨by decide!, ?_⟩
  have h := applyProhibitionRules_lineStart_repair TypesettingRules.new exampleHandler
    exampleStyle false (exampleLine [0x3053, 0x308C, 0x306F] 30)
    (exampleLine [0x3001, 0x30C6, 0x30B9] 30) 0x3001 [0x30C6, 0x30B9] rfl
    (by decide!) rfl (by decide!)
  rw [h]
  decide!

/-- C10. Line-end repair: on a two-line list whose first line has no explicit
break and ends with a character `c` that is line-end-prohibited and not
line-start-prohibited, and whose second line is not empty, the adjuster
removes `c` from the first line and puts it in front of the second (the
widths follow by the width of `c`). -/
theorem applyProhibitionRules_lineEnd_repair (rules : TypesettingRules) (u : UnicodeHandler)
    (style : Style) (vertical : Bool) (current next : TextLine) (c : Nat)
    (hbreak : current.hasLineBreak = false)
    (hlast : current.text.getLast? = some c)
    (hc : rules.isLineEndProhibited c = true)
    (hc2 : rules.isLineStartProhibited c = false)
    (hnext : next.text ≠ []) :
    applyProhibitionRules rules u [current, next] style vertical =
      [{ current with
          text := current.text.dropLast,
          width := current.width - calculateCharacterWidth u c style vertical },
       { next with
          text := c :: next.text,
          width := next.width + calculateCharacterWidth u c style vertical }] := by
  rw [applyProhibitionRules_pair]
  unfold adjustPair
  simp [hbreak, hnext, hlast, hc, hc2]

/-- C10, worked example: "（テスト）" broken greedily at the width of one
full-width character starts with the lines "（" and "テ"; the adjuster turns
them into the empty line and "（テ". -/
theorem applyProhibitionRules_lineEnd_repair_witness :
    (breakLines exampleHandler [0xFF08, 0x30C6, 0x30B9, 0x30C8, 0xFF09] exampleStyle 10
        false).take 2
      = [exampleLine [0xFF08] 10, exampleLine [0x30C6] 10]
    ∧ applyProhibitionRules TypesettingRules.new exampleHandler
        [exampleLine [0xFF08] 10, exampleLine [0x30C6] 10] exampleStyle false
      = [exampleLine [] 0, exampleLine [0xFF08, 0x30C6] 20] := by
  refine ⟨by decide!, ?_⟩
  have h := applyProhibitionRules_lineEnd_repair TypesettingRules.new exampleHandler
    exampleStyle false (exampleLine [0xFF08] 10) (exampleLine [0x30C6] 10) 0xFF08 rfl rfl
    (by decide!) (by decide!) (by decide)
  rw [h]
  decide!

/-! ### The greedy line loop -/

theorem breakLinesStep_concat (u : UnicodeHandler) (style : Style) (maxWidth : ℚ)
    (vertical : Bool) (st : BreakState) (ch : Nat) :
    ((breakLinesStep u style maxWidth vertical st ch).lines.map TextLine.text).flatten
        ++ (breakLinesStep u style maxWidth vertical st ch).currentLine.text
      = (st.lines.map TextLine.text).flatten ++ st.currentLine.text
          ++ (if ch = 0x0A then [] else [ch]) := by
  unfold breakLinesStep
  by_cases h : ch = 0x0A
  · simp [h, startNewLine]
  · simp only [h, if_false]
    split <;> simp [startNewLine]

theorem foldl_breakLinesStep_concat (u : UnicodeHandler) (style : Style) (maxWidth : ℚ)
    (vertical : Bool) (text : List Nat) :
    ∀ st : BreakState,
      (((text.foldl (breakLinesStep u style maxWidth vertical) st).lines.map
            TextLine.text).flatten
          ++ (text.foldl (breakLinesStep u style maxWidth vertical) st).currentLine.text)
        = (st.lines.map TextLine.text).flatten ++ st.currentLine.text
            ++ text.filter (fun c => decide (c ≠ 0x0A)) := by
  induction text with
  | nil => intro st; simp
  | cons ch t ih =>
    intro st
    rw [List.foldl_cons, ih, breakLinesStep_concat]
    by_cases h : ch = 0x0A
    · simp [h]
    · simp [h, List.filter_cons]

theorem breakLines_concat (u : UnicodeHandler) (text : List Nat) (style : Style) (maxWidth : ℚ)
    (vertical : Bool) :
    ((breakLines u text style maxWidth vertical).map TextLine.text).flatten
      = text.filter (fun c => decide (c ≠ 0x0A)) := by
  have h := foldl_breakLinesStep_concat u style maxWidth vertical text
    { lines := [],
      currentLine :=
        { text := [], width := 0, height := style.fontSize * style.lineHeight,
          baseline := style.fontSize * (8 / 10), hasLineBreak := false } }
  simp only [List.map_nil, List.flatten_nil, List.nil_append] at h
  rw [← h]
  unfold breakLines
  simp only []
  split
  · simp
  · next hempty =>
    simp only [ne_eq, not_not] at hempty
    rw [hempty]; simp

/-! ### What the adjustment loop preserves -/

theorem adjustPair_concat (rules : TypesettingRules) (u : UnicodeHandler) (style : Style)
    (vertical : Bool) (c n : TextLine) :
    (adjustPair rules u style vertical c n).1.text ++ (adjustPair rules u style vertical c n).2.text
      = c.text ++ n.text := by
  unfold adjustPair
  split
  · rfl
  split
  · rfl
  cases hl : c.text.getLast? with
  | none =>
    simp only []
    split
    · split <;> simp_all
    · simp_all
  | some l =>
    have hd : c.text.dropLast ++ [l] = c.text := List.dropLast_append_getLast? l hl
    simp only []
    by_cases he : rules.isLineEndProhibited l = true
    · simp only [he, if_true]
      by_cases hs : rules.isLineStartProhibited l = true
      · simp [hs, hd]
      · simp only [hs]
        simp only [Bool.false_eq_true, if_false]
        conv_rhs => rw [← hd]
        simp
    · simp only [he]
      simp only [Bool.false_eq_true, if_false]
      split
      · split <;> simp_all
      · simp_all

theorem adjustPair_hasLineBreak (rules : TypesettingRules) (u : UnicodeHandler) (style : Style)
    (vertical : Bool) (c n : TextLine) :
    (adjustPair rules u style vertical c n).1.hasLineBreak = c.hasLineBreak
      ∧ (adjustPair rules u style vertical c n).2.hasLineBreak = n.hasLineBreak := by
  unfold adjustPair
  split
  · exact ⟨rfl, rfl⟩
  split
  · exact ⟨rfl, rfl⟩
  cases hl : c.text.getLast? with
  | none =>
    simp only []
    split
    · split <;> simp_all
    · simp_all
  | some l =>
    simp only []
    by_cases he : rules.isLineEndProhibited l = true
    · simp only [he, if_true]
      by_cases hs : rules.isLineStartProhibited l = true
      · simp [hs]
      · simp [hs]
    · simp only [he]
      simp only [Bool.false_eq_true, if_false]
      split
      · split <;> simp_all
      · simp_all

theorem sweep_concat (rules : TypesettingRules) (u : UnicodeHandler) (style : Style)
    (vertical : Bool) :
    ∀ (k : Nat) (ls : List TextLine), ls.length = k →
      ((sweep rules u style vertical ls).map TextLine.text).flatten
        = (ls.map TextLine.text).flatten := by
  intro k
  induction k with
  | zero =>
    intro ls h
    have : ls = [] := List.length_eq_zero.mp h
    subst this; simp [sweep]
  | succ k ih =>
    intro ls h
    match ls, h with
    | [l], _ => simp [sweep]
    | c :: n :: rest, h =>
      rw [sweep]
      simp only [List.map_cons, List.flatten_cons]
      rw [ih _ (by simpa using h)]
      simp only [List.map_cons, List.flatten_cons]
      rw [← List.append_assoc, adjustPair_concat, List.append_assoc]

theorem sweep_hasLineBreak (rules : TypesettingRules) (u : UnicodeHandler) (style : Style)
    (vertical : Bool) :
    ∀ (k : Nat) (ls : List TextLine), ls.length = k →
      (sweep rules u style vertical ls).map TextLine.hasLineBreak
        = ls.map TextLine.hasLineBreak := by
  intro k
  induction k with
  | zero =>
    intro ls h
    have : ls = [] := List.length_eq_zero.mp h
    subst this; simp [sweep]
  | succ k ih =>
    intro ls h
    match ls, h with
    | [l], _ => simp [sweep]
    | c :: n :: rest, h =>
      rw [sweep]
      simp only [List.map_cons]
      rw [ih _ (by simpa using h)]
      simp only [List.map_cons]
      rw [(adjustPair_hasLineBreak rules u style vertical c n).1,
        (adjustPair_hasLineBreak rules u style vertical c n).2]

theorem applyJustification_text (lines : List TextLine) (style : Style) (maxWidth : ℚ)
    (vertical : Bool) :
    (applyJustification lines style maxWidth vertical).map
        (fun l => (l.text, l.hasLineBreak))
      = lines.map (fun l => (l.text, l.hasLineBreak)) := by
  unfold applyJustification
  split
  · rfl
  · rw [List.map_map]
    apply List.map_congr_left
    intro l _
    simp only [Function.comp]
    split
    · rfl
    · split <;> rfl

theorem applyHanging_text (rules : TypesettingRules) (u : UnicodeHandler)
    (lines : List TextLine) (style : Style) (vertical : Bool) :
    (applyHanging rules u lines style vertical).map (fun l => (l.text, l.hasLineBreak))
      = lines.map (fun l => (l.text, l.hasLineBreak)) := by
  unfold applyHanging
  rw [List.map_map]
  apply List.map_congr_left
  intro l _
  simp only [Function.comp]
  split
  · rfl
  · split <;> rfl

theorem applyProhibitionRules_concat (rules : TypesettingRules) (u : UnicodeHandler)
    (lines : List TextLine) (style : Style) (vertical : Bool) :
    ((applyProhibitionRules rules u lines style vertical).map TextLine.text).flatten
      = (lines.map TextLine.text).flatten := by
  rw [applyProhibitionRules_eq_sweep]
  exact sweep_concat rules u style vertical lines.length lines rfl

theorem applyProhibitionRules_hasLineBreak (rules : TypesettingRules) (u : UnicodeHandler)
    (lines : List TextLine) (style : Style) (vertical : Bool) :
    (applyProhibitionRules rules u lines style vertical).map TextLine.hasLineBreak
      = lines.map TextLine.hasLineBreak := by
  rw [applyProhibitionRules_eq_sweep]
  exact sweep_hasLineBreak rules u style vertical lines.length lines rfl

theorem typeset_lines_text (rules : TypesettingRules) (u : UnicodeHandler) (text : List Nat)
    (style : Style) (width : ℚ) (vertical : Bool) :
    (typeset rules u text style width vertical).lines.map (fun l => (l.text, l.hasLineBreak))
      = (applyProhibitionRules rules u (breakLines u text style width vertical) style
          vertical).map (fun l => (l.text, l.hasLineBreak)) := by
  unfold typeset
  simp only []
  rw [applyHanging_text, applyJustification_text]

theorem map_text_of_map_pair {ls ls' : List TextLine}
    (h : ls.map (fun l => (l.text, l.hasLineBreak)) = ls'.map (fun l => (l.text, l.hasLineBreak))) :
    ls.map TextLine.text = ls'.map TextLine.text := by
  have := congrArg (List.map Prod.fst) h
  simpa [List.map_map, Function.comp] using this

/-- C5 (amended). Concatenating in order the texts of the lines of the
`TextBlock` returned by `typeset` gives the text with every newline character
removed: newlines are consumed as line boundaries, every other character is
kept, in order, exactly once. -/
theorem typeset_concat_eq_filter (rules : TypesettingRules) (u : UnicodeHandler)
    (text : List Nat) (style : Style) (width : ℚ) (vertical : Bool) :
    ((typeset rules u text style width vertical).lines.map TextLine.text).flatten
      = text.filter (fun c => decide (c ≠ 0x0A)) := by
  rw [map_text_of_map_pair (typeset_lines_text rules u text style width vertical),
    applyProhibitionRules_concat, breakLines_concat]

/-- C5, counterexample to the claim as stated: for "AB\nCD" at width 1000 the
concatenation of the typeset lines is "ABCD", not the text. -/
theorem typeset_concat_counterexample :
    0 < (1000 : ℚ) ∧
    ((typeset TypesettingRules.new exampleHandler [0x41, 0x42, 0x0A, 0x43, 0x44] exampleStyle
        1000 false).lines.map TextLine.text).flatten = [0x41, 0x42, 0x43, 0x44] ∧
    ((typeset TypesettingRules.new exampleHandler [0x41, 0x42, 0x0A, 0x43, 0x44] exampleStyle
        1000 false).lines.map TextLine.text).flatten ≠ [0x41, 0x42, 0x0A, 0x43, 0x44] := by
  refine ⟨by norm_num, by decide!, by decide!⟩

theorem breakLinesStep_flag (u : UnicodeHandler) (style : Style) (maxWidth : ℚ)
    (vertical : Bool) (st : BreakState) (ch : Nat) (h : st.currentLine.hasLineBreak = false) :
    (breakLinesStep u style maxWidth vertical st ch).currentLine.hasLineBreak = false
      ∧ (breakLinesStep u style maxWidth vertical st ch).lines.countP (fun l => l.hasLineBreak)
          = st.lines.countP (fun l => l.hasLineBreak) + (if ch = 0x0A then 1 else 0) := by
  unfold breakLinesStep
  by_cases hc : ch = 0x0A
  · simp [hc, startNewLine, List.countP_append]
  · simp only [hc, if_false]
    split <;> simp [startNewLine, List.countP_append, h]

theorem foldl_breakLinesStep_flag (u : UnicodeHandler) (style : Style) (maxWidth : ℚ)
    (vertical : Bool) (text : List Nat) :
    ∀ st : BreakState, st.currentLine.hasLineBreak = false →
      (text.foldl (breakLinesStep u style maxWidth vertical) st).currentLine.hasLineBreak = false
      ∧ (text.foldl (breakLinesStep u style maxWidth vertical) st).lines.countP
            (fun l => l.hasLineBreak)
          = st.lines.countP (fun l => l.hasLineBreak) + text.count 0x0A := by
  induction text with
  | nil => intro st h; simp [h]
  | cons ch t ih =>
    intro st h
    have hs := breakLinesStep_flag u style maxWidth vertical st ch h
    have := ih _ hs.1
    rw [List.foldl_cons]
    refine ⟨this.1, ?_⟩
    rw [this.2, hs.2, List.count_cons]
    by_cases hc : ch = 0x0A
    · simp [hc]; ring
    · have : ¬ (0x0A = ch) := fun e => hc e.symm
      simp [hc, this]

theorem breakLines_countP (u : UnicodeHandler) (text : List Nat) (style : Style) (maxWidth : ℚ)
    (vertical : Bool) :
    (breakLines u text style maxWidth vertical).countP (fun l => l.hasLineBreak)
      = text.count 0x0A := by
  have h := foldl_breakLinesStep_flag u style maxWidth vertical text
    { lines := [],
      currentLine :=
        { text := [], width := 0, height := style.fontSize * style.lineHeight,
          baseline := style.fontSize * (8 / 10), hasLineBreak := false } } rfl
  unfold breakLines
  simp only []
  split
  · rw [List.countP_append, h.2]
    simp [h.1]
  · rw [h.2]; simp

theorem countP_hasLineBreak_eq {ls ls' : List TextLine}
    (h : ls.map TextLine.hasLineBreak = ls'.map TextLine.hasLineBreak) :
    ls.countP (fun l => l.hasLineBreak) = ls'.countP (fun l => l.hasLineBreak) := by
  have h1 : ∀ xs : List TextLine,
      xs.countP (fun l => l.hasLineBreak) = (xs.map TextLine.hasLineBreak).countP id := by
    intro xs; rw [List.countP_map]; rfl
  rw [h1, h1, h]

/-- C6. Every newline is a line boundary of the adjusted greedy lines: no
line kept by `applyProhibitionRules` after `breakLines` contains a newline
character, and the number of lines flagged `hasLineBreak` is the number of
newline characters of the text. -/
theorem adjusted_lines_newline_boundaries (rules : TypesettingRules) (u : UnicodeHandler)
    (text : List Nat) (style : Style) (width : ℚ) (vertical : Bool) :
    (∀ l ∈ applyProhibitionRules rules u (breakLines u text style width vertical) style vertical,
        0x0A ∉ l.text)
    ∧ ((applyProhibitionRules rules u (breakLines u text style width vertical) style
          vertical).filter (fun l => l.hasLineBreak)).length = text.count 0x0A := by
  constructor
  · intro l hl hmem
    have hcat := applyProhibitionRules_concat rules u
      (breakLines u text style width vertical) style vertical
    rw [breakLines_concat] at hcat
    have : (0x0A : Nat) ∈ ((applyProhibitionRules rules u
        (breakLines u text style width vertical) style vertical).map TextLine.text).flatten :=
      List.mem_flatten.mpr ⟨l.text, List.mem_map.mpr ⟨l, hl, rfl⟩, hmem⟩
    rw [hcat] at this
    simp at this
  · rw [← List.countP_eq_length_filter,
      countP_hasLineBreak_eq (applyProhibitionRules_hasLineBreak rules u _ style vertical),
      breakLines_countP]

/-! ### Texts whose segments fit (C7) -/

theorem calculateCharacterWidth_nonneg (u : UnicodeHandler) (style : Style) (vertical : Bool)
    (h : 0 ≤ style.fontSize) (c : Nat) : 0 ≤ calculateCharacterWidth u c style vertical := by
  unfold calculateCharacterWidth
  simp only []
  split
  · exact h
  · split
    · exact roundDouble_nonneg _ (by positivity)
    · exact h

theorem textWidth_nonneg (u : UnicodeHandler) (style : Style) (vertical : Bool)
    (h : 0 ≤ style.fontSize) (s : List Nat) : 0 ≤ textWidth u style vertical s := by
  unfold textWidth
  apply List.sum_nonneg
  intro x hx
  obtain ⟨c, _, rfl⟩ := List.mem_map.mp hx
  exact calculateCharacterWidth_nonneg u style vertical h c

theorem textWidth_append (u : UnicodeHandler) (style : Style) (vertical : Bool)
    (s t : List Nat) :
    textWidth u style vertical (s ++ t) = textWidth u style vertical s + textWidth u style vertical t := by
  simp [textWidth]

theorem textWidth_singleton (u : UnicodeHandler) (style : Style) (vertical : Bool) (c : Nat) :
    textWidth u style vertical [c] = calculateCharacterWidth u c style vertical := by
  simp [textWidth]

theorem splitOn_newline_cons (c : Nat) (t : List Nat) :
    (c :: t).splitOn 0x0A =
      if c = 0x0A then [] :: t.splitOn 0x0A else (t.splitOn 0x0A).modifyHead (List.cons c) := by
  unfold List.splitOn
  rw [List.splitOnP_cons]
  by_cases h : c = 0x0A <;> simp [h]

theorem splitOn_newline_ne_nil (t : List Nat) : t.splitOn 0x0A ≠ [] :=
  List.splitOnP_ne_nil _ _

theorem flagSegments_cons (x : List Nat) (S : List (List Nat)) (h : S ≠ []) :
    flagSegments (x :: S) = (x, true) :: flagSegments S := by
  obtain ⟨y, ys, rfl⟩ := List.exists_cons_of_ne_nil h
  simp [flagSegments, List.getLast?_cons_cons]

theorem flagSegments_singleton (x : List Nat) :
    flagSegments [x] = if x = [] then [] else [(x, false)] := by
  simp [flagSegments]

theorem flagSegments_dropLast (S : List (List Nat)) :
    ∀ p ∈ (flagSegments S).dropLast, p.2 = true := by
  intro p hp
  unfold flagSegments at hp
  split at hp
  · rw [List.append_nil] at hp
    have := List.dropLast_subset _ hp
    obtain ⟨s, _, rfl⟩ := List.mem_map.mp this
    rfl
  · rw [List.dropLast_concat] at hp
    obtain ⟨s, _, rfl⟩ := List.mem_map.mp hp
    rfl

theorem modifyHead_nil_append (S : List (List Nat)) :
    S.modifyHead (fun s => ([] : List Nat) ++ s) = S := by
  cases S <;> simp

theorem modifyHead_id_fun (S : List (List Nat)) :
    S.modifyHead (fun s => s) = S := by
  cases S <;> simp

theorem breakLinesStep_newline (u : UnicodeHandler) (style : Style) (maxWidth : ℚ)
    (vertical : Bool) (st : BreakState) :
    (breakLinesStep u style maxWidth vertical st 0x0A).lines.map
        (fun l => (l.text, l.hasLineBreak))
      = st.lines.map (fun l => (l.text, l.hasLineBreak)) ++ [(st.currentLine.text, true)]
    ∧ (breakLinesStep u style maxWidth vertical st 0x0A).currentLine.text = []
    ∧ (breakLinesStep u style maxWidth vertical st 0x0A).currentLine.width = 0
    ∧ (breakLinesStep u style maxWidth vertical st 0x0A).currentLine.hasLineBreak = false := by
  simp [breakLinesStep, startNewLine]

theorem breakLinesStep_no_break (u : UnicodeHandler) (style : Style) (maxWidth : ℚ)
    (vertical : Bool) (st : BreakState) (c : Nat) (hc : c ≠ 0x0A)
    (hle : roundDouble (st.currentLine.width + calculateCharacterWidth u c style vertical)
      ≤ maxWidth) :
    (breakLinesStep u style maxWidth vertical st c).lines = st.lines
    ∧ (breakLinesStep u style maxWidth vertical st c).currentLine.text
        = st.currentLine.text ++ [c]
    ∧ (breakLinesStep u style maxWidth vertical st c).currentLine.width
        = roundDouble (st.currentLine.width + calculateCharacterWidth u c style vertical)
    ∧ (breakLinesStep u style maxWidth vertical st c).currentLine.hasLineBreak
        = st.currentLine.hasLineBreak := by
  have hn : ¬ (roundDouble (st.currentLine.width + calculateCharacterWidth u c style vertical)
      > maxWidth ∧ st.currentLine.text ≠ []) := fun hh => absurd hle (not_le.mpr hh.1)
  unfold breakLinesStep
  simp only [hc, if_false]
  rw [if_neg hn]
  exact ⟨rfl, rfl, rfl, rfl⟩

theorem accumulatedWidth_nil (u : UnicodeHandler) (style : Style) (vertical : Bool) :
    accumulatedWidth u style vertical [] = 0 := rfl

theorem accumulatedWidth_append (u : UnicodeHandler) (style : Style) (vertical : Bool)
    (s t : List Nat) :
    accumulatedWidth u style vertical (s ++ t)
      = t.foldl (fun w c => roundDouble (w + calculateCharacterWidth u c style vertical))
          (accumulatedWidth u style vertical s) := by
  unfold accumulatedWidth
  rw [List.foldl_append]

theorem accumulatedWidth_concat (u : UnicodeHandler) (style : Style) (vertical : Bool)
    (s : List Nat) (c : Nat) :
    accumulatedWidth u style vertical (s ++ [c])
      = roundDouble (accumulatedWidth u style vertical s
          + calculateCharacterWidth u c style vertical) := by
  rw [accumulatedWidth_append]
  rfl

/-- With a non-negative font size the accumulated sums do not decrease: a sum
of a double and a non-negative number is rounded to a double that is not
below the first. -/
theorem accumulate_ge (u : UnicodeHandler) (style : Style) (vertical : Bool)
    (hfont : 0 ≤ style.fontSize) (t : List Nat) :
    ∀ w : ℚ, 0 ≤ w → roundDouble w = w →
      w ≤ t.foldl (fun w c => roundDouble (w + calculateCharacterWidth u c style vertical)) w := by
  induction t with
  | nil => intro w _ _; exact le_rfl
  | cons c t ih =>
    intro w hw hfix
    have hc := calculateCharacterWidth_nonneg u style vertical hfont c
    have h1 : w ≤ roundDouble (w + calculateCharacterWidth u c style vertical) := by
      have := roundDouble_mono w (w + calculateCharacterWidth u c style vertical) hw (by linarith)
      rw [hfix] at this
      exact this
    rw [List.foldl_cons]
    exact le_trans h1 (ih _ (le_trans hw h1) (roundDouble_idem _ (by linarith)))

theorem accumulatedWidth_fixed (u : UnicodeHandler) (style : Style) (vertical : Bool)
    (hfont : 0 ≤ style.fontSize) (s : List Nat) :
    0 ≤ accumulatedWidth u style vertical s
      ∧ roundDouble (accumulatedWidth u style vertical s) = accumulatedWidth u style vertical s := by
  induction s using List.reverseRecOn with
  | nil => exact ⟨le_rfl, roundDouble_zero⟩
  | append_singleton s c ih =>
    have hc := calculateCharacterWidth_nonneg u style vertical hfont c
    rw [accumulatedWidth_concat]
    exact ⟨roundDouble_nonneg _ (by linarith [ih.1]), roundDouble_idem _ (by linarith [ih.1])⟩

theorem foldl_breakLinesStep_fit (u : UnicodeHandler) (style : Style) (maxWidth : ℚ)
    (vertical : Bool) (hfont : 0 ≤ style.fontSize) (text : List Nat) :
    ∀ st : BreakState, st.currentLine.hasLineBreak = false →
      st.currentLine.width = accumulatedWidth u style vertical st.currentLine.text →
      (∀ s ∈ (text.splitOn 0x0A).modifyHead (fun s => st.currentLine.text ++ s),
        accumulatedWidth u style vertical s ≤ maxWidth) →
      (if (text.foldl (breakLinesStep u style maxWidth vertical) st).currentLine.text ≠ [] then
          (text.foldl (breakLinesStep u style maxWidth vertical) st).lines ++
            [(text.foldl (breakLinesStep u style maxWidth vertical) st).currentLine]
        else (text.foldl (breakLinesStep u style maxWidth vertical) st).lines).map
          (fun l => (l.text, l.hasLineBreak))
        = st.lines.map (fun l => (l.text, l.hasLineBreak)) ++
            flagSegments ((text.splitOn 0x0A).modifyHead (fun s => st.currentLine.text ++ s)) := by
  induction text with
  | nil =>
    intro st hflag _ _
    have h0 : ([] : List Nat).splitOn 0x0A = [[]] := by
      unfold List.splitOn; exact List.splitOnP_nil _
    simp only [List.foldl_nil, h0, List.modifyHead_cons, List.append_nil,
      flagSegments_singleton]
    by_cases he : st.currentLine.text = []
    · simp [he]
    · simp [he, hflag]
  | cons c t ih =>
    intro st hflag hwidth hfit
    rw [List.foldl_cons]
    rw [splitOn_newline_cons] at hfit ⊢
    by_cases hc : c = 0x0A
    · subst hc
      simp only [if_true, List.modifyHead_cons, List.append_nil] at hfit ⊢
      obtain ⟨hl, ht, hw, hf⟩ := breakLinesStep_newline u style maxWidth vertical st
      have := ih (breakLinesStep u style maxWidth vertical st 0x0A) hf
        (by rw [hw, ht, accumulatedWidth_nil])
        (by
          intro s hs
          rw [ht, modifyHead_nil_append] at hs
          exact hfit s (List.mem_cons_of_mem _ hs))
      rw [this, flagSegments_cons _ _ (splitOn_newline_ne_nil t), hl, ht,
        modifyHead_nil_append]
      simp
    · simp only [hc, if_false] at hfit ⊢
      obtain ⟨h, ss, hS⟩ := List.exists_cons_of_ne_nil (splitOn_newline_ne_nil t)
      rw [hS] at hfit ⊢
      simp only [List.modifyHead_cons] at hfit ⊢
      have hhead : accumulatedWidth u style vertical (st.currentLine.text ++ c :: h) ≤ maxWidth :=
        hfit _ (List.mem_cons_self _ _)
      have hcw := calculateCharacterWidth_nonneg u style vertical hfont c
      have hcur := accumulatedWidth_fixed u style vertical hfont st.currentLine.text
      have hle : roundDouble (st.currentLine.width + calculateCharacterWidth u c style vertical)
          ≤ maxWidth := by
        have e : st.currentLine.text ++ c :: h = (st.currentLine.text ++ [c]) ++ h := by simp
        rw [e, accumulatedWidth_append, accumulatedWidth_concat, ← hwidth] at hhead
        refine le_trans (accumulate_ge u style vertical hfont h _ ?_ ?_) hhead
        · exact roundDouble_nonneg _ (by rw [hwidth]; linarith [hcur.1])
        · exact roundDouble_idem _ (by rw [hwidth]; linarith [hcur.1])
      obtain ⟨hl, ht, hw, hf⟩ := breakLinesStep_no_break u style maxWidth vertical st c hc hle
      have := ih (breakLinesStep u style maxWidth vertical st c) (by rw [hf]; exact hflag)
        (by rw [hw, ht, accumulatedWidth_concat, hwidth])
        (by
          intro s hs
          rw [ht, hS] at hs
          simp only [List.modifyHead_cons, List.append_assoc, List.singleton_append] at hs
          exact hfit s hs)
      rw [this, hl, ht, hS]
      simp

theorem sweep_of_flagged (rules : TypesettingRules) (u : UnicodeHandler) (style : Style)
    (vertical : Bool) :
    ∀ ls : List TextLine, (∀ l ∈ ls.dropLast, l.hasLineBreak = true) →
      sweep rules u style vertical ls = ls := by
  intro ls
  induction ls with
  | nil => intro _; simp [sweep]
  | cons c tl ih =>
    intro h
    cases tl with
    | nil => simp [sweep]
    | cons n rest =>
      have hc : c.hasLineBreak = true := h c (by simp)
      have hp : adjustPair rules u style vertical c n = (c, n) := by
        simp [adjustPair, hc]
      rw [sweep, hp]
      simp only []
      rw [ih (fun l hl => h l (by
        rw [List.dropLast_cons₂]; exact List.mem_cons_of_mem _ hl))]

theorem breakLines_of_fit (u : UnicodeHandler) (text : List Nat) (style : Style)
    (maxWidth : ℚ) (vertical : Bool) (hfont : 0 ≤ style.fontSize)
    (hfit : ∀ s ∈ text.splitOn 0x0A, accumulatedWidth u style vertical s ≤ maxWidth) :
    (breakLines u text style maxWidth vertical).map (fun l => (l.text, l.hasLineBreak))
      = segmentLines text := by
  have h := foldl_breakLinesStep_fit u style maxWidth vertical hfont text
    { lines := [],
      currentLine :=
        { text := [], width := 0, height := style.fontSize * style.lineHeight,
          baseline := style.fontSize * (8 / 10), hasLineBreak := false } } rfl
    (accumulatedWidth_nil u style vertical).symm
    (by
      show ∀ s ∈ (text.splitOn 0x0A).modifyHead (fun s => ([] : List Nat) ++ s), _
      rw [modifyHead_nil_append]; exact hfit)
  simp only [List.nil_append, modifyHead_id_fun, List.map_nil] at h
  unfold breakLines segmentLines
  simp only []
  exact h

theorem dropLast_flagged_of_map {ls : List TextLine} {S : List (List Nat)}
    (h : ls.map (fun l => (l.text, l.hasLineBreak)) = flagSegments S) :
    ∀ l ∈ ls.dropLast, l.hasLineBreak = true := by
  intro l hl
  have h1 : (l.text, l.hasLineBreak) ∈ (ls.map (fun l => (l.text, l.hasLineBreak))).dropLast := by
    rw [← List.map_dropLast]
    exact List.mem_map.mpr ⟨l, hl, rfl⟩
  rw [h] at h1
  exact flagSegments_dropLast S _ h1

/-- C7 (amended). When the font size is not negative and every
newline-delimited segment of the text has total character width at most the
maximum width, the width being summed from left to right in double precision
as the loop of `breakLines` does, the lines of `typeset` are exactly the
segments in order: each segment followed by a newline is a line flagged
`hasLineBreak`, the last segment is a line without the flag, left out when it
is empty. -/
theorem typeset_lines_of_fitting_segments (rules : TypesettingRules) (u : UnicodeHandler)
    (text : List Nat) (style : Style) (width : ℚ) (vertical : Bool)
    (hfont : 0 ≤ style.fontSize)
    (hfit : ∀ s ∈ text.splitOn 0x0A, accumulatedWidth u style vertical s ≤ width) :
    (typeset rules u text style width vertical).lines.map (fun l => (l.text, l.hasLineBreak))
      = segmentLines text := by
  have hb := breakLines_of_fit u text style width vertical hfont hfit
  rw [typeset_lines_text, applyProhibitionRules_eq_sweep,
    sweep_of_flagged rules u style vertical _ (dropLast_flagged_of_map hb), hb]

/-- C7, worked example: "AB\nCD" at width 1000 gives exactly the line "AB"
with `hasLineBreak` and the line "CD" without. -/
theorem typeset_lines_of_fitting_segments_witness :
    (typeset TypesettingRules.new exampleHandler [0x41, 0x42, 0x0A, 0x43, 0x44] exampleStyle 1000
        false).lines.map (fun l => (l.text, l.hasLineBreak))
      = [([0x41, 0x42], true), ([0x43, 0x44], false)] := by
  have h := typeset_lines_of_fitting_segments TypesettingRules.new exampleHandler
    [0x41, 0x42, 0x0A, 0x43, 0x44] exampleStyle 1000 false (by decide!) (by decide!)
  rw [h]
  decide

/-- C7, counterexamples to the claim as stated. With the font size -10 the
text "ABC" has total character width -15, in exact and in double-precision
arithmetic, which is at most the maximum width -12, and `typeset` returns
three lines. With the font size 10.7 (the double nearest to it) the text of
eight full-width characters has the exact total character width 8 * 10.7,
which is the maximum width, and `typeset` returns a line of seven characters
and a line of one: the double-precision sum of the eight widths is above
8 * 10.7. -/
theorem typeset_fitting_segments_counterexample :
    ((∀ s ∈ [0x41, 0x42, 0x43].splitOn 0x0A,
        textWidth exampleHandler { exampleStyle with fontSize := -10 } false s ≤ -12
        ∧ accumulatedWidth exampleHandler { exampleStyle with fontSize := -10 } false s ≤ -12)
      ∧ (typeset TypesettingRules.new exampleHandler [0x41, 0x42, 0x43]
            { exampleStyle with fontSize := -10 } (-12) false).lines.map
              (fun l => (l.text, l.hasLineBreak))
          = [([0x41], false), ([0x42], false), ([0x43], false)]
      ∧ segmentLines [0x41, 0x42, 0x43] = [([0x41, 0x42, 0x43], false)])
    ∧ ((∀ s ∈ (List.replicate 8 0x3042).splitOn 0x0A,
        textWidth exampleHandler
          { exampleStyle with fontSize := 3011782250804019 / 281474976710656 } false s
            ≤ 8 * (3011782250804019 / 281474976710656))
      ∧ (typeset TypesettingRules.new exampleHandler (List.replicate 8 0x3042)
            { exampleStyle with fontSize := 3011782250804019 / 281474976710656 }
            (8 * (3011782250804019 / 281474976710656)) false).lines.map
              (fun l => (l.text, l.hasLineBreak))
          = [(List.replicate 7 0x3042, false), ([0x3042], false)]
      ∧ segmentLines (List.replicate 8 0x3042) = [(List.replicate 8 0x3042, false)]) := by
  refine ⟨⟨?_, ?_, ?_⟩, ?_, ?_, ?_⟩ <;> decide!

/-! ### Prohibition rules after the adjustment (C8) -/

/-- C8, counterexample to the claim as stated: with the default rules, the
text "あ、。" at the width of one full-width character is broken into "あ",
"、", "。" and adjusted to "あ、", "。", ""; the second line follows a line
without explicit break, is not empty and starts with the
line-start-prohibited "。". -/
theorem kinsoku_counterexample :
    ¬ kinsokuHolds TypesettingRules.new
      (applyProhibitionRules TypesettingRules.new exampleHandler
        (breakLines exampleHandler [0x3042, 0x3001, 0x3002] exampleStyle 10 false)
        exampleStyle false) := by
  have h : applyProhibitionRules TypesettingRules.new exampleHandler
        (breakLines exampleHandler [0x3042, 0x3001, 0x3002] exampleStyle 10 false)
        exampleStyle false
      = [exampleLine [0x3042, 0x3001] 20, exampleLine [0x3002] 10, exampleLine [] 0] := by
    decide!
  rw [h]
  intro hk
  have hp : kinsokuPair TypesettingRules.new (exampleLine [0x3042, 0x3001] 20)
      (exampleLine [0x3002] 10) := by
    unfold kinsokuHolds at hk
    exact (List.chain'_cons.mp hk).1
  have := (hp rfl (by simp [exampleLine])).2 0x3002 (by simp [exampleLine])
  revert this
  decide!

theorem adjustPair_inactive (rules : TypesettingRules) (u : UnicodeHandler) (style : Style)
    (vertical : Bool) (c n : TextLine) (h : c.hasLineBreak = true ∨ n.text = []) :
    adjustPair rules u style vertical c n = (c, n) := by
  unfold adjustPair
  rcases h with h | h
  · simp [h]
  · simp [h]

/-- The three outcomes of an active iteration, on the texts, for rules whose
line-start and line-end sets are disjoint. -/
theorem adjustPair_cases (rules : TypesettingRules) (u : UnicodeHandler) (style : Style)
    (vertical : Bool) (c n : TextLine)
    (hdis : ∀ x, ¬ (rules.isLineStartProhibited x = true ∧ rules.isLineEndProhibited x = true))
    (hf : c.hasLineBreak = false) (f : Nat) (t : List Nat) (hn : n.text = f :: t) :
    (∃ s l, c.text = s ++ [l] ∧ rules.isLineEndProhibited l = true
        ∧ rules.isLineStartProhibited l = false
        ∧ (adjustPair rules u style vertical c n).1.text = s
        ∧ (adjustPair rules u style vertical c n).2.text = l :: f :: t)
    ∨ ((∀ l ∈ c.text.getLast?, rules.isLineEndProhibited l = false)
        ∧ rules.isLineStartProhibited f = true
        ∧ (adjustPair rules u style vertical c n).1.text = c.text ++ [f]
        ∧ (adjustPair rules u style vertical c n).2.text = t)
    ∨ ((∀ l ∈ c.text.getLast?, rules.isLineEndProhibited l = false)
        ∧ rules.isLineStartProhibited f = false
        ∧ (adjustPair rules u style vertical c n).1.text = c.text
        ∧ (adjustPair rules u style vertical c n).2.text = f :: t) := by
  have hne : n.text ≠ [] := by rw [hn]; simp
  unfold adjustPair
  simp only [hf, Bool.false_eq_true, if_false, hne]
  cases hl : c.text.getLast? with
  | none =>
    simp only [hn]
    by_cases hs : rules.isLineStartProhibited f = true
    · right; left
      simp [hs]
    · right; right
      simp [hs, hn]
  | some l =>
    have hd : c.text.dropLast ++ [l] = c.text := List.dropLast_append_getLast? l hl
    by_cases he : rules.isLineEndProhibited l = true
    · have hls : rules.isLineStartProhibited l = false := by
        cases h : rules.isLineStartProhibited l
        · rfl
        · exact absurd ⟨h, he⟩ (hdis l)
      left
      refine ⟨c.text.dropLast, l, hd.symm, he, hls, ?_, ?_⟩
      · simp [he, hls]
      · simp [he, hls, hn]
    · have he' : rules.isLineEndProhibited l = false := by
        cases h : rules.isLineEndProhibited l
        · rfl
        · exact absurd h he
      simp only [he', Bool.false_eq_true, if_false, hn]
      by_cases hs : rules.isLineStartProhibited f = true
      · right; left
        simp [hs, he']
      · right; right
        simp [hs, he', hn]

theorem compatible_left {rules : TypesettingRules} {a b : Nat} (h : compatible rules a b)
    (ha : prohibited rules a) :
    rules.isLineStartProhibited b = false ∧ rules.isLineEndProhibited b = false := by
  unfold compatible prohibited at *
  constructor
  · cases hb : rules.isLineStartProhibited b
    · rfl
    · exact absurd ⟨ha, Or.inl hb⟩ h
  · cases hb : rules.isLineEndProhibited b
    · rfl
    · exact absurd ⟨ha, Or.inr hb⟩ h

theorem compatible_right {rules : TypesettingRules} {a b : Nat} (h : compatible rules a b)
    (hb : prohibited rules b) :
    rules.isLineStartProhibited a = false ∧ rules.isLineEndProhibited a = false := by
  unfold compatible prohibited at *
  constructor
  · cases ha : rules.isLineStartProhibited a
    · rfl
    · exact absurd ⟨Or.inl ha, hb⟩ h
  · cases ha : rules.isLineEndProhibited a
    · rfl
    · exact absurd ⟨Or.inr ha, hb⟩ h

theorem chain_concat_last {R : Nat → Nat → Prop} {s : List Nat} {l : Nat}
    (h : List.Chain' R (s ++ [l])) : ∀ y ∈ s.getLast?, R y l := by
  intro y hy
  exact (List.chain'_append.mp h).2.2 y hy l (by simp)

theorem head?_concat_of_mem {s : List Nat} {l x : Nat} (h : x ∈ s.head?) :
    x ∈ (s ++ [l]).head? := by
  cases s with
  | nil => simp at h
  | cons a s => simpa using h

theorem getLast?_of_tail {f a : Nat} {t : List Nat} (h : a ∈ t.getLast?) :
    a ∈ (f :: t).getLast? := by
  cases t with
  | nil => simp at h
  | cons b t => simpa [List.getLast?_cons_cons] using h

theorem adjustPair_step_facts (rules : TypesettingRules) (u : UnicodeHandler) (style : Style)
    (vertical : Bool)
    (hdis : ∀ x, ¬ (rules.isLineStartProhibited x = true ∧ rules.isLineEndProhibited x = true))
    (c n : TextLine) (rest : List TextLine) (prevOpen : Bool)
    (hc : carryOk rules prevOpen c (n :: rest)) (hn : lineOk rules n)
    (hb : ∀ m ∈ rest.head?, boundaryOk rules n m) :
    carryOk rules (!c.hasLineBreak) (adjustPair rules u style vertical c n).2 rest
    ∧ (c.hasLineBreak = false →
        ∀ x ∈ (adjustPair rules u style vertical c n).1.text.getLast?,
          rules.isLineEndProhibited x = false)
    ∧ (prevOpen = true →
        ∀ x ∈ (adjustPair rules u style vertical c n).1.text.head?,
          rules.isLineStartProhibited x = false) := by
  obtain ⟨hchain, hnext, hhead⟩ := hc
  have hflags := adjustPair_hasLineBreak rules u style vertical c n
  cases hcf : c.hasLineBreak with
  | true =>
    rw [adjustPair_inactive rules u style vertical c n (Or.inl hcf)]
    refine ⟨⟨hn.1, ?_, by simp⟩, by simp, hhead⟩
    intro m hm hnf
    obtain ⟨h1, h2⟩ := hb m hm hnf
    exact ⟨h1, h2, fun he => absurd he (hn.2 hnf)⟩
  | false =>
    obtain ⟨hne, hR, hD⟩ := hnext n (by simp) hcf
    obtain ⟨f, t, hnt⟩ := List.exists_cons_of_ne_nil hne
    have hnchain : List.Chain' (compatible rules) (f :: t) := hnt ▸ hn.1
    have hbm : ∀ m ∈ rest.head?, (adjustPair rules u style vertical c n).2.hasLineBreak = false →
        m.text ≠ [] ∧ ∀ a ∈ (f :: t).getLast?, ∀ b ∈ m.text.head?, compatible rules a b := by
      intro m hm hpf
      rw [hflags.2] at hpf
      have := hb m hm hpf
      rw [hnt] at this
      exact this
    rcases adjustPair_cases rules u style vertical c n hdis hcf f t hnt with
      ⟨s, l, hcs, hle, hls, h1, h2⟩ | ⟨hlast, hls, h1, h2⟩ | ⟨hlast, hls, h1, h2⟩
    · -- the last character of `c` moves to the front of `n`
      rw [hcs] at hchain hR hhead
      have hlf : compatible rules l f := hR l (by simp) f (by simp [hnt])
      refine ⟨⟨?_, ?_, ?_⟩, ?_, ?_⟩
      · rw [h2]; exact List.chain'_cons.mpr ⟨hlf, hnchain⟩
      · intro m hm hpf
        obtain ⟨hm1, hm2⟩ := hbm m hm hpf
        rw [h2]
        refine ⟨hm1, ?_, by simp⟩
        intro a ha
        rw [List.getLast?_cons_cons] at ha
        exact hm2 a ha
      · intro _ x hx
        rw [h2] at hx
        simp only [List.head?_cons, Option.mem_def, Option.some.injEq] at hx
        subst hx; exact hls
      · intro _ x hx
        rw [h1] at hx
        exact (compatible_right (chain_concat_last hchain x hx) (Or.inr hle)).2
      · intro hp x hx
        rw [h1] at hx
        exact hhead hp x (head?_concat_of_mem hx)
    · -- the first character of `n` moves to the end of `c`
      refine ⟨⟨?_, ?_, ?_⟩, ?_, ?_⟩
      · rw [h2]; exact List.Chain'.tail hnchain
      · intro m hm hpf
        obtain ⟨hm1, hm2⟩ := hbm m hm hpf
        rw [h2]
        refine ⟨hm1, fun a ha => hm2 a (getLast?_of_tail ha), ?_⟩
        intro ht b hb'
        subst ht
        exact (compatible_left (hm2 f (by simp) b hb') (Or.inl hls)).1
      · intro _ x hx
        rw [h2] at hx
        cases t with
        | nil => simp at hx
        | cons y t' =>
          simp only [List.head?_cons, Option.mem_def, Option.some.injEq] at hx
          subst hx
          exact (compatible_left (List.chain'_cons.mp hnchain).1 (Or.inl hls)).1
      · intro _ x hx
        rw [h1] at hx
        simp only [List.getLast?_concat, Option.mem_def, Option.some.injEq] at hx
        subst hx
        cases h : rules.isLineEndProhibited f
        · rfl
        · exact absurd ⟨hls, h⟩ (hdis f)
      · intro hp x hx
        rw [h1] at hx
        cases hct : c.text with
        | nil =>
          have := hD hct f (by simp [hnt])
          rw [hls] at this
          exact absurd this (by simp)
        | cons a s =>
          rw [hct] at hx
          exact hhead hp x (by rw [hct]; simpa using hx)
    · -- nothing moves
      refine ⟨⟨?_, ?_, ?_⟩, ?_, ?_⟩
      · rw [h2]; exact hnchain
      · intro m hm hpf
        obtain ⟨hm1, hm2⟩ := hbm m hm hpf
        rw [h2]
        exact ⟨hm1, hm2, by simp⟩
      · intro _ x hx
        rw [h2] at hx
        simp only [List.head?_cons, Option.mem_def, Option.some.injEq] at hx
        subst hx; exact hls
      · intro _ x hx
        rw [h1] at hx
        exact hlast x hx
      · intro hp x hx
        rw [h1] at hx
        exact hhead hp x hx

theorem sweep_kinsoku (rules : TypesettingRules) (u : UnicodeHandler) (style : Style)
    (vertical : Bool)
    (hdis : ∀ x, ¬ (rules.isLineStartProhibited x = true ∧ rules.isLineEndProhibited x = true)) :
    ∀ (rest : List TextLine) (c : TextLine) (prevOpen : Bool),
      carryOk rules prevOpen c rest → linesOk rules rest →
      kinsokuHolds rules (sweep rules u style vertical (c :: rest))
      ∧ (prevOpen = true → ∀ o ∈ (sweep rules u style vertical (c :: rest)).head?,
          ∀ x ∈ o.text.head?, rules.isLineStartProhibited x = false) := by
  intro rest
  induction rest with
  | nil =>
    intro c prevOpen hc _
    simp only [sweep, kinsokuHolds, List.chain'_singleton, true_and]
    intro hp o ho
    simp only [List.head?_cons, Option.mem_def, Option.some.injEq] at ho
    subst ho
    exact hc.2.2 hp
  | cons n rest ih =>
    intro c prevOpen hc hrest
    obtain ⟨hlines, hbound⟩ := hrest
    have hn_ok : lineOk rules n := hlines n (List.mem_cons_self _ _)
    have hrest' : linesOk rules rest :=
      ⟨fun l hl => hlines l (List.mem_cons_of_mem _ hl), List.Chain'.tail hbound⟩
    have hflags := adjustPair_hasLineBreak rules u style vertical c n
    obtain ⟨h1, h2, h3⟩ := adjustPair_step_facts rules u style vertical hdis c n rest prevOpen hc
      hn_ok (List.chain'_cons'.mp hbound).1
    obtain ⟨ih1, ih2⟩ := ih _ _ h1 hrest'
    rw [sweep]
    refine ⟨?_, ?_⟩
    · unfold kinsokuHolds at ih1 ⊢
      refine List.chain'_cons'.mpr ⟨?_, ih1⟩
      intro o ho hpf _
      rw [hflags.1] at hpf
      exact ⟨h2 hpf, ih2 (by simp [hpf]) o ho⟩
    · intro hp o ho
      simp only [List.head?_cons, Option.mem_def, Option.some.injEq] at ho
      subst ho
      exact h3 hp

theorem breakLinesStep_cases (u : UnicodeHandler) (style : Style) (maxWidth : ℚ)
    (vertical : Bool) (st : BreakState) (ch : Nat) (hflag : st.currentLine.hasLineBreak = false) :
    (∃ L : TextLine, (breakLinesStep u style maxWidth vertical st ch).lines = st.lines ++ [L]
        ∧ L.text = st.currentLine.text ∧ L.hasLineBreak = true
        ∧ (breakLinesStep u style maxWidth vertical st ch).currentLine.text = []
        ∧ (breakLinesStep u style maxWidth vertical st ch).currentLine.hasLineBreak = false)
    ∨ (st.currentLine.text ≠ []
        ∧ (breakLinesStep u style maxWidth vertical st ch).lines = st.lines ++ [st.currentLine]
        ∧ (breakLinesStep u style maxWidth vertical st ch).currentLine.text = [ch]
        ∧ (breakLinesStep u style maxWidth vertical st ch).currentLine.hasLineBreak = false)
    ∨ ((breakLinesStep u style maxWidth vertical st ch).lines = st.lines
        ∧ (breakLinesStep u style maxWidth vertical st ch).currentLine.text
            = st.currentLine.text ++ [ch]
        ∧ (breakLinesStep u style maxWidth vertical st ch).currentLine.hasLineBreak = false) := by
  unfold breakLinesStep
  by_cases hc : ch = 0x0A
  · left
    exact ⟨{ st.currentLine with hasLineBreak := true }, by simp [hc, startNewLine]⟩
  · simp only [hc, if_false]
    by_cases hb : roundDouble (st.currentLine.width
        + calculateCharacterWidth u ch style vertical) > maxWidth ∧ st.currentLine.text ≠ []
    · right; left
      rw [if_pos hb]
      exact ⟨hb.2, rfl, rfl, rfl⟩
    · right; right
      rw [if_neg hb]
      exact ⟨rfl, rfl, hflag⟩

theorem foldl_breakLinesStep_linesOk (rules : TypesettingRules) (u : UnicodeHandler)
    (style : Style) (maxWidth : ℚ) (vertical : Bool) (text : List Nat) :
    ∀ st : BreakState, linesOk rules st.lines →
      List.Chain' (compatible rules) (st.currentLine.text ++ text) →
      (∀ A ∈ st.lines.getLast?, boundaryOk rules A st.currentLine) →
      st.currentLine.hasLineBreak = false →
      linesOk rules
        (if (text.foldl (breakLinesStep u style maxWidth vertical) st).currentLine.text ≠ [] then
          (text.foldl (breakLinesStep u style maxWidth vertical) st).lines ++
            [(text.foldl (breakLinesStep u style maxWidth vertical) st).currentLine]
        else (text.foldl (breakLinesStep u style maxWidth vertical) st).lines) := by
  induction text with
  | nil =>
    intro st h1 h2 h3 h4
    simp only [List.foldl_nil]
    split
    · next hne =>
      refine ⟨?_, ?_⟩
      · intro l hl
        rcases List.mem_append.mp hl with hl | hl
        · exact h1.1 l hl
        · simp only [List.mem_singleton] at hl
          subst hl
          exact ⟨by simpa using h2, fun _ => hne⟩
      · exact List.chain'_append.mpr ⟨h1.2, List.chain'_singleton _, fun x hx y hy => by
          simp only [List.head?_cons, Option.mem_def, Option.some.injEq] at hy
          subst hy
          exact h3 x hx⟩
    · exact h1
  | cons ch t ih =>
    intro st h1 h2 h3 h4
    rw [List.foldl_cons]
    obtain ⟨hc1, hc2, hc3⟩ := List.chain'_append.mp h2
    rcases breakLinesStep_cases u style maxWidth vertical st ch h4 with
      ⟨L, hl, hLt, hLf, ht, hf⟩ | ⟨hne, hl, ht, hf⟩ | ⟨hl, ht, hf⟩
    · apply ih _ _ _ _ hf
      · rw [hl]
        refine ⟨?_, ?_⟩
        · intro l hmem
          rcases List.mem_append.mp hmem with hmem | hmem
          · exact h1.1 l hmem
          · simp only [List.mem_singleton] at hmem
            subst hmem
            exact ⟨hLt ▸ hc1, fun hh => by rw [hLf] at hh; exact absurd hh (by simp)⟩
        · exact List.chain'_append.mpr ⟨h1.2, List.chain'_singleton _, fun x hx y hy => by
            simp only [List.head?_cons, Option.mem_def, Option.some.injEq] at hy
            subst hy
            intro hxf
            have := h3 x hx hxf
            rw [hLt]; exact this⟩
      · rw [ht]
        exact List.Chain'.tail hc2
      · intro A hA
        rw [hl] at hA
        simp only [List.getLast?_concat, Option.mem_def, Option.some.injEq] at hA
        subst hA
        intro hh
        rw [hLf] at hh
        exact absurd hh (by simp)
    · apply ih _ _ _ _ hf
      · rw [hl]
        refine ⟨?_, ?_⟩
        · intro l hmem
          rcases List.mem_append.mp hmem with hmem | hmem
          · exact h1.1 l hmem
          · simp only [List.mem_singleton] at hmem
            subst hmem
            exact ⟨hc1, fun _ => hne⟩
        · exact List.chain'_append.mpr ⟨h1.2, List.chain'_singleton _, fun x hx y hy => by
            simp only [List.head?_cons, Option.mem_def, Option.some.injEq] at hy
            subst hy
            exact h3 x hx⟩
      · rw [ht]
        exact hc2
      · intro A hA
        rw [hl] at hA
        simp only [List.getLast?_concat, Option.mem_def, Option.some.injEq] at hA
        subst hA
        intro _
        rw [ht]
        refine ⟨by simp, fun a ha b hb => ?_⟩
        simp only [List.head?_cons, Option.mem_def, Option.some.injEq] at hb
        subst hb
        exact hc3 a ha _ (by simp)
    · apply ih _ _ _ _ hf
      · rw [hl]; exact h1
      · rw [ht]; simpa using h2
      · intro A hA
        rw [hl] at hA
        intro hAf
        obtain ⟨hne, hR⟩ := h3 A hA hAf
        rw [ht]
        refine ⟨by simp, fun a ha b hb => hR a ha b ?_⟩
        obtain ⟨x, s, hxs⟩ := List.exists_cons_of_ne_nil hne
        rw [hxs] at hb ⊢
        simpa using hb

theorem breakLines_linesOk (rules : TypesettingRules) (u : UnicodeHandler) (text : List Nat)
    (style : Style) (maxWidth : ℚ) (vertical : Bool)
    (h : noAdjacentProhibited rules text) :
    linesOk rules (breakLines u text style maxWidth vertical) := by
  have := foldl_breakLinesStep_linesOk rules u style maxWidth vertical text
    { lines := [],
      currentLine :=
        { text := [], width := 0, height := style.fontSize * style.lineHeight,
          baseline := style.fontSize * (8 / 10), hasLineBreak := false } }
    ⟨by simp, List.chain'_nil⟩ (by simpa using h) (by simp) rfl
  unfold breakLines
  simp only []
  exact this

theorem kinsokuHolds_of_linesOk (rules : TypesettingRules) (u : UnicodeHandler) (style : Style)
    (vertical : Bool)
    (hdis : ∀ x, ¬ (rules.isLineStartProhibited x = true ∧ rules.isLineEndProhibited x = true))
    (lines : List TextLine) (h : linesOk rules lines) :
    kinsokuHolds rules (applyProhibitionRules rules u lines style vertical) := by
  rw [applyProhibitionRules_eq_sweep]
  cases lines with
  | nil => simp [sweep, kinsokuHolds]
  | cons c rest =>
    have hc : lineOk rules c := h.1 c (List.mem_cons_self _ _)
    have hb := (List.chain'_cons'.mp h.2)
    refine (sweep_kinsoku rules u style vertical hdis rest c false ⟨hc.1, ?_, by simp⟩
      ⟨fun l hl => h.1 l (List.mem_cons_of_mem _ hl), hb.2⟩).1
    intro n hn hcf
    obtain ⟨h1, h2⟩ := hb.1 n hn hcf
    exact ⟨h1, h2, fun he => absurd he (hc.2 hcf)⟩

theorem default_rules_disjoint : ∀ x,
    ¬ (TypesettingRules.new.isLineStartProhibited x = true
        ∧ TypesettingRules.new.isLineEndProhibited x = true) := by
  have h : ∀ x ∈ TypesettingRules.new.lineEndProhibitedChars,
      x ∉ TypesettingRules.new.lineStartProhibitedChars := by decide!
  intro x ⟨h1, h2⟩
  have hle : x ∈ TypesettingRules.new.lineEndProhibitedChars := by
    simpa [TypesettingRules.isLineEndProhibited] using h2
  have hls : x ∈ TypesettingRules.new.lineStartProhibitedChars := by
    simpa [TypesettingRules.isLineStartProhibited] using h1
  exact h x hle hls

/-- C8 (amended). With the default rules, for every text in which no two
adjacent characters are both prohibited (line-start- or line-end-prohibited)
and for every width, the lines produced by `breakLines` followed by
`applyProhibitionRules` satisfy the prohibition rules at every boundary: where
the current line has no explicit break and the next line is not empty, the
current line does not end with a line-end-prohibited character and the next
line does not start with a line-start-prohibited one. -/
theorem kinsoku_of_isolated_prohibited (u : UnicodeHandler) (text : List Nat) (style : Style)
    (width : ℚ) (vertical : Bool)
    (h : noAdjacentProhibited TypesettingRules.new text) :
    kinsokuHolds TypesettingRules.new
      (applyProhibitionRules TypesettingRules.new u
        (breakLines u text style width vertical) style vertical) :=
  kinsokuHolds_of_linesOk TypesettingRules.new u style vertical default_rules_disjoint _
    (breakLines_linesOk TypesettingRules.new u text style width vertical h)

/-- C8 (amended), worked example: in "（テスト）" no two adjacent characters
are both prohibited, so at the width of one full-width character the adjusted
lines "", "（テ", "ス", "ト）", "" satisfy the prohibition rules. -/
theorem kinsoku_of_isolated_prohibited_witness :
    noAdjacentProhibited TypesettingRules.new [0xFF08, 0x30C6, 0x30B9, 0x30C8, 0xFF09]
    ∧ (applyProhibitionRules TypesettingRules.new exampleHandler
        (breakLines exampleHandler [0xFF08, 0x30C6, 0x30B9, 0x30C8, 0xFF09] exampleStyle 10
          false) exampleStyle false).map TextLine.text
        = [[], [0xFF08, 0x30C6], [0x30B9], [0x30C8, 0xFF09], []]
    ∧ kinsokuHolds TypesettingRules.new
      (applyProhibitionRules TypesettingRules.new exampleHandler
        (breakLines exampleHandler [0xFF08, 0x30C6, 0x30B9, 0x30C8, 0xFF09] exampleStyle 10
          false) exampleStyle false) := by
  have hiso : noAdjacentProhibited TypesettingRules.new
      [0xFF08, 0x30C6, 0x30B9, 0x30C8, 0xFF09] := by
    simp only [noAdjacentProhibited, List.chain'_cons, List.chain'_singleton, and_true]
    refine ⟨?_, ?_, ?_, ?_⟩ <;> (unfold compatible prohibited; decide!)
  exact ⟨hiso, by decide!,
    kinsoku_of_isolated_prohibited exampleHandler _ exampleStyle 10 false hiso⟩

end TypesettingEngine

namespace LineBreaker

/-! ### The solver table -/

theorem sizeSub_of_le {a b : Nat} (h : b ≤ a) : sizeSub a b = a - b := by
  simp [sizeSub, h]

theorem substr_of_le {s : List Nat} {p n : Nat} (h : p ≤ s.length) :
    substr s p n = some ((s.drop p).take n) := by
  simp [substr, Nat.not_lt.mpr h]

theorem foldl_width (f : Nat → ℚ) (l : List Nat) (a : ℚ) :
    l.foldl (fun w ch => w + f ch) a = a + (l.map f).sum := by
  induction l generalizing a with
  | nil => simp
  | cons x xs ih => rw [List.foldl_cons, ih]; simp [add_assoc]

theorem segmentWidth_eq_sum (u : UnicodeHandler) (style : Style) (vertical : Bool)
    (segment : List Nat) :
    segmentWidth u style vertical segment
      = (segment.map (fun ch => calculateCharacterWidth u ch style vertical)).sum := by
  unfold segmentWidth
  rw [foldl_width]; simp

theorem getD_set_self {α : Type} (l : List α) (j : Nat) (v d : α) (h : j < l.length) :
    (l.set j v).getD j d = v := by
  simp [List.getD_eq_getElem?_getD, List.getElem?_set, h]

theorem getD_set_ne {α : Type} (l : List α) (j k : Nat) (v d : α) (h : j ≠ k) :
    (l.set j v).getD k d = l.getD k d := by
  simp [List.getD_eq_getElem?_getD, List.getElem?_set, h]

theorem ltInf_some_some (a b : ℚ) : ltInf (some a) (some b) = true ↔ a < b := by
  simp [ltInf]

theorem lineBreaker_characterWidth_nonneg (u : UnicodeHandler) (style : Style) (vertical : Bool)
    (h : 0 ≤ style.fontSize) (c : Nat) : 0 ≤ calculateCharacterWidth u c style vertical := by
  unfold calculateCharacterWidth
  simp only []
  split
  · exact h
  · split
    · positivity
    · exact h

theorem edgeWidth_nonneg (u : UnicodeHandler) (text : List Nat) (breakPoints : List BreakPoint)
    (style : Style) (vertical : Bool) (h : 0 ≤ style.fontSize) (i j : Nat) :
    0 ≤ edgeWidth u text breakPoints style vertical i j := by
  unfold edgeWidth
  apply List.sum_nonneg
  intro x hx
  obtain ⟨c, _, rfl⟩ := List.mem_map.mp hx
  exact lineBreaker_characterWidth_nonneg u style vertical h c

/-- The inner loop body, when the two positions are in order and inside the
text: it does not fail, and it either leaves the table unchanged or records
the step `i → j`. -/
theorem relax_eq (u : UnicodeHandler) (text : List Nat) (breakPoints : List BreakPoint)
    (style : Style) (maxWidth : ℚ) (vertical : Bool) (j i : Nat) (t : Table)
    (hdiv : maxWidth ≠ 0 ∨ 0 ≤ style.fontSize)
    (hij : pos breakPoints i ≤ pos breakPoints j) (hi : pos breakPoints i ≤ text.length) :
    relax u text breakPoints style maxWidth vertical j t i =
      some (if feasible u text breakPoints style maxWidth vertical i j then
        (if ltInf ((t.minPenalty.getD i none).map
              (fun m => m + stepCost u text breakPoints style maxWidth vertical i j))
            (t.minPenalty.getD j none) = true then
          { minPenalty := t.minPenalty.set j ((t.minPenalty.getD i none).map
              (fun m => m + stepCost u text breakPoints style maxWidth vertical i j)),
            prev := t.prev.set j i }
        else t)
      else t) := by
  unfold relax
  have hs : substr text (breakPoints.getD i default).position
      (sizeSub (breakPoints.getD j default).position (breakPoints.getD i default).position)
      = some ((text.drop (pos breakPoints i)).take (pos breakPoints j - pos breakPoints i)) := by
    have hij' : (breakPoints.getD i default).position ≤ (breakPoints.getD j default).position :=
      hij
    have hi' : (breakPoints.getD i default).position ≤ text.length := hi
    rw [sizeSub_of_le hij', substr_of_le hi']; rfl
  simp only [hs, Option.bind_eq_bind, Option.some_bind, segmentWidth_eq_sum]
  have hw : (((text.drop (pos breakPoints i)).take (pos breakPoints j - pos breakPoints i)).map
      (fun ch => calculateCharacterWidth u ch style vertical)).sum
      = edgeWidth u text breakPoints style vertical i j := rfl
  rw [hw]
  have hzero : ¬ (edgeWidth u text breakPoints style vertical i j < maxWidth ∧ maxWidth = 0) := by
    rintro ⟨h1, h2⟩
    rcases hdiv with h | h
    · exact h h2
    · rw [h2] at h1
      exact absurd h1 (not_lt.mpr (edgeWidth_nonneg u text breakPoints style vertical h i j))
  have hcost : (t.minPenalty.getD i none).bind
      (fun m => (if edgeWidth u text breakPoints style vertical i j < maxWidth then
            if maxWidth = 0 then none
            else some (100 * (1 - edgeWidth u text breakPoints style vertical i j / maxWidth)
              * (1 - edgeWidth u text breakPoints style vertical i j / maxWidth))
          else some 0).map (fun p => m + p + (breakPoints.getD j default).penalty))
      = (t.minPenalty.getD i none).map
          (fun m => m + stepCost u text breakPoints style maxWidth vertical i j) := by
    cases t.minPenalty.getD i none with
    | none => rfl
    | some m =>
      simp only [Option.some_bind, Option.map_some']
      unfold stepCost fillPenalty
      by_cases hw1 : edgeWidth u text breakPoints style vertical i j < maxWidth
      · have hw2 : ¬ maxWidth = 0 := fun h2 => hzero ⟨hw1, h2⟩
        simp only [hw1, hw2, if_true, if_false, Option.map_some', Option.some.injEq]
        ring
      · simp only [hw1, if_false, Option.map_some', Option.some.injEq]
        ring
  simp only [hcost]
  by_cases hf : feasible u text breakPoints style maxWidth vertical i j
  · have hnot : ¬ (edgeWidth u text breakPoints style vertical i j > maxWidth
        ∧ (breakPoints.getD j default).mandatory = false) := by
      rintro ⟨h1, h2⟩
      rcases hf with h | h
      · exact absurd h1 (not_lt.mpr h)
      · rw [h2] at h; exact absurd h (by simp)
    simp only [hnot, if_false, hf, if_true]
    split <;> rfl
  · have hyes : edgeWidth u text breakPoints style vertical i j > maxWidth
        ∧ (breakPoints.getD j default).mandatory = false := by
      unfold feasible at hf
      push_neg at hf
      exact ⟨hf.1, by simpa using hf.2⟩
    simp only [hyes, and_self, if_true, hf, if_false]

section Solver

variable (u : UnicodeHandler) (text : List Nat) (breakPoints : List BreakPoint)
  (style : Style) (maxWidth : ℚ) (vertical : Bool)

theorem settled_congr {I j : Nat} {t0 t t0' t' : Table}
    (h0 : ∀ i, i < I → t0'.minPenalty.getD i none = t0.minPenalty.getD i none)
    (h1 : t'.minPenalty.getD j none = t.minPenalty.getD j none)
    (h2 : t'.prev.getD j 0 = t.prev.getD j 0)
    (h : settled u text breakPoints style maxWidth vertical I t0 t j) :
    settled u text breakPoints style maxWidth vertical I t0' t' j := by
  obtain ⟨ha, hb, hc⟩ := h
  refine ⟨?_, ?_, ?_⟩
  · intro i hi hf mi hmi
    rw [h0 i hi] at hmi
    rw [h1]
    exact ha i hi hf mi hmi
  · intro mj hmj
    rw [h1] at hmj
    obtain ⟨hb1, hb2, mp, hb3, hb4, hb5⟩ := hb mj hmj
    rw [h2]
    refine ⟨hb1, hb2, mp, ?_, hb4, ?_⟩
    · rw [h0 _ hb1]; exact hb3
    · intro i hi hf mi hmi
      rw [h0 i (lt_trans hi hb1)] at hmi
      exact hb5 i hi hf mi hmi
  · intro hn
    rw [h1] at hn
    rw [h2]
    exact hc hn

/-- The inner loop for the index `j`, run over the candidates below `I`. -/
theorem inner_loop (hdiv : maxWidth ≠ 0 ∨ 0 ≤ style.fontSize) (j : Nat)
    (hj : j < breakPoints.length)
    (hmono : ∀ i, i ≤ j → pos breakPoints i ≤ pos breakPoints j)
    (hlen : ∀ i, i ≤ j → pos breakPoints i ≤ text.length)
    (t0 : Table) (hl1 : t0.minPenalty.length = breakPoints.length)
    (hl2 : t0.prev.length = breakPoints.length)
    (hnone : t0.minPenalty.getD j none = none) (hzero : t0.prev.getD j 0 = 0) :
    ∀ I, I ≤ j →
      ∃ t, (List.range I).foldlM (relax u text breakPoints style maxWidth vertical j) t0 = some t
        ∧ t.minPenalty.length = breakPoints.length ∧ t.prev.length = breakPoints.length
        ∧ (∀ k, k ≠ j → t.minPenalty.getD k none = t0.minPenalty.getD k none
            ∧ t.prev.getD k 0 = t0.prev.getD k 0)
        ∧ settled u text breakPoints style maxWidth vertical I t0 t j := by
  intro I
  induction I with
  | zero =>
    intro _
    refine ⟨t0, by simp, hl1, hl2, fun k _ => ⟨rfl, rfl⟩, ?_, ?_, ?_⟩
    · intro i hi; exact absurd hi (Nat.not_lt_zero i)
    · intro mj hmj; rw [hnone] at hmj; exact absurd hmj (by simp)
    · intro _; exact hzero
  | succ I ih =>
    intro hI
    have hIj : I < j := hI
    obtain ⟨t1, hfold, h1, h2, hother, hset⟩ := ih (Nat.le_of_lt hIj)
    have hrel := relax_eq u text breakPoints style maxWidth vertical j I t1 hdiv
      (hmono I (Nat.le_of_lt hIj)) (hlen I (Nat.le_of_lt hIj))
    have hfold' : (List.range (I + 1)).foldlM
        (relax u text breakPoints style maxWidth vertical j) t0
        = relax u text breakPoints style maxWidth vertical j t1 I := by
      rw [List.range_succ, List.foldlM_append, hfold]
      simp
    rw [hfold', hrel]
    have hI0 : t1.minPenalty.getD I none = t0.minPenalty.getD I none :=
      (hother I (Nat.ne_of_lt hIj)).1
    obtain ⟨ha, hb, hc⟩ := hset
    -- the table is left unchanged
    have keep : (∀ mi, feasible u text breakPoints style maxWidth vertical I j →
          t0.minPenalty.getD I none = some mi →
          ∃ mj, t1.minPenalty.getD j none = some mj
            ∧ mj ≤ mi + stepCost u text breakPoints style maxWidth vertical I j) →
        settled u text breakPoints style maxWidth vertical (I + 1) t0 t1 j := by
      intro hnew
      refine ⟨?_, ?_, hc⟩
      · intro i hi hf mi hmi
        rcases Nat.lt_succ_iff_lt_or_eq.mp hi with hlt | heq
        · exact ha i hlt hf mi hmi
        · subst heq; exact hnew mi hf hmi
      · intro mj hmj
        obtain ⟨hb1, hb2, hb3⟩ := hb mj hmj
        exact ⟨Nat.lt_succ_of_lt hb1, hb2, hb3⟩
    by_cases hf : feasible u text breakPoints style maxWidth vertical I j
    · simp only [hf, if_true]
      cases hmi : t0.minPenalty.getD I none with
      | none =>
        rw [hI0, hmi]
        simp only [Option.map_none', ltInf]
        refine ⟨t1, by simp, h1, h2, hother, keep ?_⟩
        intro mi _ h; rw [hmi] at h; exact absurd h (by simp)
      | some mi =>
        rw [hI0, hmi]
        simp only [Option.map_some']
        cases hmj : t1.minPenalty.getD j none with
        | none =>
          have hlt : ltInf (some (mi + stepCost u text breakPoints style maxWidth vertical I j))
              none = true := rfl
          simp only [hlt, if_true]
          refine ⟨_, rfl, by simp [h1], by simp [h2], ?_, ?_, ?_, ?_⟩
          · intro k hk
            exact ⟨by rw [getD_set_ne _ _ _ _ _ (Ne.symm hk)]; exact (hother k hk).1,
              by rw [getD_set_ne _ _ _ _ _ (Ne.symm hk)]; exact (hother k hk).2⟩
          · intro i hi hfi mi' hmi'
            rcases Nat.lt_succ_iff_lt_or_eq.mp hi with hlt' | heq
            · obtain ⟨mj, hmj', _⟩ := ha i hlt' hfi mi' hmi'
              rw [hmj] at hmj'; exact absurd hmj' (by simp)
            · subst heq
              rw [hmi] at hmi'
              simp only [Option.some.injEq] at hmi'
              subst hmi'
              exact ⟨_, getD_set_self _ _ _ _ (by rw [h1]; exact hj), le_refl _⟩
          · intro mj' hmj'
            rw [getD_set_self _ _ _ _ (by rw [h1]; exact hj)] at hmj'
            simp only [Option.some.injEq] at hmj'
            rw [getD_set_self _ _ _ _ (by rw [h2]; exact hj)]
            refine ⟨Nat.lt_succ_self I, hf, mi, hmi, hmj'.symm, ?_⟩
            intro i hi hfi mi' hmi'
            obtain ⟨mj, hmj'', _⟩ := ha i hi hfi mi' hmi'
            rw [hmj] at hmj''; exact absurd hmj'' (by simp)
          · intro hn
            rw [getD_set_self _ _ _ _ (by rw [h1]; exact hj)] at hn
            exact absurd hn (by simp)
        | some mj =>
          by_cases hlt : mi + stepCost u text breakPoints style maxWidth vertical I j < mj
          · have hlt' : ltInf (some (mi + stepCost u text breakPoints style maxWidth vertical I j))
                (some mj) = true := (ltInf_some_some _ _).mpr hlt
            simp only [hlt', if_true]
            refine ⟨_, rfl, by simp [h1], by simp [h2], ?_, ?_, ?_, ?_⟩
            · intro k hk
              exact ⟨by rw [getD_set_ne _ _ _ _ _ (Ne.symm hk)]; exact (hother k hk).1,
                by rw [getD_set_ne _ _ _ _ _ (Ne.symm hk)]; exact (hother k hk).2⟩
            · intro i hi hfi mi' hmi'
              refine ⟨_, getD_set_self _ _ _ _ (by rw [h1]; exact hj), ?_⟩
              rcases Nat.lt_succ_iff_lt_or_eq.mp hi with hlt2 | heq
              · obtain ⟨mj2, hmj2, hle⟩ := ha i hlt2 hfi mi' hmi'
                rw [hmj] at hmj2
                simp only [Option.some.injEq] at hmj2
                subst hmj2
                exact le_trans (le_of_lt hlt) hle
              · subst heq
                rw [hmi] at hmi'
                simp only [Option.some.injEq] at hmi'
                subst hmi'
                exact le_refl _
            · intro mj' hmj'
              rw [getD_set_self _ _ _ _ (by rw [h1]; exact hj)] at hmj'
              simp only [Option.some.injEq] at hmj'
              rw [getD_set_self _ _ _ _ (by rw [h2]; exact hj)]
              refine ⟨Nat.lt_succ_self I, hf, mi, hmi, hmj'.symm, ?_⟩
              intro i hi hfi mi' hmi'
              obtain ⟨mj2, hmj2, hle⟩ := ha i hi hfi mi' hmi'
              rw [hmj] at hmj2
              simp only [Option.some.injEq] at hmj2
              subst hmj2
              rw [← hmj']
              exact lt_of_lt_of_le hlt hle
            · intro hn
              rw [getD_set_self _ _ _ _ (by rw [h1]; exact hj)] at hn
              exact absurd hn (by simp)
          · have hlt' : ltInf (some (mi + stepCost u text breakPoints style maxWidth vertical I j))
                (some mj) = false := by
              cases h : ltInf (some (mi + stepCost u text breakPoints style maxWidth vertical I j))
                (some mj)
              · rfl
              · exact absurd ((ltInf_some_some _ _).mp h) hlt
            simp only [hlt', Bool.false_eq_true, if_false]
            refine ⟨t1, rfl, h1, h2, hother, keep ?_⟩
            intro mi' _ hmi'
            rw [hmi] at hmi'
            simp only [Option.some.injEq] at hmi'
            subst hmi'
            exact ⟨mj, hmj, not_lt.mp hlt⟩
    · simp only [hf, if_false]
      exact ⟨t1, rfl, h1, h2, hother, keep (fun mi hfi _ => absurd hfi hf)⟩

theorem getD_replicate_none (n k : Nat) :
    (List.replicate n (none : Option ℚ)).getD k none = none := by
  simp [List.getD_eq_getElem?_getD, List.getElem?_replicate]
  split <;> rfl

theorem getD_replicate_zero (n k : Nat) :
    (List.replicate n (0 : Nat)).getD k 0 = 0 := by
  simp [List.getD_eq_getElem?_getD, List.getElem?_replicate]
  split <;> rfl

/-- The outer loop, run over the indices `1, ..., K`. -/
theorem outer_loop (hdiv : maxWidth ≠ 0 ∨ 0 ≤ style.fontSize) (hn : 2 ≤ breakPoints.length)
    (hmono : ∀ i j, i ≤ j → j < breakPoints.length → pos breakPoints i ≤ pos breakPoints j)
    (hlen : ∀ k, k < breakPoints.length → pos breakPoints k ≤ text.length) :
    ∀ K, K ≤ breakPoints.length - 1 →
      ∃ t, (List.range' 1 K).foldlM
          (fun t j => (List.range j).foldlM
            (relax u text breakPoints style maxWidth vertical j) t)
          { minPenalty := (List.replicate breakPoints.length none).set 0 (some 0),
            prev := List.replicate breakPoints.length 0 } = some t
        ∧ tableInv u text breakPoints style maxWidth vertical (K + 1) t := by
  intro K
  induction K with
  | zero =>
    intro _
    refine ⟨{ minPenalty := (List.replicate breakPoints.length none).set 0 (some 0),
              prev := List.replicate breakPoints.length 0 }, rfl, by simp, by simp,
      ?_, ?_, ?_, ?_⟩
    · exact getD_set_self _ _ _ _ (by simp; omega)
    · exact getD_replicate_zero _ _
    · intro j h1 h2; omega
    · intro j hj
      refine ⟨?_, getD_replicate_zero _ _⟩
      rw [getD_set_ne _ _ _ _ _ (by omega)]
      exact getD_replicate_none _ _
  | succ K ih =>
    intro hK
    obtain ⟨t1, hfold, h1, h2, h3, h4, h5, h6⟩ := ih (by omega)
    have hj : K + 1 < breakPoints.length := by omega
    obtain ⟨t2, hin, g1, g2, gother, gset⟩ :=
      inner_loop u text breakPoints style maxWidth vertical hdiv (K + 1) hj
        (fun i hi => hmono i (K + 1) hi hj)
        (fun i hi => hlen i (lt_of_le_of_lt hi hj))
        t1 h1 h2 (h6 (K + 1) (le_refl _)).1 (h6 (K + 1) (le_refl _)).2 (K + 1) (le_refl _)
    refine ⟨t2, ?_, g1, g2, ?_, ?_, ?_, ?_⟩
    · rw [List.range'_concat, List.foldlM_append, hfold]
      simp only [Nat.one_mul, Option.bind_eq_bind, Option.some_bind, List.foldlM_cons,
        List.foldlM_nil]
      rw [Nat.add_comm 1 K, hin]
      rfl
    · rw [(gother 0 (by omega)).1]; exact h3
    · rw [(gother 0 (by omega)).2]; exact h4
    · intro j hj1 hj2
      rcases Nat.lt_succ_iff_lt_or_eq.mp hj2 with hlt | heq
      · exact settled_congr u text breakPoints style maxWidth vertical
          (fun i hi => (gother i (by omega)).1) (gother j (by omega)).1 (gother j (by omega)).2
          (h5 j hj1 hlt)
      · subst heq
        exact settled_congr u text breakPoints style maxWidth vertical
          (fun i hi => (gother i (by omega)).1) rfl rfl gset
    · intro j hj'
      rw [(gother j (by omega)).1, (gother j (by omega)).2]
      exact h6 j (by omega)

/-- The table at the end of the two loops. -/
theorem solver_table (hdiv : maxWidth ≠ 0 ∨ 0 ≤ style.fontSize) (hn : 2 ≤ breakPoints.length)
    (hmono : ∀ i j, i ≤ j → j < breakPoints.length → pos breakPoints i ≤ pos breakPoints j)
    (hlen : ∀ k, k < breakPoints.length → pos breakPoints k ≤ text.length) :
    ∃ t, (List.range' 1 (breakPoints.length - 1)).foldlM
          (fun t j => (List.range j).foldlM
            (relax u text breakPoints style maxWidth vertical j) t)
          { minPenalty := (List.replicate breakPoints.length none).set 0 (some 0),
            prev := List.replicate breakPoints.length 0 } = some t
      ∧ tableInv u text breakPoints style maxWidth vertical breakPoints.length t := by
  obtain ⟨t, h1, h2⟩ := outer_loop u text breakPoints style maxWidth vertical hdiv hn hmono hlen
    (breakPoints.length - 1) (le_refl _)
  have e : breakPoints.length - 1 + 1 = breakPoints.length := by omega
  rw [e] at h2
  exact ⟨t, h1, h2⟩

/-- In a table at the end of the loops every predecessor is smaller than its
index. -/
theorem prev_lt_of_tableInv {t : Table}
    (h : tableInv u text breakPoints style maxWidth vertical breakPoints.length t) :
    ∀ j, 1 ≤ j → t.prev.getD j 0 < j := by
  intro j hj
  obtain ⟨_, _, _, _, h5, h6⟩ := h
  by_cases hjn : j < breakPoints.length
  · cases hm : t.minPenalty.getD j none with
    | none => rw [(h5 j hj hjn).2.2 hm]; exact hj
    | some m => exact ((h5 j hj hjn).2.1 m hm).1
  · rw [(h6 j (not_lt.mp hjn)).2]; exact hj

theorem walkBack_eq (prev : List Nat) (hprev : ∀ j, 1 ≤ j → prev.getD j 0 < j) :
    ∀ (fuel j : Nat) (acc : List Nat), j ≤ fuel →
      walkBack breakPoints prev fuel j acc
        = some (acc ++ (walkIndices prev fuel j).map (pos breakPoints)) := by
  intro fuel
  induction fuel with
  | zero =>
    intro j acc hj
    have : j = 0 := Nat.le_zero.mp hj
    subst this
    simp [walkBack, walkIndices]
  | succ fuel ih =>
    intro j acc hj
    cases j with
    | zero => simp [walkBack, walkIndices]
    | succ j =>
      have hlt := hprev (j + 1) (Nat.succ_le_succ (Nat.zero_le j))
      rw [walkBack, walkIndices, ih _ _ (by omega)]
      generalize prev.getD (j + 1) 0 = p at hlt ⊢
      by_cases h0 : 0 < p
      · rw [if_pos h0, if_pos h0]
        simp only [pos, List.map_cons, List.append_assoc, List.singleton_append]
      · have hp : p = 0 := by omega
        subst hp
        have hw : walkIndices prev fuel 0 = [] := by cases fuel <;> rfl
        rw [if_neg h0, if_neg h0, hw]

theorem walkIndices_lt (prev : List Nat) (hprev : ∀ j, 1 ≤ j → prev.getD j 0 < j) :
    ∀ (fuel j : Nat),
      (∀ x ∈ walkIndices prev fuel j, x < j ∧ 0 < x)
        ∧ List.Pairwise (fun a b => b < a) (walkIndices prev fuel j) := by
  intro fuel
  induction fuel with
  | zero => intro j; cases j <;> simp [walkIndices]
  | succ fuel ih =>
    intro j
    cases j with
    | zero => simp [walkIndices]
    | succ j =>
      have hlt := hprev (j + 1) (Nat.succ_le_succ (Nat.zero_le j))
      rw [walkIndices]
      generalize prev.getD (j + 1) 0 = p at hlt ⊢
      by_cases h0 : 0 < p
      · rw [if_pos h0]
        obtain ⟨i1, i2⟩ := ih p
        refine ⟨?_, ?_⟩
        · intro x hx
          rcases List.mem_cons.mp hx with hx | hx
          · subst hx; exact ⟨hlt, h0⟩
          · exact ⟨lt_trans (i1 x hx).1 hlt, (i1 x hx).2⟩
        · exact List.pairwise_cons.mpr ⟨fun x hx => (i1 x hx).1, i2⟩
      · rw [if_neg h0]
        exact ⟨fun x hx => absurd hx (List.not_mem_nil x), List.Pairwise.nil⟩

theorem pathCost_concat (L : List Nat) (a b : Nat) :
    pathCost u text breakPoints style maxWidth vertical (L ++ [a, b])
      = pathCost u text breakPoints style maxWidth vertical (L ++ [a])
        + stepCost u text breakPoints style maxWidth vertical a b := by
  induction L with
  | nil => simp [pathCost]
  | cons x L ih =>
    cases L with
    | nil =>
      simp only [List.cons_append, List.nil_append, pathCost]
      ring
    | cons y L =>
      simp only [List.cons_append] at ih ⊢
      rw [pathCost, pathCost, ih]
      ring

/-- The indices of the backward walk, read forwards between `0` and `j`, are
a chain of allowed steps whose cost is the table value of `j`. -/
theorem walk_path {t : Table}
    (h : tableInv u text breakPoints style maxWidth vertical breakPoints.length t) :
    ∀ (fuel j : Nat) (m : ℚ), j ≤ fuel → 1 ≤ j → j < breakPoints.length →
      t.minPenalty.getD j none = some m →
      List.Chain' (fun a b => a < b ∧ feasible u text breakPoints style maxWidth vertical a b)
          (0 :: (walkIndices t.prev fuel j).reverse ++ [j])
        ∧ pathCost u text breakPoints style maxWidth vertical
            (0 :: (walkIndices t.prev fuel j).reverse ++ [j]) = m := by
  obtain ⟨_, _, h3, _, h5, _⟩ := h
  intro fuel
  induction fuel with
  | zero => intro j m hj h1; omega
  | succ fuel ih =>
    intro j m hj h1 hjn hm
    obtain ⟨j', rfl⟩ : ∃ j', j = j' + 1 := ⟨j - 1, by omega⟩
    obtain ⟨hp1, hp2, mp, hp3, hp4, _⟩ := (h5 (j' + 1) h1 hjn).2.1 m hm
    rw [walkIndices]
    by_cases h0 : 0 < t.prev.getD (j' + 1) 0
    · simp only [h0, if_true]
      obtain ⟨c1, c2⟩ := ih (t.prev.getD (j' + 1) 0) mp (by omega) h0 (by omega) hp3
      have e : 0 :: (t.prev.getD (j' + 1) 0 ::
            walkIndices t.prev fuel (t.prev.getD (j' + 1) 0)).reverse ++ [j' + 1]
          = (0 :: (walkIndices t.prev fuel (t.prev.getD (j' + 1) 0)).reverse)
              ++ [t.prev.getD (j' + 1) 0, j' + 1] := by simp
      have e' : 0 :: (walkIndices t.prev fuel (t.prev.getD (j' + 1) 0)).reverse
            ++ [t.prev.getD (j' + 1) 0]
          = (0 :: (walkIndices t.prev fuel (t.prev.getD (j' + 1) 0)).reverse)
              ++ [t.prev.getD (j' + 1) 0] := by simp
      rw [e]
      rw [e'] at c1 c2
      refine ⟨?_, ?_⟩
      · have e2 : (0 :: (walkIndices t.prev fuel (t.prev.getD (j' + 1) 0)).reverse)
              ++ [t.prev.getD (j' + 1) 0, j' + 1]
            = ((0 :: (walkIndices t.prev fuel (t.prev.getD (j' + 1) 0)).reverse)
              ++ [t.prev.getD (j' + 1) 0]) ++ [j' + 1] := by simp
        rw [e2]
        refine List.chain'_append.mpr ⟨c1, List.chain'_singleton _, ?_⟩
        intro x hx y hy
        simp only [List.getLast?_concat, Option.mem_def, Option.some.injEq] at hx
        simp only [List.head?_cons, Option.mem_def, Option.some.injEq] at hy
        subst hx; subst hy
        exact ⟨hp1, hp2⟩
      · rw [pathCost_concat, c2, hp4]
    · have hz : t.prev.getD (j' + 1) 0 = 0 := by omega
      simp only [h0, if_false, List.reverse_nil, List.nil_append, List.singleton_append]
      rw [hz] at hp2 hp3 hp4
      rw [h3] at hp3
      simp only [Option.some.injEq] at hp3
      subst hp3
      refine ⟨?_, ?_⟩
      · exact List.chain'_cons.mpr ⟨⟨by omega, hp2⟩, List.chain'_singleton _⟩
      · simp [pathCost, hp4]

/-- The table value of `j` is a lower bound of the cost of every chain of
allowed steps from `0` to `j`. -/
theorem table_le_pathCost {t : Table}
    (h : tableInv u text breakPoints style maxWidth vertical breakPoints.length t) :
    ∀ ks : List Nat, ks.head? = some 0 →
      List.Chain' (fun a b => a < b ∧ feasible u text breakPoints style maxWidth vertical a b)
        ks →
      ∀ j, ks.getLast? = some j → j < breakPoints.length →
        ∃ m, t.minPenalty.getD j none = some m
          ∧ m ≤ pathCost u text breakPoints style maxWidth vertical ks := by
  obtain ⟨_, _, h3, _, h5, _⟩ := h
  intro ks
  induction ks using List.reverseRecOn with
  | nil => intro hh; simp at hh
  | append_singleton l a ih =>
    intro hhead hchain j hlast hjn
    simp only [List.getLast?_concat, Option.some.injEq] at hlast
    subst hlast
    rcases List.eq_nil_or_concat l with hl | ⟨l', i, hl⟩
    · subst hl
      simp only [List.nil_append, List.head?_cons, Option.some.injEq] at hhead
      subst hhead
      exact ⟨0, h3, by simp [pathCost]⟩
    · rw [List.concat_eq_append] at hl
      subst hl
      obtain ⟨hc1, _, hc3⟩ := List.chain'_append.mp hchain
      have hedge := hc3 i (by simp) a (by simp)
      have hhead' : (l' ++ [i]).head? = some 0 := by
        cases l' with
        | nil => simpa using hhead
        | cons x l'' => simpa using hhead
      obtain ⟨mi, hmi, hle⟩ := ih hhead' hc1 i (by simp) (lt_trans hedge.1 hjn)
      obtain ⟨ma, hma, hle2⟩ := (h5 a (by omega) hjn).1 i hedge.1 hedge.2 mi hmi
      refine ⟨ma, hma, ?_⟩
      have e : l' ++ [i] ++ [a] = l' ++ [i, a] := by simp
      rw [e, pathCost_concat]
      linarith

end Solver

/-! ### Optimality of the solver (C1) -/

theorem pos_mono_of_pairwise {breakPoints : List BreakPoint}
    (h : List.Pairwise (fun a b => a.position ≤ b.position) breakPoints) :
    ∀ i j, i ≤ j → j < breakPoints.length → pos breakPoints i ≤ pos breakPoints j := by
  intro i j hij hj
  rcases Nat.eq_or_lt_of_le hij with heq | hlt
  · subst heq; exact le_refl _
  · have hi : i < breakPoints.length := lt_trans hlt hj
    have := List.pairwise_iff_getElem.mp h i j hi hj hlt
    unfold pos
    rw [List.getD_eq_getElem _ _ hi, List.getD_eq_getElem _ _ hj]
    exact this

theorem pos_le_of_forall {breakPoints : List BreakPoint} {L : Nat}
    (h : ∀ b ∈ breakPoints, b.position ≤ L) :
    ∀ k, k < breakPoints.length → pos breakPoints k ≤ L := by
  intro k hk
  unfold pos
  rw [List.getD_eq_getElem _ _ hk]
  exact h _ (List.getElem_mem hk)

theorem mandatory_last {breakPoints : List BreakPoint} (hsize : 2 ≤ breakPoints.length)
    (h : ∀ b ∈ breakPoints.getLast?, b.mandatory = true) :
    (breakPoints.getD (breakPoints.length - 1) default).mandatory = true := by
  have hk : breakPoints.length - 1 < breakPoints.length := by omega
  rw [List.getD_eq_getElem _ _ hk]
  apply h
  rw [List.getLast?_eq_getElem?]
  simp [List.getElem?_eq_getElem hk]

/-- The solver on a well-formed list of break points: it returns the interior
positions of the path read from the final table, and the cost of this path is
the final table value of the last index. -/
theorem calculateOptimalBreaks_spec (u : UnicodeHandler) (text : List Nat)
    (breakPoints : List BreakPoint) (style : Style) (maxWidth : ℚ) (vertical : Bool)
    (hdiv : maxWidth ≠ 0 ∨ 0 ≤ style.fontSize)
    (hsize : 2 ≤ breakPoints.length)
    (hmono : ∀ i j, i ≤ j → j < breakPoints.length → pos breakPoints i ≤ pos breakPoints j)
    (hlen : ∀ k, k < breakPoints.length → pos breakPoints k ≤ text.length)
    (hlast : (breakPoints.getD (breakPoints.length - 1) default).mandatory = true) :
    ∃ (t : Table) (m : ℚ),
      tableInv u text breakPoints style maxWidth vertical breakPoints.length t
      ∧ t.minPenalty.getD (breakPoints.length - 1) none = some m
      ∧ IsPath u text breakPoints style maxWidth vertical
          (0 :: (walkIndices t.prev breakPoints.length (breakPoints.length - 1)).reverse
            ++ [breakPoints.length - 1])
      ∧ pathCost u text breakPoints style maxWidth vertical
          (0 :: (walkIndices t.prev breakPoints.length (breakPoints.length - 1)).reverse
            ++ [breakPoints.length - 1]) = m
      ∧ calculateOptimalBreaks u text breakPoints style maxWidth vertical
          = some ((walkIndices t.prev breakPoints.length (breakPoints.length - 1)).reverse.map
              (pos breakPoints)) := by
  obtain ⟨t, hfold, hinv⟩ :=
    solver_table u text breakPoints style maxWidth vertical hdiv hsize hmono hlen
  have hn1 : breakPoints.length - 1 < breakPoints.length := by omega
  have hfeas : feasible u text breakPoints style maxWidth vertical 0 (breakPoints.length - 1) :=
    Or.inr hlast
  obtain ⟨m, hm, _⟩ := (hinv.2.2.2.2.1 (breakPoints.length - 1) (by omega) hn1).1 0 (by omega)
    hfeas 0 hinv.2.2.1
  obtain ⟨hc, hcost⟩ := walk_path u text breakPoints style maxWidth vertical hinv
    breakPoints.length (breakPoints.length - 1) m (by omega) (by omega) hn1 hm
  have hlastIdx : (0 :: (walkIndices t.prev breakPoints.length
      (breakPoints.length - 1)).reverse ++ [breakPoints.length - 1]).getLast?
      = some (breakPoints.length - 1) := by
    rw [List.getLast?_concat]
  refine ⟨t, m, hinv, hm, ⟨by simp, hlastIdx, hc⟩, hcost, ?_⟩
  unfold calculateOptimalBreaks
  have hnot : ¬ breakPoints.length ≤ 1 := by omega
  simp only [hnot, if_false, Option.bind_eq_bind]
  rw [hfold]
  simp only [Option.some_bind]
  rw [walkBack_eq breakPoints t.prev
    (prev_lt_of_tableInv u text breakPoints style maxWidth vertical hinv) _ _ _ (by omega)]
  simp

/-- C1. `calculateOptimalBreaks` is optimal: for a list of at least two break
points with non-decreasing positions inside the text and a mandatory last
entry, a non-negative font size (so non-negative character widths) and a
positive maximum width, the returned list is the list of positions of the
interior indices of a path whose cost is at most the cost of every path. -/
theorem calculateOptimalBreaks_optimal (u : UnicodeHandler) (text : List Nat)
    (breakPoints : List BreakPoint) (style : Style) (maxWidth : ℚ) (vertical : Bool)
    (hsize : 2 ≤ breakPoints.length)
    (hsorted : List.Pairwise (fun a b => a.position ≤ b.position) breakPoints)
    (hbound : ∀ b ∈ breakPoints, b.position ≤ text.length)
    (hlast : ∀ b ∈ breakPoints.getLast?, b.mandatory = true)
    (_hfont : 0 ≤ style.fontSize) (hwidth : 0 < maxWidth) :
    ∃ ks : List Nat,
      IsPath u text breakPoints style maxWidth vertical ks
      ∧ calculateOptimalBreaks u text breakPoints style maxWidth vertical
          = some (ks.tail.dropLast.map (pos breakPoints))
      ∧ ∀ ks', IsPath u text breakPoints style maxWidth vertical ks' →
          pathCost u text breakPoints style maxWidth vertical ks
            ≤ pathCost u text breakPoints style maxWidth vertical ks' := by
  obtain ⟨t, m, hinv, hm, hpath, hcost, hres⟩ :=
    calculateOptimalBreaks_spec u text breakPoints style maxWidth vertical
      (Or.inl (ne_of_gt hwidth)) hsize
      (pos_mono_of_pairwise hsorted) (pos_le_of_forall hbound) (mandatory_last hsize hlast)
  refine ⟨_, hpath, ?_, ?_⟩
  · rw [hres]
    simp
  · intro ks' hks'
    obtain ⟨m', hm', hle⟩ := table_le_pathCost u text breakPoints style maxWidth vertical hinv
      ks' hks'.1 hks'.2.2 (breakPoints.length - 1) hks'.2.1 (by omega)
    rw [hm] at hm'
    simp only [Option.some.injEq] at hm'
    rw [hcost, hm']
    exact hle

/-- C1, worked example: the break points of "あいう" and the width of two
full-width characters. -/
theorem calculateOptimalBreaks_optimal_witness :
    findBreakPoints TypesettingRules.new [0x3042, 0x3044, 0x3046]
      = [⟨0, 1000, false⟩, ⟨1, 100, false⟩, ⟨2, 100, false⟩, ⟨3, 0, true⟩]
    ∧ ∃ ks : List Nat,
      IsPath exampleHandler [0x3042, 0x3044, 0x3046]
        [⟨0, 1000, false⟩, ⟨1, 100, false⟩, ⟨2, 100, false⟩, ⟨3, 0, true⟩] exampleStyle 20 false ks
      ∧ calculateOptimalBreaks exampleHandler [0x3042, 0x3044, 0x3046]
          [⟨0, 1000, false⟩, ⟨1, 100, false⟩, ⟨2, 100, false⟩, ⟨3, 0, true⟩] exampleStyle 20 false
          = some (ks.tail.dropLast.map
              (pos [⟨0, 1000, false⟩, ⟨1, 100, false⟩, ⟨2, 100, false⟩, ⟨3, 0, true⟩]))
      ∧ ∀ ks', IsPath exampleHandler [0x3042, 0x3044, 0x3046]
          [⟨0, 1000, false⟩, ⟨1, 100, false⟩, ⟨2, 100, false⟩, ⟨3, 0, true⟩] exampleStyle 20 false
          ks' →
          pathCost exampleHandler [0x3042, 0x3044, 0x3046]
              [⟨0, 1000, false⟩, ⟨1, 100, false⟩, ⟨2, 100, false⟩, ⟨3, 0, true⟩] exampleStyle 20
              false ks
            ≤ pathCost exampleHandler [0x3042, 0x3044, 0x3046]
              [⟨0, 1000, false⟩, ⟨1, 100, false⟩, ⟨2, 100, false⟩, ⟨3, 0, true⟩] exampleStyle 20
              false ks' :=
  ⟨by decide!,
    calculateOptimalBreaks_optimal exampleHandler [0x3042, 0x3044, 0x3046]
      [⟨0, 1000, false⟩, ⟨1, 100, false⟩, ⟨2, 100, false⟩, ⟨3, 0, true⟩] exampleStyle 20 false
      (by decide) (by simp) (by simp) (by simp) (by decide!) (by norm_num)⟩

/-- C2, the solver at the failing input "A\nB" with width 1000: the scanner
emits the mandatory break point at position 2 for the newline, the solver
returns the empty list, and `breakLines` returns the whole text as one line. -/
theorem mandatory_break_skipped :
    findBreakPoints TypesettingRules.new [0x41, 0x0A, 0x42]
      = [⟨0, 1000, false⟩, ⟨2, 0, true⟩, ⟨3, 0, true⟩]
    ∧ calculateOptimalBreaks exampleHandler [0x41, 0x0A, 0x42]
        (findBreakPoints TypesettingRules.new [0x41, 0x0A, 0x42]) exampleStyle 1000 false
      = some []
    ∧ breakLines TypesettingRules.new exampleHandler [0x41, 0x0A, 0x42] exampleStyle 1000 false
      = some [[0x41, 0x0A, 0x42]] := by
  refine ⟨by decide!, by decide!, by decide!⟩

/-- C3, counterexample to the claim as stated: "AB" at width 1, smaller than
the width 5 of each character, is returned as one line of two characters. -/
theorem narrow_width_counterexample :
    (1 : ℚ) < calculateCharacterWidth exampleHandler 0x41 exampleStyle false
    ∧ breakLines TypesettingRules.new exampleHandler [0x41, 0x42] exampleStyle 1 false
      = some [[0x41, 0x42]]
    ∧ ¬ ∃ lines, breakLines TypesettingRules.new exampleHandler [0x41, 0x42] exampleStyle 1 false
          = some lines
        ∧ lines.length = [0x41, 0x42].length ∧ ∀ l ∈ lines, l.length = 1 := by
  have h : breakLines TypesettingRules.new exampleHandler [0x41, 0x42] exampleStyle 1 false
      = some [[0x41, 0x42]] := by decide!
  refine ⟨by decide!, h, ?_⟩
  rintro ⟨lines, h1, h2, _⟩
  rw [h] at h1
  simp only [Option.some.injEq] at h1
  subst h1
  simp at h2

/-! ### The scanner -/

theorem findBreakPointsStep_cases (rules : TypesettingRules) (text : List Nat)
    (breakPoints : List BreakPoint) (i : Nat) :
    findBreakPointsStep rules text breakPoints i = breakPoints
    ∨ ∃ b : BreakPoint, findBreakPointsStep rules text breakPoints i = breakPoints ++ [b]
        ∧ i ≤ b.position ∧ b.position ≤ i + 1 ∧ 0 ≤ b.penalty := by
  unfold findBreakPointsStep
  simp only []
  split
  · exact Or.inr ⟨_, rfl, Nat.le_succ i, le_refl _, le_refl _⟩
  split
  · exact Or.inr ⟨_, rfl, Nat.le_succ i, le_refl _, by norm_num⟩
  split
  · split
    · exact Or.inl rfl
    split
    · exact Or.inl rfl
    split
    · exact Or.inl rfl
    · exact Or.inr ⟨_, rfl, le_refl _, Nat.le_succ i, by norm_num⟩
  · exact Or.inl rfl

theorem findBreakPoints_loop (rules : TypesettingRules) (text : List Nat) :
    ∀ k, ∃ mid : List BreakPoint,
      (List.range k).foldl (findBreakPointsStep rules text)
          [{ position := 0, penalty := 1000, mandatory := false }]
        = { position := 0, penalty := 1000, mandatory := false } :: mid
      ∧ List.Pairwise (fun a b : BreakPoint => a.position ≤ b.position)
          ({ position := 0, penalty := 1000, mandatory := false } :: mid)
      ∧ ∀ b ∈ ({ position := 0, penalty := 1000, mandatory := false } :: mid : List BreakPoint),
          b.position ≤ k ∧ 0 ≤ b.penalty := by
  intro k
  induction k with
  | zero =>
    refine ⟨[], rfl, by simp, ?_⟩
    intro b hb
    simp only [List.mem_singleton] at hb
    subst hb
    exact ⟨le_refl _, by norm_num⟩
  | succ k ih =>
    obtain ⟨mid, h1, h2, h3⟩ := ih
    rw [List.range_succ, List.foldl_append, h1]
    simp only [List.foldl_cons, List.foldl_nil]
    rcases findBreakPointsStep_cases rules text
      ({ position := 0, penalty := 1000, mandatory := false } :: mid) k with h | ⟨b, h, hb1, hb2, hb3⟩
    · rw [h]
      exact ⟨mid, rfl, h2, fun b hb => ⟨Nat.le_succ_of_le (h3 b hb).1, (h3 b hb).2⟩⟩
    · rw [h]
      refine ⟨mid ++ [b], rfl, ?_, ?_⟩
      · rw [← List.cons_append]
        refine List.pairwise_append.mpr ⟨h2, List.pairwise_singleton _ _, ?_⟩
        intro a ha c hc
        simp only [List.mem_singleton] at hc
        subst hc
        exact le_trans (h3 a ha).1 hb1
      · intro c hc
        rw [← List.cons_append] at hc
        rcases List.mem_append.mp hc with hc | hc
        · exact ⟨Nat.le_succ_of_le (h3 c hc).1, (h3 c hc).2⟩
        · simp only [List.mem_singleton] at hc
          subst hc
          exact ⟨hb2, hb3⟩

/-- The shape of the output of `findBreakPoints`. -/
theorem findBreakPoints_shape (rules : TypesettingRules) (text : List Nat) :
    ∃ mid : List BreakPoint,
      findBreakPoints rules text
        = { position := 0, penalty := 1000, mandatory := false } :: mid
            ++ [{ position := text.length, penalty := 0, mandatory := true }]
      ∧ List.Pairwise (fun a b : BreakPoint => a.position ≤ b.position)
          (findBreakPoints rules text)
      ∧ ∀ b ∈ findBreakPoints rules text, b.position ≤ text.length ∧ 0 ≤ b.penalty := by
  obtain ⟨mid, h1, h2, h3⟩ := findBreakPoints_loop rules text text.length
  refine ⟨mid, ?_, ?_, ?_⟩
  · unfold findBreakPoints; rw [h1]
  · unfold findBreakPoints; rw [h1]
    refine List.pairwise_append.mpr ⟨h2, List.pairwise_singleton _ _, ?_⟩
    intro a ha c hc
    simp only [List.mem_singleton] at hc
    subst hc
    exact (h3 a ha).1
  · intro b hb
    unfold findBreakPoints at hb
    rw [h1] at hb
    rcases List.mem_append.mp hb with hb | hb
    · exact h3 b hb
    · simp only [List.mem_singleton] at hb
      subst hb
      exact ⟨le_refl _, le_refl _⟩

/-- The facts on the output of `findBreakPoints` that the solver relies on. -/
theorem findBreakPoints_facts (rules : TypesettingRules) (text : List Nat) :
    2 ≤ (findBreakPoints rules text).length
    ∧ (∀ i j, i ≤ j → j < (findBreakPoints rules text).length →
        pos (findBreakPoints rules text) i ≤ pos (findBreakPoints rules text) j)
    ∧ (∀ k, k < (findBreakPoints rules text).length →
        pos (findBreakPoints rules text) k ≤ text.length)
    ∧ (∀ k, 0 ≤ ((findBreakPoints rules text).getD k default).penalty)
    ∧ (findBreakPoints rules text).getD ((findBreakPoints rules text).length - 1) default
        = { position := text.length, penalty := 0, mandatory := true }
    ∧ pos (findBreakPoints rules text) 0 = 0 := by
  obtain ⟨mid, h1, h2, h3⟩ := findBreakPoints_shape rules text
  have hlen : (findBreakPoints rules text).length = mid.length + 2 := by rw [h1]; simp
  refine ⟨by omega, pos_mono_of_pairwise h2, pos_le_of_forall (fun b hb => (h3 b hb).1), ?_, ?_, ?_⟩
  · intro k
    by_cases hk : k < (findBreakPoints rules text).length
    · rw [List.getD_eq_getElem _ _ hk]
      exact (h3 _ (List.getElem_mem hk)).2
    · rw [List.getD_eq_default _ _ (not_lt.mp hk)]
      exact le_refl _
  · have e : mid.length + 2 - 1 = ({ position := 0, penalty := 1000, mandatory := false }
        :: mid : List BreakPoint).length := by simp
    rw [hlen, e, h1, List.getD_eq_getElem?_getD, List.getElem?_append_right (le_refl _)]
    simp
  · unfold pos
    rw [h1]
    rfl

/-! ### Slicing the text at the chosen positions (C4) -/

theorem slice_loop (text : List Nat) :
    ∀ (breaks : List Nat) (acc : List (List Nat) × Nat),
      List.Pairwise (fun a b => a ≤ b) (acc.2 :: breaks) →
      (∀ b ∈ breaks, b ≤ text.length) → acc.2 ≤ text.length →
      acc.1.flatten = text.take acc.2 →
      ∃ r, breaks.foldlM (sliceStep text) acc = some r
        ∧ r.1.flatten = text.take r.2 ∧ r.2 ≤ text.length := by
  intro breaks
  induction breaks with
  | nil => intro acc _ _ h2 h3; exact ⟨acc, rfl, h3, h2⟩
  | cons b rest ih =>
    intro acc hp hb h2 h3
    have hab : acc.2 ≤ b := (List.pairwise_cons.mp hp).1 b (List.mem_cons_self _ _)
    have hstep : sliceStep text acc b
        = some (acc.1 ++ [(text.drop acc.2).take (b - acc.2)], b) := by
      unfold sliceStep
      rw [sizeSub_of_le hab, substr_of_le h2]
      rfl
    rw [List.foldlM_cons, hstep]
    simp only [Option.bind_eq_bind, Option.some_bind]
    apply ih
    · exact (List.pairwise_cons.mp hp).2
    · exact fun c hc => hb c (List.mem_cons_of_mem _ hc)
    · exact hb b (List.mem_cons_self _ _)
    · simp only [List.flatten_append, List.flatten_cons, List.flatten_nil, List.append_nil]
      rw [h3]
      have e : b = acc.2 + (b - acc.2) := by omega
      conv_rhs => rw [e, List.take_add]

/-- The result of `calculateOptimalBreaks` on the output of `findBreakPoints`:
non-decreasing positions inside the text. -/
theorem calculateOptimalBreaks_sorted (rules : TypesettingRules) (u : UnicodeHandler)
    (text : List Nat) (style : Style) (maxWidth : ℚ) (vertical : Bool)
    (hdiv : maxWidth ≠ 0 ∨ 0 ≤ style.fontSize) :
    ∃ breaks, calculateOptimalBreaks u text (findBreakPoints rules text) style maxWidth vertical
        = some breaks
      ∧ List.Pairwise (fun a b => a ≤ b) breaks ∧ ∀ b ∈ breaks, b ≤ text.length := by
  obtain ⟨f1, f2, f3, _, f5, _⟩ := findBreakPoints_facts rules text
  have hlast : ((findBreakPoints rules text).getD ((findBreakPoints rules text).length - 1)
      default).mandatory = true := by rw [f5]
  obtain ⟨t, m, hinv, _, _, _, hres⟩ := calculateOptimalBreaks_spec u text
    (findBreakPoints rules text) style maxWidth vertical hdiv f1 f2 f3 hlast
  obtain ⟨w1, w2⟩ := walkIndices_lt t.prev
    (prev_lt_of_tableInv u text (findBreakPoints rules text) style maxWidth vertical hinv)
    (findBreakPoints rules text).length ((findBreakPoints rules text).length - 1)
  refine ⟨_, hres, ?_, ?_⟩
  · rw [List.map_reverse, List.pairwise_reverse, List.pairwise_map]
    refine List.Pairwise.imp_of_mem ?_ w2
    intro a b ha hb hlt
    exact f2 b a (Nat.le_of_lt hlt) (by have := (w1 a ha).1; omega)
  · intro b hb
    obtain ⟨k, hk, rfl⟩ := List.mem_map.mp hb
    have hk' := (w1 k (List.mem_reverse.mp hk)).1
    exact f3 k (by omega)

/-- C4. Round trip of the solver pipeline: for every text and every positive
maximum width, `LineBreaker::breakLines` returns without failure, and
concatenating the returned lines in order gives exactly the text. -/
theorem breakLines_round_trip (rules : TypesettingRules) (u : UnicodeHandler)
    (text : List Nat) (style : Style) (maxWidth : ℚ) (vertical : Bool)
    (hwidth : 0 < maxWidth) :
    ∃ lines, breakLines rules u text style maxWidth vertical = some lines
      ∧ lines.flatten = text := by
  obtain ⟨breaks, hb1, hb2, hb3⟩ :=
    calculateOptimalBreaks_sorted rules u text style maxWidth vertical
      (Or.inl (ne_of_gt hwidth))
  obtain ⟨r, hr1, hr2, hr3⟩ := slice_loop text breaks ([], 0)
    (List.pairwise_cons.mpr ⟨fun b _ => Nat.zero_le b, hb2⟩) hb3 (Nat.zero_le _) (by simp)
  unfold breakLines
  simp only [Option.bind_eq_bind]
  rw [hb1]
  simp only [Option.some_bind]
  rw [hr1]
  simp only [Option.some_bind]
  by_cases hlt : r.2 < text.length
  · simp only [hlt, if_true]
    have hsub : substrFrom text r.2 = some (text.drop r.2) := by
      simp [substrFrom, Nat.not_lt.mpr hr3]
    rw [hsub]
    refine ⟨_, rfl, ?_⟩
    simp only [List.flatten_append, List.flatten_cons, List.flatten_nil, List.append_nil]
    rw [hr2, List.take_append_drop]
  · simp only [hlt, if_false]
    refine ⟨_, rfl, ?_⟩
    rw [hr2]
    exact List.take_of_length_le (not_lt.mp hlt)

/-- C4, worked example: "あいう" at the width of two full-width characters. -/
theorem breakLines_round_trip_witness :
    ∃ lines, breakLines TypesettingRules.new exampleHandler [0x3042, 0x3044, 0x3046]
        exampleStyle 20 false = some lines
      ∧ lines.flatten = [0x3042, 0x3044, 0x3046] :=
  breakLines_round_trip TypesettingRules.new exampleHandler [0x3042, 0x3044, 0x3046]
    exampleStyle 20 false (by norm_num)

/-! ### Overfull texts (C3) -/

theorem fillPenalty_nonneg (maxWidth w : ℚ) : 0 ≤ fillPenalty maxWidth w := by
  unfold fillPenalty
  split
  · positivity
  · exact le_refl _

/-- With non-negative penalties every finite table value is non-negative. -/
theorem table_nonneg (u : UnicodeHandler) (text : List Nat) (breakPoints : List BreakPoint)
    (style : Style) (maxWidth : ℚ) (vertical : Bool) {t : Table}
    (h : tableInv u text breakPoints style maxWidth vertical breakPoints.length t)
    (hpen : ∀ k, 0 ≤ (breakPoints.getD k default).penalty) :
    ∀ j, j < breakPoints.length → ∀ m, t.minPenalty.getD j none = some m → 0 ≤ m := by
  obtain ⟨_, _, h3, _, h5, _⟩ := h
  intro j
  induction j using Nat.strong_induction_on with
  | _ j ih =>
    intro hj m hm
    rcases Nat.eq_zero_or_pos j with h0 | hpos
    · subst h0
      rw [h3] at hm
      simp only [Option.some.injEq] at hm
      rw [← hm]
    · obtain ⟨hp1, _, mp, hp3, hp4, _⟩ := (h5 j hpos hj).2.1 m hm
      have := ih _ hp1 (lt_trans hp1 hj) mp hp3
      rw [hp4]
      unfold stepCost
      have := fillPenalty_nonneg maxWidth
        (edgeWidth u text breakPoints style vertical (t.prev.getD j 0) j)
      have := hpen j
      linarith

/-- When the whole text is at least as wide as the maximum width, the solver
returns no break on the output of `findBreakPoints`: the step from the first
to the last break point is allowed because the last one is mandatory, costs
nothing, and is the first candidate of the last index. -/
theorem calculateOptimalBreaks_overfull (rules : TypesettingRules) (u : UnicodeHandler)
    (text : List Nat) (style : Style) (maxWidth : ℚ) (vertical : Bool)
    (hdiv : maxWidth ≠ 0 ∨ 0 ≤ style.fontSize)
    (hwide : maxWidth ≤ (text.map (fun ch => calculateCharacterWidth u ch style vertical)).sum) :
    calculateOptimalBreaks u text (findBreakPoints rules text) style maxWidth vertical
      = some [] := by
  obtain ⟨f1, f2, f3, f4, f5, f6⟩ := findBreakPoints_facts rules text
  have hlast : ((findBreakPoints rules text).getD ((findBreakPoints rules text).length - 1)
      default).mandatory = true := by rw [f5]
  obtain ⟨t, m, hinv, hm, _, _, hres⟩ := calculateOptimalBreaks_spec u text
    (findBreakPoints rules text) style maxWidth vertical hdiv f1 f2 f3 hlast
  have hn1 : (findBreakPoints rules text).length - 1 < (findBreakPoints rules text).length := by
    omega
  -- the direct step costs nothing
  have hcost0 : stepCost u text (findBreakPoints rules text) style maxWidth vertical 0
      ((findBreakPoints rules text).length - 1) = 0 := by
    unfold stepCost edgeWidth
    have hp : pos (findBreakPoints rules text) ((findBreakPoints rules text).length - 1)
        = text.length := by unfold pos; rw [f5]
    rw [f6, hp, f5]
    simp only [List.drop_zero, Nat.sub_zero, List.take_length, add_zero]
    unfold fillPenalty
    rw [if_neg (not_lt.mpr hwide)]
  have hm0 := table_nonneg u text (findBreakPoints rules text) style maxWidth vertical hinv f4
    _ hn1 m hm
  have hprev : t.prev.getD ((findBreakPoints rules text).length - 1) 0 = 0 := by
    by_contra hne
    obtain ⟨_, _, mp, _, _, hfirst⟩ :=
      (hinv.2.2.2.2.1 _ (by omega) hn1).2.1 m hm
    have := hfirst 0 (Nat.pos_of_ne_zero hne) (Or.inr hlast) 0 hinv.2.2.1
    rw [hcost0] at this
    linarith
  rw [hres]
  obtain ⟨k, hk⟩ : ∃ k, (findBreakPoints rules text).length = k + 2 :=
    ⟨(findBreakPoints rules text).length - 2, by omega⟩
  have e1 : (findBreakPoints rules text).length - 1 = k + 1 := by omega
  rw [e1] at hprev ⊢
  rw [hk, walkIndices, if_neg (by rw [hprev]; exact Nat.lt_irrefl 0)]
  rfl

/-- C3 (amended). For every non-empty text without newline and every maximum
width smaller than the width of some character of the text (font size not
negative), `LineBreaker::breakLines` returns without failure exactly one
line, the whole text: the width that cannot be met is absorbed by the
mandatory end-of-text break point, not by lines of one character. -/
theorem breakLines_narrow_width (rules : TypesettingRules) (u : UnicodeHandler)
    (text : List Nat) (style : Style) (maxWidth : ℚ) (vertical : Bool)
    (hne : text ≠ []) (_hnewline : 0x0A ∉ text) (hfont : 0 ≤ style.fontSize)
    (hnarrow : ∃ ch ∈ text, maxWidth < calculateCharacterWidth u ch style vertical) :
    breakLines rules u text style maxWidth vertical = some [text] := by
  obtain ⟨ch, hch, hlt⟩ := hnarrow
  have hnonneg : ∀ x ∈ text.map (fun ch => calculateCharacterWidth u ch style vertical),
      (0 : ℚ) ≤ x := by
    intro x hx
    obtain ⟨c, _, rfl⟩ := List.mem_map.mp hx
    exact lineBreaker_characterWidth_nonneg u style vertical hfont c
  have hwide : maxWidth ≤ (text.map (fun ch => calculateCharacterWidth u ch style vertical)).sum :=
    le_trans (le_of_lt hlt)
      (List.single_le_sum hnonneg _ (List.mem_map.mpr ⟨ch, hch, rfl⟩))
  unfold breakLines
  simp only [Option.bind_eq_bind]
  rw [calculateOptimalBreaks_overfull rules u text style maxWidth vertical (Or.inr hfont) hwide]
  have hpos : 0 < text.length := List.length_pos.mpr hne
  simp [hpos, substrFrom]

/-- C3 (amended), worked example: "AB" at width 1 is returned as the single
line "AB". -/
theorem breakLines_narrow_width_witness :
    breakLines TypesettingRules.new exampleHandler [0x41, 0x42] exampleStyle 1 false
      = some [[0x41, 0x42]] :=
  breakLines_narrow_width TypesettingRules.new exampleHandler [0x41, 0x42] exampleStyle 1 false
    (by simp) (by decide) (by decide!) ⟨0x41, by simp, by decide!⟩

end LineBreaker

namespace TypesettingEngine

/-! ### Frame of the three adjustment passes (C11, C12, C13) -/

theorem adjustPair_height_baseline (rules : TypesettingRules) (u : UnicodeHandler) (style : Style)
    (vertical : Bool) (c n : TextLine) :
    ((adjustPair rules u style vertical c n).1.height = c.height
      ∧ (adjustPair rules u style vertical c n).1.baseline = c.baseline)
    ∧ ((adjustPair rules u style vertical c n).2.height = n.height
      ∧ (adjustPair rules u style vertical c n).2.baseline = n.baseline) := by
  unfold adjustPair
  split
  · exact ⟨⟨rfl, rfl⟩, rfl, rfl⟩
  split
  · exact ⟨⟨rfl, rfl⟩, rfl, rfl⟩
  cases hl : c.text.getLast? with
  | none =>
    simp only []
    split
    · split <;> simp_all
    · simp_all
  | some l =>
    simp only []
    by_cases he : rules.isLineEndProhibited l = true
    · simp only [he, if_true]
      by_cases hs : rules.isLineStartProhibited l = true
      · simp [hs]
      · simp [hs]
    · simp only [he]
      simp only [Bool.false_eq_true, if_false]
      split
      · split <;> simp_all
      · simp_all

theorem sweep_frame (rules : TypesettingRules) (u : UnicodeHandler) (style : Style)
    (vertical : Bool) :
    ∀ (k : Nat) (ls : List TextLine), ls.length = k →
      (sweep rules u style vertical ls).map (fun l => (l.hasLineBreak, l.height, l.baseline))
        = ls.map (fun l => (l.hasLineBreak, l.height, l.baseline)) := by
  intro k
  induction k with
  | zero =>
    intro ls h
    have : ls = [] := List.length_eq_zero.mp h
    subst this; simp [sweep]
  | succ k ih =>
    intro ls h
    match ls, h with
    | [l], _ => simp [sweep]
    | c :: n :: rest, h =>
      rw [sweep]
      simp only [List.map_cons]
      rw [ih _ (by simpa using h)]
      simp only [List.map_cons]
      obtain ⟨⟨a1, a2⟩, a3, a4⟩ := adjustPair_height_baseline rules u style vertical c n
      obtain ⟨b1, b2⟩ := adjustPair_hasLineBreak rules u style vertical c n
      rw [a1, a2, a3, a4, b1, b2]

/-- C11. `applyProhibitionRules` is a local repair that keeps the number of
lines: for every list of lines and every rule set, the output has as many
lines as the input, the concatenation of the line texts in order is the same,
and every line keeps its `hasLineBreak`, `height` and `baseline`. -/
theorem applyProhibitionRules_frame (rules : TypesettingRules) (u : UnicodeHandler)
    (lines : List TextLine) (style : Style) (vertical : Bool) :
    (applyProhibitionRules rules u lines style vertical).length = lines.length
    ∧ ((applyProhibitionRules rules u lines style vertical).map TextLine.text).flatten
        = (lines.map TextLine.text).flatten
    ∧ (applyProhibitionRules rules u lines style vertical).map
          (fun l => (l.hasLineBreak, l.height, l.baseline))
        = lines.map (fun l => (l.hasLineBreak, l.height, l.baseline)) := by
  have hframe : (applyProhibitionRules rules u lines style vertical).map
        (fun l => (l.hasLineBreak, l.height, l.baseline))
      = lines.map (fun l => (l.hasLineBreak, l.height, l.baseline)) := by
    rw [applyProhibitionRules_eq_sweep]
    exact sweep_frame rules u style vertical lines.length lines rfl
  refine ⟨?_, applyProhibitionRules_concat rules u lines style vertical, hframe⟩
  have := congrArg List.length hframe
  simpa using this

end TypesettingEngine

namespace TypesettingEngine

end TypesettingEngine

namespace TypesettingRules

/-! ### The rule sets (C14, C18) -/

/-- C14. Each `add` operation adds the character to its own set and to no
other: afterwards the set is the old set with the character added (so the
membership query is true), a second `add` of the same character leaves the
state unchanged, and the three other sets are unchanged. -/
theorem add_character_spec (r : TypesettingRules) (c : Nat) :
    ((∀ x, x ∈ (r.addLineStartProhibitedCharacter c).lineStartProhibitedChars
          ↔ x = c ∨ x ∈ r.lineStartProhibitedChars)
      ∧ (r.addLineStartProhibitedCharacter c).isLineStartProhibited c = true
      ∧ (r.addLineStartProhibitedCharacter c).addLineStartProhibitedCharacter c
          = r.addLineStartProhibitedCharacter c
      ∧ (r.addLineStartProhibitedCharacter c).lineEndProhibitedChars = r.lineEndProhibitedChars
      ∧ (r.addLineStartProhibitedCharacter c).inseparableChars = r.inseparableChars
      ∧ (r.addLineStartProhibitedCharacter c).hangingChars = r.hangingChars)
    ∧ ((∀ x, x ∈ (r.addLineEndProhibitedCharacter c).lineEndProhibitedChars
          ↔ x = c ∨ x ∈ r.lineEndProhibitedChars)
      ∧ (r.addLineEndProhibitedCharacter c).isLineEndProhibited c = true
      ∧ (r.addLineEndProhibitedCharacter c).addLineEndProhibitedCharacter c
          = r.addLineEndProhibitedCharacter c
      ∧ (r.addLineEndProhibitedCharacter c).lineStartProhibitedChars
          = r.lineStartProhibitedChars
      ∧ (r.addLineEndProhibitedCharacter c).inseparableChars = r.inseparableChars
      ∧ (r.addLineEndProhibitedCharacter c).hangingChars = r.hangingChars)
    ∧ ((∀ x, x ∈ (r.addInseparableCharacter c).inseparableChars
          ↔ x = c ∨ x ∈ r.inseparableChars)
      ∧ (r.addInseparableCharacter c).isInseparable c = true
      ∧ (r.addInseparableCharacter c).addInseparableCharacter c = r.addInseparableCharacter c
      ∧ (r.addInseparableCharacter c).lineStartProhibitedChars = r.lineStartProhibitedChars
      ∧ (r.addInseparableCharacter c).lineEndProhibitedChars = r.lineEndProhibitedChars
      ∧ (r.addInseparableCharacter c).hangingChars = r.hangingChars)
    ∧ ((∀ x, x ∈ (r.addHangingCharacter c).hangingChars ↔ x = c ∨ x ∈ r.hangingChars)
      ∧ (r.addHangingCharacter c).isHangingCharacter c = true
      ∧ (r.addHangingCharacter c).addHangingCharacter c = r.addHangingCharacter c
      ∧ (r.addHangingCharacter c).lineStartProhibitedChars = r.lineStartProhibitedChars
      ∧ (r.addHangingCharacter c).lineEndProhibitedChars = r.lineEndProhibitedChars
      ∧ (r.addHangingCharacter c).inseparableChars = r.inseparableChars) := by
  refine ⟨⟨?_, ?_, ?_, rfl, rfl, rfl⟩, ⟨?_, ?_, ?_, rfl, rfl, rfl⟩,
    ⟨?_, ?_, ?_, rfl, rfl, rfl⟩, ⟨?_, ?_, ?_, rfl, rfl, rfl⟩⟩
  · intro x; simp [addLineStartProhibitedCharacter]
  · simp [addLineStartProhibitedCharacter, isLineStartProhibited]
  · simp [addLineStartProhibitedCharacter]
  · intro x; simp [addLineEndProhibitedCharacter]
  · simp [addLineEndProhibitedCharacter, isLineEndProhibited]
  · simp [addLineEndProhibitedCharacter]
  · intro x; simp [addInseparableCharacter]
  · simp [addInseparableCharacter, isInseparable]
  · simp [addInseparableCharacter]
  · intro x; simp [addHangingCharacter]
  · simp [addHangingCharacter, isHangingCharacter]
  · simp [addHangingCharacter]

/-- C18 (amended). The hanging set of a freshly constructed `TypesettingRules`
is exactly the four punctuation marks U+3001, U+3002, U+FF0C, U+FF0E together
with the nine closing brackets U+FF09, U+FF3D, U+FF5D, U+300D, U+300F, U+3011,
U+3015, U+3009, U+300B. -/
theorem default_hanging_set :
    TypesettingRules.new.hangingChars
      = ({0x3001, 0x3002, 0xFF0C, 0xFF0E} : Finset Nat)
        ∪ {0xFF09, 0xFF3D, 0xFF5D, 0x300D, 0x300F, 0x3011, 0x3015, 0x3009, 0x300B} := by
  decide!

/-- C18, counterexample to the claim as stated: U+30FB, U+FF1A, U+FF1B, U+FF1F
and U+FF01 are in the claimed set and not in the default hanging set. -/
theorem default_hanging_counterexample :
    TypesettingRules.new.hangingChars
      ≠ ({0x3001, 0x3002, 0xFF0C, 0xFF0E, 0x30FB, 0xFF1A, 0xFF1B, 0xFF1F, 0xFF01} : Finset Nat)
        ∪ {0xFF09, 0xFF3D, 0xFF5D, 0x300D, 0x300F, 0x3011, 0x3015, 0x3009, 0x300B}
    ∧ TypesettingRules.new.isHangingCharacter 0x30FB = false
    ∧ TypesettingRules.new.isHangingCharacter 0xFF1A = false
    ∧ TypesettingRules.new.isHangingCharacter 0xFF1B = false
    ∧ TypesettingRules.new.isHangingCharacter 0xFF1F = false
    ∧ TypesettingRules.new.isHangingCharacter 0xFF01 = false := by
  refine ⟨by decide!, by decide!, by decide!, by decide!, by decide!, by decide!⟩

end TypesettingRules

namespace LineBreaker

/-! ### The break points in closed form (C19, C20) -/

theorem findBreakPointsStep_eq (rules : TypesettingRules) (text : List Nat)
    (breakPoints : List BreakPoint) (i : Nat) :
    findBreakPointsStep rules text breakPoints i
      = breakPoints ++ (stepPoint rules text i).toList := by
  unfold findBreakPointsStep stepPoint
  simp only []
  split
  · rfl
  split
  · rfl
  split
  · split
    · simp
    split
    · simp
    split
    · simp
    · rfl
  · simp

theorem findBreakPoints_loop_eq (rules : TypesettingRules) (text : List Nat) (init : List BreakPoint) :
    ∀ k, (List.range k).foldl (findBreakPointsStep rules text) init
      = init ++ (List.range k).filterMap (stepPoint rules text) := by
  intro k
  induction k with
  | zero => simp
  | succ k ih =>
    rw [List.range_succ, List.foldl_append, ih, List.filterMap_append]
    simp only [List.foldl_cons, List.foldl_nil, findBreakPointsStep_eq, List.append_assoc]
    congr 1

/-- The output of `findBreakPoints` in closed form. -/
theorem findBreakPoints_eq (rules : TypesettingRules) (text : List Nat) :
    findBreakPoints rules text
      = { position := 0, penalty := 1000, mandatory := false }
          :: (List.range text.length).filterMap (stepPoint rules text)
          ++ [{ position := text.length, penalty := 0, mandatory := true }] := by
  unfold findBreakPoints
  rw [findBreakPoints_loop_eq]
  rfl

theorem japanese_not_break (c : Nat) (h : UnicodeHandler.isJapaneseCharacter c = true) :
    c ≠ 0x0A ∧ c ≠ 0x20 ∧ c ≠ 0x09 := by
  unfold UnicodeHandler.isJapaneseCharacter UnicodeHandler.japaneseRanges at h
  simp only [List.any_cons, List.any_nil, Bool.or_false, Bool.or_eq_true, decide_eq_true_eq] at h
  omega

/-- The two ways in which the loop emits a point, with the index and the
position of the point. -/
theorem stepPoint_eq_some (rules : TypesettingRules) (text : List Nat) (i : Nat)
    (b : BreakPoint) :
    stepPoint rules text i = some b ↔
      (text.getD i 0 = 0x0A ∧ b = { position := i + 1, penalty := 0, mandatory := true })
      ∨ ((text.getD i 0 = 0x20 ∨ text.getD i 0 = 0x09)
          ∧ b = { position := i + 1, penalty := 50, mandatory := false })
      ∨ (0 < i ∧ UnicodeHandler.isJapaneseCharacter (text.getD (i - 1) 0) = true
          ∧ UnicodeHandler.isJapaneseCharacter (text.getD i 0) = true
          ∧ rules.isLineStartProhibited (text.getD i 0) = false
          ∧ rules.isLineEndProhibited (text.getD (i - 1) 0) = false
          ∧ rules.isInseparable (text.getD i 0) = false
          ∧ rules.isInseparable (text.getD (i - 1) 0) = false
          ∧ b = { position := i, penalty := 100, mandatory := false }) := by
  unfold stepPoint
  by_cases h1 : text.getD i 0 = 0x0A
  · rw [if_pos h1]
    constructor
    · intro h
      exact Or.inl ⟨h1, (Option.some.inj h).symm⟩
    · rintro (⟨_, hb⟩ | ⟨hw, _⟩ | ⟨_, _, hj, _⟩)
      · rw [hb]
      · rw [h1] at hw; omega
      · exact absurd h1 (japanese_not_break _ hj).1
  · rw [if_neg h1]
    by_cases h2 : text.getD i 0 = 0x20 ∨ text.getD i 0 = 0x09
    · rw [if_pos h2]
      constructor
      · intro h
        exact Or.inr (Or.inl ⟨h2, (Option.some.inj h).symm⟩)
      · rintro (⟨h, _⟩ | ⟨_, hb⟩ | ⟨_, _, hj, _⟩)
        · exact absurd h h1
        · rw [hb]
        · have := japanese_not_break _ hj
          rcases h2 with h | h
          · exact absurd h this.2.1
          · exact absurd h this.2.2
    · rw [if_neg h2]
      by_cases h3 : 0 < i ∧ UnicodeHandler.isJapaneseCharacter (text.getD (i - 1) 0) = true
          ∧ UnicodeHandler.isJapaneseCharacter (text.getD i 0) = true
      · rw [if_pos h3]
        have tail : ∀ P : Prop, (P → False) →
            ((none : Option BreakPoint) = some b ↔
              (text.getD i 0 = 0x0A
                  ∧ b = { position := i + 1, penalty := 0, mandatory := true })
              ∨ ((text.getD i 0 = 0x20 ∨ text.getD i 0 = 0x09)
                  ∧ b = { position := i + 1, penalty := 50, mandatory := false })
              ∨ P) := by
          intro P hP
          constructor
          · intro h; exact absurd h (by simp)
          · rintro (⟨h, _⟩ | ⟨h, _⟩ | h)
            · exact absurd h h1
            · exact absurd h h2
            · exact (hP h).elim
        by_cases hs : rules.isLineStartProhibited (text.getD i 0) = true
        · rw [if_pos hs]
          apply tail
          rintro ⟨_, _, _, hs', _⟩
          rw [hs] at hs'; exact absurd hs' (by simp)
        · rw [if_neg hs]
          by_cases he : rules.isLineEndProhibited (text.getD (i - 1) 0) = true
          · rw [if_pos he]
            apply tail
            rintro ⟨_, _, _, _, he', _⟩
            rw [he] at he'; exact absurd he' (by simp)
          · rw [if_neg he]
            by_cases hi : rules.isInseparable (text.getD i 0) = true
                ∨ rules.isInseparable (text.getD (i - 1) 0) = true
            · rw [if_pos hi]
              apply tail
              rintro ⟨_, _, _, _, _, hi1, hi2, _⟩
              rcases hi with h | h
              · rw [h] at hi1; exact absurd hi1 (by simp)
              · rw [h] at hi2; exact absurd hi2 (by simp)
            · rw [if_neg hi]
              push_neg at hi
              constructor
              · intro h
                exact Or.inr (Or.inr ⟨h3.1, h3.2.1, h3.2.2, Bool.eq_false_iff.mpr hs,
                  Bool.eq_false_iff.mpr he, Bool.eq_false_iff.mpr hi.1,
                  Bool.eq_false_iff.mpr hi.2, (Option.some.inj h).symm⟩)
              · rintro (⟨h, _⟩ | ⟨h, _⟩ | ⟨_, _, _, _, _, _, _, hb⟩)
                · exact absurd h h1
                · exact absurd h h2
                · rw [hb]
      · rw [if_neg h3]
        constructor
        · intro h; exact absurd h (by simp)
        · rintro (⟨h, _⟩ | ⟨h, _⟩ | ⟨a, b', c, _⟩)
          · exact absurd h h1
          · exact absurd h h2
          · exact absurd ⟨a, b', c⟩ h3

end LineBreaker

namespace LineBreaker

theorem stepPoint_position (rules : TypesettingRules) (text : List Nat) (i : Nat)
    (b : BreakPoint) (h : stepPoint rules text i = some b) :
    (b.position = i + 1 ∧ (text.getD i 0 = 0x0A ∨ text.getD i 0 = 0x20 ∨ text.getD i 0 = 0x09))
    ∨ (b.position = i ∧ 0 < i
        ∧ UnicodeHandler.isJapaneseCharacter (text.getD (i - 1) 0) = true) := by
  rcases (stepPoint_eq_some rules text i b).mp h with
    ⟨h1, hb⟩ | ⟨h1, hb⟩ | ⟨h0, hj, _, _, _, _, _, hb⟩
  · exact Or.inl ⟨by rw [hb], Or.inl h1⟩
  · exact Or.inl ⟨by rw [hb], Or.inr h1⟩
  · exact Or.inr ⟨by rw [hb], h0, hj⟩

/-- The positions of the points emitted by the loop, after the start point,
are strictly increasing. -/
theorem loop_positions_strict (rules : TypesettingRules) (text : List Nat) (k : Nat) :
    List.Pairwise (fun a b => a < b)
      (0 :: ((List.range k).filterMap (stepPoint rules text)).map BreakPoint.position) := by
  refine List.pairwise_cons.mpr ⟨?_, ?_⟩
  · intro x hx
    obtain ⟨b, hb, rfl⟩ := List.mem_map.mp hx
    obtain ⟨i, _, hi⟩ := List.mem_filterMap.mp hb
    rcases stepPoint_position rules text i b hi with ⟨h, _⟩ | ⟨h, h0, _⟩ <;> omega
  · rw [List.pairwise_map, List.pairwise_filterMap]
    refine List.Pairwise.imp ?_ (List.pairwise_lt_range k)
    intro i i' hlt b hb b' hb'
    rcases stepPoint_position rules text i b hb with ⟨h, hw⟩ | ⟨h, _, _⟩
    · rcases stepPoint_position rules text i' b' hb' with ⟨h', _⟩ | ⟨h', _, hj⟩
      · omega
      · rcases Nat.lt_or_ge (i + 1) i' with hlt' | hge
        · omega
        · have e : i' - 1 = i := by omega
          rw [e] at hj
          have := japanese_not_break _ hj
          rcases hw with hw | hw | hw
          · exact absurd hw this.1
          · exact absurd hw this.2.1
          · exact absurd hw this.2.2
    · rcases stepPoint_position rules text i' b' hb' with ⟨h', _⟩ | ⟨h', _, _⟩ <;> omega

theorem findBreakPoints_positions (rules : TypesettingRules) (text : List Nat) :
    (findBreakPoints rules text).map BreakPoint.position
      = (0 :: ((List.range text.length).filterMap (stepPoint rules text)).map
            BreakPoint.position) ++ [text.length] := by
  rw [findBreakPoints_eq]
  simp

theorem getLast?_eq_getD (text : List Nat) (c : Nat) (h : text.getLast? = some c) :
    text.getD (text.length - 1) 0 = c ∧ 0 < text.length := by
  rw [List.getLast?_eq_getElem?] at h
  refine ⟨by rw [List.getD_eq_getElem?_getD, h]; rfl, ?_⟩
  cases text with
  | nil => simp at h
  | cons a t => simp

/-- C19 (amended). The positions of the break points returned by
`findBreakPoints` are non-decreasing, and strictly increasing up to the final
end-of-text point; the whole sequence is strictly increasing exactly when the
text is not empty and does not end with a newline, a space or a tab (otherwise
the end-of-text point repeats the position of the point before it). -/
theorem findBreakPoints_positions_increasing (rules : TypesettingRules) (text : List Nat) :
    List.Pairwise (fun a b => a ≤ b) ((findBreakPoints rules text).map BreakPoint.position)
    ∧ List.Pairwise (fun a b => a < b)
        ((findBreakPoints rules text).map BreakPoint.position).dropLast
    ∧ (List.Pairwise (fun a b => a < b) ((findBreakPoints rules text).map BreakPoint.position)
        ↔ ∃ c, text.getLast? = some c ∧ c ≠ 0x0A ∧ c ≠ 0x20 ∧ c ≠ 0x09) := by
  have hstrict := loop_positions_strict rules text text.length
  have hbound : ∀ x ∈ (0 :: ((List.range text.length).filterMap (stepPoint rules text)).map
      BreakPoint.position), x ≤ text.length := by
    intro x hx
    rcases List.mem_cons.mp hx with hx | hx
    · omega
    · obtain ⟨b, hb, rfl⟩ := List.mem_map.mp hx
      obtain ⟨i, hi, hs⟩ := List.mem_filterMap.mp hb
      have := List.mem_range.mp hi
      rcases stepPoint_position rules text i b hs with ⟨h, _⟩ | ⟨h, _, _⟩ <;> omega
  rw [findBreakPoints_positions]
  refine ⟨?_, ?_, ?_⟩
  · refine List.pairwise_append.mpr ⟨hstrict.imp (fun h => Nat.le_of_lt h),
      List.pairwise_singleton _ _, ?_⟩
    intro a ha b hb
    simp only [List.mem_singleton] at hb
    subst hb
    exact hbound a ha
  · rw [List.dropLast_concat]
    exact hstrict
  · rw [List.pairwise_append]
    constructor
    · rintro ⟨_, _, hall⟩
      have h0 : 0 < text.length := hall 0 (List.mem_cons_self _ _) _ (List.mem_singleton_self _)
      obtain ⟨c, hc⟩ : ∃ c, text.getLast? = some c := by
        cases h : text.getLast? with
        | none =>
          rw [List.getLast?_eq_none_iff] at h
          rw [h] at h0; simp at h0
        | some c => exact ⟨c, rfl⟩
      obtain ⟨hd, _⟩ := getLast?_eq_getD text c hc
      have hno : ¬ (c = 0x0A ∨ c = 0x20 ∨ c = 0x09) := by
        intro hw
        have hsome : ∃ b, stepPoint rules text (text.length - 1) = some b
            ∧ b.position = text.length := by
          rcases hw with hw | hw
          · refine ⟨{ position := text.length - 1 + 1, penalty := 0, mandatory := true },
              (stepPoint_eq_some rules text _ _).mpr (Or.inl ⟨by rw [hd, hw], rfl⟩), ?_⟩
            show text.length - 1 + 1 = text.length
            omega
          · refine ⟨{ position := text.length - 1 + 1, penalty := 50, mandatory := false },
              (stepPoint_eq_some rules text _ _).mpr
                (Or.inr (Or.inl ⟨by rw [hd]; exact hw, rfl⟩)), ?_⟩
            show text.length - 1 + 1 = text.length
            omega
        obtain ⟨b, hb, hp⟩ := hsome
        have hmem : text.length ∈ (0 :: ((List.range text.length).filterMap
            (stepPoint rules text)).map BreakPoint.position) := by
          refine List.mem_cons_of_mem _ (List.mem_map.mpr ⟨b, ?_, hp⟩)
          exact List.mem_filterMap.mpr ⟨text.length - 1, List.mem_range.mpr (by omega), hb⟩
        exact absurd (hall _ hmem _ (List.mem_singleton_self _)) (Nat.lt_irrefl _)
      exact ⟨c, hc, fun h => hno (Or.inl h), fun h => hno (Or.inr (Or.inl h)),
        fun h => hno (Or.inr (Or.inr h))⟩
    · rintro ⟨c, hc, h1, h2, h3⟩
      obtain ⟨hd, h0⟩ := getLast?_eq_getD text c hc
      refine ⟨hstrict, List.pairwise_singleton _ _, ?_⟩
      intro a ha b hb
      simp only [List.mem_singleton] at hb
      subst hb
      rcases List.mem_cons.mp ha with ha | ha
      · omega
      · obtain ⟨b, hb, rfl⟩ := List.mem_map.mp ha
        obtain ⟨i, hi, hs⟩ := List.mem_filterMap.mp hb
        have hi' := List.mem_range.mp hi
        rcases stepPoint_position rules text i b hs with ⟨h, hw⟩ | ⟨h, _, _⟩
        · rcases Nat.lt_or_ge (i + 1) text.length with hlt | hge
          · omega
          · have e : i = text.length - 1 := by omega
            rw [e, hd] at hw
            rcases hw with hw | hw | hw
            · exact absurd hw h1
            · exact absurd hw h2
            · exact absurd hw h3
        · omega

/-- C19, counterexample to the claim as stated: for the text "\n" the
positions are 0, 1, 1, and for the empty text 0, 0. -/
theorem findBreakPoints_positions_counterexample :
    (findBreakPoints TypesettingRules.new [0x0A]).map BreakPoint.position = [0, 1, 1]
    ∧ (findBreakPoints TypesettingRules.new []).map BreakPoint.position = [0, 0]
    ∧ ¬ List.Pairwise (fun a b => a < b)
        ((findBreakPoints TypesettingRules.new [0x0A]).map BreakPoint.position) := by
  have h : (findBreakPoints TypesettingRules.new [0x0A]).map BreakPoint.position = [0, 1, 1] := by
    decide!
  refine ⟨h, by decide!, ?_⟩
  rw [h]
  decide

end LineBreaker

namespace LineBreaker

theorem mem_findBreakPoints (rules : TypesettingRules) (text : List Nat) (b : BreakPoint) :
    b ∈ findBreakPoints rules text ↔
      b = { position := 0, penalty := 1000, mandatory := false }
      ∨ (∃ i, i < text.length ∧ stepPoint rules text i = some b)
      ∨ b = { position := text.length, penalty := 0, mandatory := true } := by
  rw [findBreakPoints_eq]
  simp only [List.cons_append, List.mem_cons, List.mem_append, List.mem_filterMap,
    List.mem_range, List.mem_singleton, List.not_mem_nil, or_false]

/-- C20. Characterisation of `findBreakPoints`: the first point is the start
point (position 0, penalty 1000, not mandatory), the last is the end point
(position `length`, penalty 0, mandatory); for `0 < p < length` there is a point
at `p` exactly when `text[p-1]` is a newline, space or tab, or `text[p-1]` and
`text[p]` are both Japanese, `text[p]` is not line-start-prohibited, `text[p-1]`
is not line-end-prohibited and neither is inseparable. There is at most one
point at `p`; it is mandatory with penalty 0 exactly when `text[p-1]` is a
newline, has penalty 50 after a space or tab, and penalty 100 otherwise. -/
theorem findBreakPoints_characterisation (rules : TypesettingRules) (text : List Nat) :
    (findBreakPoints rules text).head?
        = some { position := 0, penalty := 1000, mandatory := false }
    ∧ (findBreakPoints rules text).getLast?
        = some { position := text.length, penalty := 0, mandatory := true }
    ∧ ∀ p, 0 < p → p < text.length →
        ((∃ b ∈ findBreakPoints rules text, b.position = p) ↔
          (text.getD (p - 1) 0 = 0x0A ∨ text.getD (p - 1) 0 = 0x20 ∨ text.getD (p - 1) 0 = 0x09)
          ∨ (UnicodeHandler.isJapaneseCharacter (text.getD (p - 1) 0) = true
              ∧ UnicodeHandler.isJapaneseCharacter (text.getD p 0) = true
              ∧ rules.isLineStartProhibited (text.getD p 0) = false
              ∧ rules.isLineEndProhibited (text.getD (p - 1) 0) = false
              ∧ rules.isInseparable (text.getD p 0) = false
              ∧ rules.isInseparable (text.getD (p - 1) 0) = false))
        ∧ (∀ b ∈ findBreakPoints rules text, b.position = p →
            b = { position := p,
                  penalty := if text.getD (p - 1) 0 = 0x0A then 0
                    else if text.getD (p - 1) 0 = 0x20 ∨ text.getD (p - 1) 0 = 0x09 then 50
                    else 100,
                  mandatory := decide (text.getD (p - 1) 0 = 0x0A) })
        ∧ ((findBreakPoints rules text).map BreakPoint.position).count p ≤ 1 := by
  refine ⟨?_, ?_, ?_⟩
  · rw [findBreakPoints_eq]; rfl
  · rw [findBreakPoints_eq, List.getLast?_concat]
  · intro p hp0 hpn
    have key : ∀ b, b ∈ findBreakPoints rules text → b.position = p →
        (text.getD (p - 1) 0 = 0x0A ∧ b = { position := p, penalty := 0, mandatory := true })
        ∨ ((text.getD (p - 1) 0 = 0x20 ∨ text.getD (p - 1) 0 = 0x09)
            ∧ b = { position := p, penalty := 50, mandatory := false })
        ∨ (UnicodeHandler.isJapaneseCharacter (text.getD (p - 1) 0) = true
              ∧ UnicodeHandler.isJapaneseCharacter (text.getD p 0) = true
              ∧ rules.isLineStartProhibited (text.getD p 0) = false
              ∧ rules.isLineEndProhibited (text.getD (p - 1) 0) = false
              ∧ rules.isInseparable (text.getD p 0) = false
              ∧ rules.isInseparable (text.getD (p - 1) 0) = false
              ∧ b = { position := p, penalty := 100, mandatory := false }) := by
      intro b hb hpos
      rcases (mem_findBreakPoints rules text b).mp hb with h | ⟨i, _, hi⟩ | h
      · rw [h] at hpos
        exact absurd hpos.symm (Nat.pos_iff_ne_zero.mp hp0)
      · rcases (stepPoint_eq_some rules text i b).mp hi with
          ⟨h1, hbe⟩ | ⟨h1, hbe⟩ | ⟨_, hj1, hj2, hs, he, hi1, hi2, hbe⟩
        · have e : i = p - 1 := by rw [hbe] at hpos; simp only at hpos; omega
          have e2 : i + 1 = p := by omega
          rw [e] at h1
          rw [e2] at hbe
          exact Or.inl ⟨h1, hbe⟩
        · have e : i = p - 1 := by rw [hbe] at hpos; simp only at hpos; omega
          have e2 : i + 1 = p := by omega
          rw [e] at h1
          rw [e2] at hbe
          exact Or.inr (Or.inl ⟨h1, hbe⟩)
        · have e : i = p := by rw [hbe] at hpos; exact hpos
          subst e
          exact Or.inr (Or.inr ⟨hj1, hj2, hs, he, hi1, hi2, hbe⟩)
      · rw [h] at hpos
        simp only at hpos
        omega
    refine ⟨⟨?_, ?_⟩, ?_, ?_⟩
    · rintro ⟨b, hb, hpos⟩
      rcases key b hb hpos with ⟨h, _⟩ | ⟨h, _⟩ | ⟨h1, h2, h3, h4, h5, h6, _⟩
      · exact Or.inl (Or.inl h)
      · exact Or.inl (Or.inr h)
      · exact Or.inr ⟨h1, h2, h3, h4, h5, h6⟩
    · have hp1 : p - 1 + 1 = p := by omega
      rintro (h | ⟨h1, h2, h3, h4, h5, h6⟩)
      · rcases h with h | h
        · refine ⟨{ position := p - 1 + 1, penalty := 0, mandatory := true }, ?_, hp1⟩
          exact (mem_findBreakPoints rules text _).mpr (Or.inr (Or.inl ⟨p - 1, by omega,
            (stepPoint_eq_some rules text _ _).mpr (Or.inl ⟨h, rfl⟩)⟩))
        · refine ⟨{ position := p - 1 + 1, penalty := 50, mandatory := false }, ?_, hp1⟩
          exact (mem_findBreakPoints rules text _).mpr (Or.inr (Or.inl ⟨p - 1, by omega,
            (stepPoint_eq_some rules text _ _).mpr (Or.inr (Or.inl ⟨h, rfl⟩))⟩))
      · refine ⟨{ position := p, penalty := 100, mandatory := false }, ?_, rfl⟩
        exact (mem_findBreakPoints rules text _).mpr (Or.inr (Or.inl ⟨p, hpn,
          (stepPoint_eq_some rules text _ _).mpr
            (Or.inr (Or.inr ⟨hp0, h1, h2, h3, h4, h5, h6, rfl⟩))⟩))
    · intro b hb hpos
      rcases key b hb hpos with ⟨h, hbe⟩ | ⟨h, hbe⟩ | ⟨h1, _, _, _, _, _, hbe⟩
      · rw [hbe, if_pos h, decide_eq_true h]
      · have hn : text.getD (p - 1) 0 ≠ 0x0A := by
          rcases h with h | h <;> rw [h] <;> decide
        rw [hbe, if_neg hn, if_pos h, decide_eq_false hn]
      · have hnb := japanese_not_break _ h1
        have hn2 : ¬ (text.getD (p - 1) 0 = 0x20 ∨ text.getD (p - 1) 0 = 0x09) :=
          fun h => h.elim hnb.2.1 hnb.2.2
        rw [hbe, if_neg hnb.1, if_neg hn2, decide_eq_false hnb.1]
    · rw [findBreakPoints_positions, List.count_append]
      have h1 := (loop_positions_strict rules text text.length).imp (fun h => Nat.ne_of_lt h)
      have h2 := List.nodup_iff_count_le_one.mp h1 p
      have h3 : List.count p [text.length] = 0 :=
        List.count_eq_zero.mpr (by
          intro h
          have := List.mem_singleton.mp h
          omega)
      omega

end LineBreaker

namespace TypesettingRules

theorem rules_ext (a b : TypesettingRules)
    (h1 : a.lineStartProhibitedChars = b.lineStartProhibitedChars)
    (h2 : a.lineEndProhibitedChars = b.lineEndProhibitedChars)
    (h3 : a.inseparableChars = b.inseparableChars)
    (h4 : a.hangingChars = b.hangingChars) : a = b := by
  cases a; cases b
  simp only [mk.injEq] at *
  exact ⟨h1, h2, h3, h4⟩

theorem foldl_addLineStart (l : List Nat) (r : TypesettingRules) :
    l.foldl addLineStartProhibitedCharacter r
      = { r with lineStartProhibitedChars := r.lineStartProhibitedChars ∪ l.toFinset } := by
  induction l generalizing r with
  | nil => simp
  | cons a l ih =>
    rw [List.foldl_cons, ih]
    apply rules_ext <;> simp [addLineStartProhibitedCharacter]

theorem foldl_addLineEnd (l : List Nat) (r : TypesettingRules) :
    l.foldl addLineEndProhibitedCharacter r
      = { r with lineEndProhibitedChars := r.lineEndProhibitedChars ∪ l.toFinset } := by
  induction l generalizing r with
  | nil => simp
  | cons a l ih =>
    rw [List.foldl_cons, ih]
    apply rules_ext <;> simp [addLineEndProhibitedCharacter]

theorem foldl_addInseparable (l : List Nat) (r : TypesettingRules) :
    l.foldl addInseparableCharacter r
      = { r with inseparableChars := r.inseparableChars ∪ l.toFinset } := by
  induction l generalizing r with
  | nil => simp
  | cons a l ih =>
    rw [List.foldl_cons, ih]
    apply rules_ext <;> simp [addInseparableCharacter]

theorem foldl_addHanging (l : List Nat) (r : TypesettingRules) :
    l.foldl addHangingCharacter r
      = { r with hangingChars := r.hangingChars ∪ l.toFinset } := by
  induction l generalizing r with
  | nil => simp
  | cons a l ih =>
    rw [List.foldl_cons, ih]
    apply rules_ext <;> simp [addHangingCharacter]

theorem setDefaultJisX4051Rules_eq (r : TypesettingRules) :
    setDefaultJisX4051Rules r
      = ⟨r.lineStartProhibitedChars ∪ defaultLineStartProhibited.toFinset,
         r.lineEndProhibitedChars ∪ defaultLineEndProhibited.toFinset,
         r.inseparableChars ∪ defaultInseparable.toFinset,
         r.hangingChars ∪ defaultHanging.toFinset⟩ := by
  unfold setDefaultJisX4051Rules
  simp only [foldl_addLineStart, foldl_addLineEnd, foldl_addInseparable, foldl_addHanging]

theorem new_eq :
    new = ⟨defaultLineStartProhibited.toFinset, defaultLineEndProhibited.toFinset,
           defaultInseparable.toFinset, defaultHanging.toFinset⟩ := by
  unfold new
  rw [setDefaultJisX4051Rules_eq]
  simp [empty]

theorem setDefaultJisX4051Rules_union (r : TypesettingRules) :
    setDefaultJisX4051Rules r
      = ⟨r.lineStartProhibitedChars ∪ new.lineStartProhibitedChars,
         r.lineEndProhibitedChars ∪ new.lineEndProhibitedChars,
         r.inseparableChars ∪ new.inseparableChars,
         r.hangingChars ∪ new.hangingChars⟩ := by
  rw [setDefaultJisX4051Rules_eq, new_eq]

theorem setDefaultJisX4051Rules_of_includes (r : TypesettingRules) (h : includes r new) :
    setDefaultJisX4051Rules r = r := by
  rw [setDefaultJisX4051Rules_union]
  obtain ⟨h1, h2, h3, h4⟩ := h
  apply rules_ext
  · exact Finset.union_eq_left.mpr h1
  · exact Finset.union_eq_left.mpr h2
  · exact Finset.union_eq_left.mpr h3
  · exact Finset.union_eq_left.mpr h4

theorem bounded_new : bounded new := by
  rw [new_eq]
  unfold bounded
  decide!

theorem includes_refl (r : TypesettingRules) : includes r r :=
  ⟨Finset.Subset.refl _, Finset.Subset.refl _, Finset.Subset.refl _, Finset.Subset.refl _⟩

theorem includes_trans (a b c : TypesettingRules) (h1 : includes a b) (h2 : includes b c) :
    includes a c :=
  ⟨h2.1.trans h1.1, h2.2.1.trans h1.2.1, h2.2.2.1.trans h1.2.2.1, h2.2.2.2.trans h1.2.2.2⟩

/-- A property of rule objects that the four `add` operations keep. -/
theorem addToSection_keeps (P : TypesettingRules → Prop)
    (h1 : ∀ r c, P r → c < 2 ^ 32 → P (r.addLineStartProhibitedCharacter c))
    (h2 : ∀ r c, P r → c < 2 ^ 32 → P (r.addLineEndProhibitedCharacter c))
    (h3 : ∀ r c, P r → c < 2 ^ 32 → P (r.addInseparableCharacter c))
    (h4 : ∀ r c, P r → c < 2 ^ 32 → P (r.addHangingCharacter c))
    (currentSection : List Char) (r : TypesettingRules) (c : Nat) (hr : P r) (hc : c < 2 ^ 32) :
    P (addToSection currentSection r c) := by
  unfold addToSection
  split_ifs
  · exact h1 r c hr hc
  · exact h2 r c hr hc
  · exact h3 r c hr hc
  · exact h4 r c hr hc
  · exact hr

theorem loadToken_keeps (P : TypesettingRules → Prop)
    (hadd : ∀ s r c, P r → c < 2 ^ 32 → P (addToSection s r c))
    (currentSection : List Char) (r : TypesettingRules) (token : List Char) (hr : P r) :
    (∀ r', loadToken currentSection r token = Except.ok r' → P r')
    ∧ (∀ r', loadToken currentSection r token = Except.error r' → P r') := by
  unfold loadToken
  split_ifs with h
  · cases hs : stoul16 (token.drop 2) with
    | none =>
      refine ⟨fun r' e => by simp at e, fun r' e => ?_⟩
      simp only [Except.error.injEq] at e
      exact e ▸ hr
    | some v =>
      refine ⟨fun r' e => ?_, fun r' e => by simp at e⟩
      simp only [Except.ok.injEq] at e
      exact e ▸ hadd _ _ _ hr (Nat.mod_lt _ (by norm_num))
  · refine ⟨fun r' e => ?_, fun r' e => by simp at e⟩
    simp only [Except.ok.injEq] at e
    exact e ▸ hr

theorem loadTokens_keeps (P : TypesettingRules → Prop)
    (hadd : ∀ s r c, P r → c < 2 ^ 32 → P (addToSection s r c))
    (currentSection : List Char) (tokens : List (List Char)) (r : TypesettingRules) (hr : P r) :
    (∀ r', loadTokens currentSection r tokens = Except.ok r' → P r')
    ∧ (∀ r', loadTokens currentSection r tokens = Except.error r' → P r') := by
  induction tokens generalizing r with
  | nil =>
    refine ⟨fun r' e => ?_, fun r' e => by simp [loadTokens] at e⟩
    simp only [loadTokens, Except.ok.injEq] at e
    exact e ▸ hr
  | cons t ts ih =>
    have ht := loadToken_keeps P hadd currentSection r t hr
    rw [loadTokens]
    cases hs : loadToken currentSection r t with
    | ok r1 => exact ih r1 (ht.1 r1 hs)
    | error r1 =>
      refine ⟨fun r' e => by simp at e, fun r' e => ?_⟩
      simp only [Except.error.injEq] at e
      exact e ▸ ht.2 r1 hs

theorem loadLines_keeps (P : TypesettingRules → Prop)
    (hadd : ∀ s r c, P r → c < 2 ^ 32 → P (addToSection s r c))
    (lines : List (List Char)) (currentSection : List Char) (r : TypesettingRules) (hr : P r) :
    (∀ r', loadLines currentSection r lines = Except.ok r' → P r')
    ∧ (∀ r', loadLines currentSection r lines = Except.error r' → P r') := by
  induction lines generalizing r currentSection with
  | nil =>
    refine ⟨fun r' e => ?_, fun r' e => by simp [loadLines] at e⟩
    simp only [loadLines, Except.ok.injEq] at e
    exact e ▸ hr
  | cons l ls ih =>
    rw [loadLines]
    split_ifs with h1 h2 h3
    · exact ih _ r hr
    · exact ih _ r hr
    · have ht := loadTokens_keeps P hadd currentSection (getlines ',' l) r hr
      cases hs : loadTokens currentSection r (getlines ',' l) with
      | ok r1 => exact ih _ r1 (ht.1 r1 hs)
      | error r1 =>
        refine ⟨fun r' e => by simp at e, fun r' e => ?_⟩
        simp only [Except.error.injEq] at e
        exact e ▸ ht.2 r1 hs
    · exact ih _ r hr

theorem loadFromFile_some (r : TypesettingRules) (content : List Char) :
    loadFromFile r (some content)
      = match loadLines [] r (getlines '\n' content) with
        | Except.ok r' => LoadResult.returned r' true
        | Except.error r' => LoadResult.threw r' := rfl

theorem loadFromFile_keeps (P : TypesettingRules → Prop)
    (hadd : ∀ s r c, P r → c < 2 ^ 32 → P (addToSection s r c))
    (file : Option (List Char)) (r : TypesettingRules) (hr : P r) :
    (∀ r' v, loadFromFile r file = LoadResult.returned r' v → P r')
    ∧ (∀ r', loadFromFile r file = LoadResult.threw r' → P r') := by
  cases file with
  | none =>
    refine ⟨fun r' v e => ?_, fun r' e => by simp [loadFromFile] at e⟩
    simp only [loadFromFile, LoadResult.returned.injEq] at e
    exact e.1 ▸ hr
  | some content =>
    have hl := loadLines_keeps P hadd (getlines '\n' content) [] r hr
    rw [loadFromFile_some]
    cases hs : loadLines [] r (getlines '\n' content) with
    | ok r1 =>
      refine ⟨fun r' v e => ?_, fun r' e => by simp at e⟩
      simp only [LoadResult.returned.injEq] at e
      exact e.1 ▸ hl.1 r1 hs
    | error r1 =>
      refine ⟨fun r' v e => by simp at e, fun r' e => ?_⟩
      simp only [LoadResult.threw.injEq] at e
      exact e ▸ hl.2 r1 hs

/-- Every reachable object contains the default sets and holds `char32_t`
values only. -/
theorem reachable_invariant (r : TypesettingRules) (h : Reachable r) :
    includes r new ∧ bounded r := by
  have a1 : ∀ r c, (includes r new ∧ bounded r) → c < 2 ^ 32 →
      (includes (r.addLineStartProhibitedCharacter c) new
        ∧ bounded (r.addLineStartProhibitedCharacter c)) := by
    rintro r c ⟨⟨i1, i2, i3, i4⟩, ⟨b1, b2, b3, b4⟩⟩ hc
    refine ⟨⟨i1.trans (Finset.subset_insert _ _), i2, i3, i4⟩, ⟨?_, b2, b3, b4⟩⟩
    intro x hx
    rcases Finset.mem_insert.mp hx with rfl | hx
    · exact hc
    · exact b1 x hx
  have a2 : ∀ r c, (includes r new ∧ bounded r) → c < 2 ^ 32 →
      (includes (r.addLineEndProhibitedCharacter c) new
        ∧ bounded (r.addLineEndProhibitedCharacter c)) := by
    rintro r c ⟨⟨i1, i2, i3, i4⟩, ⟨b1, b2, b3, b4⟩⟩ hc
    refine ⟨⟨i1, i2.trans (Finset.subset_insert _ _), i3, i4⟩, ⟨b1, ?_, b3, b4⟩⟩
    intro x hx
    rcases Finset.mem_insert.mp hx with rfl | hx
    · exact hc
    · exact b2 x hx
  have a3 : ∀ r c, (includes r new ∧ bounded r) → c < 2 ^ 32 →
      (includes (r.addInseparableCharacter c) new
        ∧ bounded (r.addInseparableCharacter c)) := by
    rintro r c ⟨⟨i1, i2, i3, i4⟩, ⟨b1, b2, b3, b4⟩⟩ hc
    refine ⟨⟨i1, i2, i3.trans (Finset.subset_insert _ _), i4⟩, ⟨b1, b2, ?_, b4⟩⟩
    intro x hx
    rcases Finset.mem_insert.mp hx with rfl | hx
    · exact hc
    · exact b3 x hx
  have a4 : ∀ r c, (includes r new ∧ bounded r) → c < 2 ^ 32 →
      (includes (r.addHangingCharacter c) new
        ∧ bounded (r.addHangingCharacter c)) := by
    rintro r c ⟨⟨i1, i2, i3, i4⟩, ⟨b1, b2, b3, b4⟩⟩ hc
    refine ⟨⟨i1, i2, i3, i4.trans (Finset.subset_insert _ _)⟩, ⟨b1, b2, b3, ?_⟩⟩
    intro x hx
    rcases Finset.mem_insert.mp hx with rfl | hx
    · exact hc
    · exact b4 x hx
  have hadd := addToSection_keeps (fun r => includes r new ∧ bounded r) a1 a2 a3 a4
  induction h with
  | construct => exact ⟨includes_refl _, bounded_new⟩
  | addLineStartProhibited r c _ hc ih => exact a1 r c ih hc
  | addLineEndProhibited r c _ hc ih => exact a2 r c ih hc
  | addInseparable r c _ hc ih => exact a3 r c ih hc
  | addHanging r c _ hc ih => exact a4 r c ih hc
  | setDefault r _ ih =>
    rw [setDefaultJisX4051Rules_of_includes r ih.1]
    exact ih
  | loadReturned r r' file v _ e ih =>
    exact (loadFromFile_keeps _ hadd file r ih).1 r' v e
  | loadThrew r r' file _ e ih =>
    exact (loadFromFile_keeps _ hadd file r ih).2 r' e

end TypesettingRules

namespace TypesettingRules

/-- C16. A `U+` token without a hexadecimal digit after it is not skipped:
`std::stoul` throws and nothing in `loadFromFile` catches the exception. For
the files "[Hanging]\nU+ZZZZ\n" and "[Hanging]\nU+\n" the call does not return;
the well-formed token `U+41` of a later line is not added, although the same
line alone is loaded and the call then returns `true`. -/
theorem loadFromFile_malformed_token_throws :
    loadFromFile new (some "[Hanging]\nU+ZZZZ\n".toList) = LoadResult.threw new
    ∧ loadFromFile new (some "[Hanging]\nU+\n".toList) = LoadResult.threw new
    ∧ loadFromFile new (some "[Hanging]\nU+ZZZZ\n[Inseparable]\nU+41\n".toList)
        = LoadResult.threw new
    ∧ loadFromFile new (some "[Inseparable]\nU+41\n".toList)
        = LoadResult.returned (new.addInseparableCharacter 0x41) true
    ∧ new.addInseparableCharacter 0x41 ≠ new := by
  refine ⟨by decide!, by decide!, by decide!, by decide!, by decide!⟩

/-- C17, counterexample to the claim as stated: after `addHangingCharacter`
of U+0041 on a fresh object, `setDefaultJisX4051Rules` does not give the sets
of a fresh object; U+0041 is still a hanging character. -/
theorem setDefaultJisX4051Rules_counterexample :
    Reachable (new.addHangingCharacter 0x41)
    ∧ setDefaultJisX4051Rules (new.addHangingCharacter 0x41) ≠ new
    ∧ (setDefaultJisX4051Rules (new.addHangingCharacter 0x41)).isHangingCharacter 0x41 = true
    ∧ new.isHangingCharacter 0x41 = false := by
  refine ⟨Reachable.addHanging new 0x41 Reachable.construct (by norm_num), by decide!,
    by decide!, by decide!⟩

/-- C17 (amended). `setDefaultJisX4051Rules` only adds the default characters:
for every object reached by the constructor, `add` operations, file loads and
earlier calls of `setDefaultJisX4051Rules`, the call leaves all four sets
unchanged; they contain every member of the sets of a freshly constructed
object, and the characters added earlier are still members. -/
theorem setDefaultJisX4051Rules_reachable (r : TypesettingRules) (h : Reachable r) :
    setDefaultJisX4051Rules r = r ∧ includes (setDefaultJisX4051Rules r) new := by
  have hi := (reachable_invariant r h).1
  rw [setDefaultJisX4051Rules_of_includes r hi]
  exact ⟨rfl, hi⟩

/-- C17, worked example: the object of the counterexample is left unchanged. -/
theorem setDefaultJisX4051Rules_reachable_witness :
    setDefaultJisX4051Rules (new.addHangingCharacter 0x41) = new.addHangingCharacter 0x41
    ∧ includes (setDefaultJisX4051Rules (new.addHangingCharacter 0x41)) new :=
  setDefaultJisX4051Rules_reachable (new.addHangingCharacter 0x41)
    (Reachable.addHanging new 0x41 Reachable.construct (by norm_num))

end TypesettingRules

namespace TypesettingRules

/-- What the parser needs to know about the digits that `hexUpper` prints. -/
theorem hexDigitChar_facts (d : Nat) (h : d < 16) :
    hexDigitValue (hexDigitChar d) = some d
    ∧ isSpace (hexDigitChar d) = false
    ∧ (hexDigitChar d).toNat ≠ 0
    ∧ hexDigitChar d ≠ '-' ∧ hexDigitChar d ≠ '+'
    ∧ hexDigitChar d ≠ 'x' ∧ hexDigitChar d ≠ 'X'
    ∧ hexDigitChar d ≠ ',' ∧ hexDigitChar d ≠ '\n' := by
  revert d
  decide!

theorem hexUpperAux_append (fuel n : Nat) (acc : List Char) :
    hexUpperAux fuel n acc = hexUpperAux fuel n [] ++ acc := by
  induction fuel generalizing n acc with
  | zero => simp [hexUpperAux]
  | succ f ih =>
    simp only [hexUpperAux]
    split_ifs
    · simp
    · rw [ih (n / 16) (hexDigitChar (n % 16) :: acc), ih (n / 16) [hexDigitChar (n % 16)]]
      simp

theorem hexUpperAux_mem (fuel n : Nat) (c : Char) (h : c ∈ hexUpperAux fuel n []) :
    ∃ d, d < 16 ∧ c = hexDigitChar d := by
  induction fuel generalizing n with
  | zero => simp [hexUpperAux] at h
  | succ f ih =>
    simp only [hexUpperAux] at h
    split_ifs at h
    · exact ⟨n % 16, Nat.mod_lt _ (by norm_num), List.mem_singleton.mp h⟩
    · rw [hexUpperAux_append] at h
      rcases List.mem_append.mp h with h | h
      · exact ih _ h
      · exact ⟨n % 16, Nat.mod_lt _ (by norm_num), List.mem_singleton.mp h⟩

theorem hexUpperAux_ne_nil (fuel n : Nat) : hexUpperAux (fuel + 1) n [] ≠ [] := by
  simp only [hexUpperAux]
  split_ifs
  · simp
  · rw [hexUpperAux_append]
    simp

theorem hexUpperAux_value (fuel n : Nat) (h : n < 16 ^ fuel) :
    (hexUpperAux fuel n []).foldl (fun acc c => 16 * acc + (hexDigitValue c).getD 0) 0 = n := by
  induction fuel generalizing n with
  | zero =>
    simp only [pow_zero, Nat.lt_one_iff] at h
    simp [hexUpperAux, h]
  | succ f ih =>
    have hd := (hexDigitChar_facts (n % 16) (Nat.mod_lt _ (by norm_num))).1
    simp only [hexUpperAux]
    split_ifs with h0
    · simp only [List.foldl_cons, List.foldl_nil, hd, Option.getD_some]
      omega
    · rw [hexUpperAux_append, List.foldl_append, ih (n / 16) (by
        rw [pow_succ] at h
        exact Nat.div_lt_of_lt_mul (by rw [Nat.mul_comm]; exact h))]
      simp only [List.foldl_cons, List.foldl_nil, hd, Option.getD_some]
      omega

/-- Parsing a non-empty run of printed digits gives their value. -/
theorem stoul16_digits (s : List Char) (hne : s ≠ [])
    (hs : ∀ c ∈ s, ∃ d, d < 16 ∧ c = hexDigitChar d)
    (hv : s.foldl (fun acc c => 16 * acc + (hexDigitValue c).getD 0) 0 < 2 ^ 64) :
    stoul16 s = some (s.foldl (fun acc c => 16 * acc + (hexDigitValue c).getD 0) 0) := by
  have hfact : ∀ c ∈ s, (hexDigitValue c).isSome = true ∧ isSpace c = false ∧ c.toNat ≠ 0
      ∧ c ≠ '-' ∧ c ≠ '+' ∧ c ≠ 'x' ∧ c ≠ 'X' := by
    intro c hc
    obtain ⟨d, hd, rfl⟩ := hs c hc
    have := hexDigitChar_facts d hd
    refine ⟨by rw [this.1]; rfl, this.2.1, this.2.2.1, this.2.2.2.1, this.2.2.2.2.1,
      this.2.2.2.2.2.1, this.2.2.2.2.2.2.1⟩
  have e1 : s.takeWhile (fun c => decide (c.toNat ≠ 0)) = s :=
    List.takeWhile_eq_self_iff.mpr (fun c hc => decide_eq_true (hfact c hc).2.2.1)
  obtain ⟨a, t, rfl⟩ := List.exists_cons_of_ne_nil hne
  have ha := hfact a (List.mem_cons_self _ _)
  have e2 : (a :: t).dropWhile isSpace = a :: t := by
    rw [List.dropWhile_cons, ha.2.1]
    rfl
  have e3 : (a :: t).takeWhile (fun c => (hexDigitValue c).isSome) = a :: t :=
    List.takeWhile_eq_self_iff.mpr (fun c hc => (hfact c hc).1)
  have e4 : (match a :: t with
      | z :: x :: d :: rest =>
        if z = '0' ∧ (x = 'x' ∨ x = 'X') ∧ (hexDigitValue d).isSome = true then d :: rest
        else a :: t
      | _ => a :: t) = a :: t := by
    split
    · rename_i z x d rest heq
      have hx : x ∈ a :: t := by rw [heq]; simp
      have := hfact x hx
      rw [if_neg]
      rintro ⟨_, h | h, _⟩
      · exact this.2.2.2.2.2.1 h
      · exact this.2.2.2.2.2.2 h
    · rfl
  unfold stoul16
  simp only [e1, e2]
  have hh : (a :: t).head? = some a := rfl
  have hneg : ¬ (some a = some '-' ∨ some a = some '+') := by
    rintro (h | h)
    · exact ha.2.2.2.1 (Option.some.inj h)
    · exact ha.2.2.2.2.1 (Option.some.inj h)
  have hneg2 : ¬ (some a = some '-') := fun h => ha.2.2.2.1 (Option.some.inj h)
  rw [hh, if_neg hneg]
  simp only [e4, e3]
  rw [if_neg (by simp), if_neg (not_le.mpr hv)]
  simp [hneg2]

theorem hexUpper_facts (n : Nat) (h : n < 2 ^ 32) :
    stoul16 (hexUpper n) = some n ∧ ',' ∉ hexUpper n ∧ '\n' ∉ hexUpper n := by
  have hmem := hexUpperAux_mem 8 n
  have hval := hexUpperAux_value 8 n (by norm_num; omega)
  refine ⟨?_, ?_, ?_⟩
  · have := stoul16_digits (hexUpper n) (hexUpperAux_ne_nil 7 n) hmem
      (by unfold hexUpper; rw [hval]; omega)
    rw [this]
    unfold hexUpper
    rw [hval]
  · intro hc
    obtain ⟨d, hd, e⟩ := hmem _ hc
    exact (hexDigitChar_facts d hd).2.2.2.2.2.2.2.1 e.symm
  · intro hc
    obtain ⟨d, hd, e⟩ := hmem _ hc
    exact (hexDigitChar_facts d hd).2.2.2.2.2.2.2.2 e.symm

end TypesettingRules

namespace TypesettingRules

theorem mem_intercalate (sep : List Char) (ls : List (List Char)) (c : Char)
    (h : c ∈ List.intercalate sep ls) : c ∈ sep ∨ ∃ l ∈ ls, c ∈ l := by
  induction ls with
  | nil => simp [List.intercalate] at h
  | cons a t ih =>
    cases t with
    | nil =>
      simp only [List.intercalate, List.intersperse_single, List.flatten_cons,
        List.flatten_nil, List.append_nil] at h
      exact Or.inr ⟨a, List.mem_singleton_self _, h⟩
    | cons b t =>
      simp only [List.intercalate, List.intersperse_cons₂, List.flatten_cons,
        List.mem_append] at h
      rcases h with h | h | h
      · exact Or.inr ⟨a, List.mem_cons_self _ _, h⟩
      · exact Or.inl h
      · rcases ih (by simpa [List.intercalate] using h) with h | ⟨l, hl, hc⟩
        · exact Or.inl h
        · exact Or.inr ⟨l, List.mem_cons_of_mem _ hl, hc⟩

theorem intercalate_cons_cons_head (sep a : List Char) (c : Char) (t : List (List Char)) :
    ∃ rest, List.intercalate sep ((c :: a) :: t) = c :: rest := by
  cases t with
  | nil => exact ⟨a, by simp [List.intercalate]⟩
  | cons b t =>
    refine ⟨a ++ (sep ++ (List.intersperse sep (b :: t)).flatten), ?_⟩
    simp only [List.intercalate, List.intersperse_cons₂, List.flatten_cons, List.cons_append]

theorem loadToken_code (currentSection : List Char) (r : TypesettingRules) (c : Nat) :
    loadToken currentSection r ('U' :: '+' :: hexUpper (c % 2 ^ 32))
      = Except.ok (addToSection currentSection r (c % 2 ^ 32)) := by
  have h := (hexUpper_facts (c % 2 ^ 32) (Nat.mod_lt _ (by norm_num))).1
  unfold loadToken
  rw [if_pos (by rfl)]
  show (match stoul16 (hexUpper (c % 2 ^ 32)) with
    | none => Except.error r
    | some value => Except.ok (addToSection currentSection r (value % 2 ^ 32))) = _
  rw [h]
  simp only [Nat.mod_mod]

theorem loadTokens_codes (currentSection : List Char) (l : List Nat) (r : TypesettingRules) :
    loadTokens currentSection r (l.map (fun c => 'U' :: '+' :: hexUpper (c % 2 ^ 32)))
      = Except.ok (l.foldl (fun r c => addToSection currentSection r (c % 2 ^ 32)) r) := by
  induction l generalizing r with
  | nil => rfl
  | cons a l ih =>
    rw [List.map_cons, loadTokens, loadToken_code]
    exact ih _

theorem code_token_free (sep : Char) (hs : sep = ',' ∨ sep = '\n') (c : Nat) :
    sep ∉ 'U' :: '+' :: hexUpper (c % 2 ^ 32) := by
  have h := hexUpper_facts (c % 2 ^ 32) (Nat.mod_lt _ (by norm_num))
  intro hm
  rcases List.mem_cons.mp hm with e | hm
  · rcases hs with rfl | rfl <;> exact absurd e (by decide)
  rcases List.mem_cons.mp hm with e | hm
  · rcases hs with rfl | rfl <;> exact absurd e (by decide)
  rcases hs with rfl | rfl
  · exact h.2.1 hm
  · exact h.2.2 hm

theorem getlines_codes (l : List Nat) (hl : l ≠ []) :
    getlines ','
        (List.intercalate [','] (l.map (fun c => 'U' :: '+' :: hexUpper (c % 2 ^ 32))))
      = l.map (fun c => 'U' :: '+' :: hexUpper (c % 2 ^ 32)) := by
  have hsplit := List.splitOn_intercalate
    (l.map (fun c => 'U' :: '+' :: hexUpper (c % 2 ^ 32))) ','
    (by
      intro t ht
      obtain ⟨c, _, rfl⟩ := List.mem_map.mp ht
      exact code_token_free ',' (Or.inl rfl) c)
    (by simpa using hl)
  unfold getlines
  rw [hsplit, if_neg]
  intro h
  have hm := List.mem_of_getLast?_eq_some h
  obtain ⟨c, _, hc⟩ := List.mem_map.mp hm
  simp at hc

theorem newline_not_mem_writeCodes (s : Finset Nat) : '\n' ∉ writeCodes s := by
  intro h
  rcases mem_intercalate _ _ _ h with h | ⟨t, ht, hc⟩
  · simp at h
  · obtain ⟨c, _, rfl⟩ := List.mem_map.mp ht
    exact code_token_free '\n' (Or.inr rfl) c hc

theorem loadLines_writeCodes (currentSection : List Char) (hsec : currentSection ≠ [])
    (r : TypesettingRules) (s : Finset Nat) (rest : List (List Char)) :
    loadLines currentSection r (writeCodes s :: rest)
      = loadLines currentSection
          ((s.sort (fun a b => a ≤ b)).foldl
            (fun r c => addToSection currentSection r (c % 2 ^ 32)) r) rest := by
  unfold writeCodes
  cases hl : s.sort (fun a b => a ≤ b) with
  | nil =>
    rw [loadLines]
    simp [List.intercalate]
  | cons a l =>
    obtain ⟨tl, htl⟩ := intercalate_cons_cons_head [','] ('+' :: hexUpper (a % 2 ^ 32)) 'U'
      (l.map (fun c => 'U' :: '+' :: hexUpper (c % 2 ^ 32)))
    have hg := getlines_codes (a :: l) (by simp)
    rw [loadLines]
    rw [List.map_cons] at hg ⊢
    rw [hg]
    rw [htl, if_neg (by simp), if_neg (by simp), if_pos hsec]
    have := loadTokens_codes currentSection (a :: l) r
    rw [List.map_cons] at this
    rw [this]

end TypesettingRules

namespace TypesettingRules

theorem addToSection_lineStart (r : TypesettingRules) (c : Nat) :
    addToSection "LineStartProhibited".toList r c = r.addLineStartProhibitedCharacter c := by
  unfold addToSection
  rw [if_pos rfl]

theorem addToSection_lineEnd (r : TypesettingRules) (c : Nat) :
    addToSection "LineEndProhibited".toList r c = r.addLineEndProhibitedCharacter c := by
  unfold addToSection
  rw [if_neg (by decide), if_pos rfl]

theorem addToSection_inseparable (r : TypesettingRules) (c : Nat) :
    addToSection "Inseparable".toList r c = r.addInseparableCharacter c := by
  unfold addToSection
  rw [if_neg (by decide), if_neg (by decide), if_pos rfl]

theorem addToSection_hanging (r : TypesettingRules) (c : Nat) :
    addToSection "Hanging".toList r c = r.addHangingCharacter c := by
  unfold addToSection
  rw [if_neg (by decide), if_neg (by decide), if_neg (by decide), if_pos rfl]

theorem sort_map_mod (s : Finset Nat) (h : ∀ c ∈ s, c < 2 ^ 32) :
    ((s.sort (fun a b => a ≤ b)).map (fun c => c % 2 ^ 32)).toFinset = s := by
  have : (s.sort (fun a b => a ≤ b)).map (fun c => c % 2 ^ 32) = s.sort (fun a b => a ≤ b) := by
    conv_rhs => rw [← List.map_id (s.sort (fun a b => a ≤ b))]
    apply List.map_congr_left
    intro c hc
    exact Nat.mod_eq_of_lt (h c ((Finset.mem_sort _).mp hc))
  rw [this, Finset.sort_toFinset]

theorem saveToFile_eq (r : TypesettingRules) :
    saveToFile r = List.intercalate ['\n']
      ["[LineStartProhibited]".toList, writeCodes r.lineStartProhibitedChars, [],
       "[LineEndProhibited]".toList, writeCodes r.lineEndProhibitedChars, [],
       "[Inseparable]".toList, writeCodes r.inseparableChars, [],
       "[Hanging]".toList, writeCodes r.hangingChars, []] := by
  simp [saveToFile, List.intercalate]

theorem getlines_saveToFile (r : TypesettingRules) :
    getlines '\n' (saveToFile r) =
      ["[LineStartProhibited]".toList, writeCodes r.lineStartProhibitedChars, [],
       "[LineEndProhibited]".toList, writeCodes r.lineEndProhibitedChars, [],
       "[Inseparable]".toList, writeCodes r.inseparableChars, [],
       "[Hanging]".toList, writeCodes r.hangingChars] := by
  have hsplit := List.splitOn_intercalate
      ["[LineStartProhibited]".toList, writeCodes r.lineStartProhibitedChars, [],
       "[LineEndProhibited]".toList, writeCodes r.lineEndProhibitedChars, [],
       "[Inseparable]".toList, writeCodes r.inseparableChars, [],
       "[Hanging]".toList, writeCodes r.hangingChars, []] '\n'
      (by
        intro l hl
        simp only [List.mem_cons, List.mem_singleton, List.not_mem_nil, or_false] at hl
        rcases hl with rfl | rfl | rfl | rfl | rfl | rfl | rfl | rfl | rfl | rfl | rfl | rfl
        · decide
        · exact newline_not_mem_writeCodes _
        · decide
        · decide
        · exact newline_not_mem_writeCodes _
        · decide
        · decide
        · exact newline_not_mem_writeCodes _
        · decide
        · decide
        · exact newline_not_mem_writeCodes _
        · decide)
      (by simp)
  unfold getlines
  rw [saveToFile_eq, hsplit]
  rfl

theorem loadLines_header_lineStart (s : List Char) (r : TypesettingRules)
    (rest : List (List Char)) :
    loadLines s r ("[LineStartProhibited]".toList :: rest)
      = loadLines "LineStartProhibited".toList r rest := by
  rw [loadLines, if_neg (by decide), if_pos (by decide)]
  rfl

theorem loadLines_header_lineEnd (s : List Char) (r : TypesettingRules)
    (rest : List (List Char)) :
    loadLines s r ("[LineEndProhibited]".toList :: rest)
      = loadLines "LineEndProhibited".toList r rest := by
  rw [loadLines, if_neg (by decide), if_pos (by decide)]
  rfl

theorem loadLines_header_inseparable (s : List Char) (r : TypesettingRules)
    (rest : List (List Char)) :
    loadLines s r ("[Inseparable]".toList :: rest)
      = loadLines "Inseparable".toList r rest := by
  rw [loadLines, if_neg (by decide), if_pos (by decide)]
  rfl

theorem loadLines_header_hanging (s : List Char) (r : TypesettingRules)
    (rest : List (List Char)) :
    loadLines s r ("[Hanging]".toList :: rest)
      = loadLines "Hanging".toList r rest := by
  rw [loadLines, if_neg (by decide), if_pos (by decide)]
  rfl

theorem loadLines_empty (s : List Char) (r : TypesettingRules) (rest : List (List Char)) :
    loadLines s r ([] :: rest) = loadLines s r rest := by
  rw [loadLines, if_pos rfl]

/-- Loading a saved file into any object adds the members of the saved sets
(as `char32_t` values) to its sets, and returns `true`. -/
theorem loadFromFile_saveToFile (r0 r : TypesettingRules) (hb : bounded r) :
    loadFromFile r0 (some (saveToFile r))
      = LoadResult.returned
          ⟨r0.lineStartProhibitedChars ∪ r.lineStartProhibitedChars,
           r0.lineEndProhibitedChars ∪ r.lineEndProhibitedChars,
           r0.inseparableChars ∪ r.inseparableChars,
           r0.hangingChars ∪ r.hangingChars⟩ true := by
  obtain ⟨b1, b2, b3, b4⟩ := hb
  have f1 : ∀ (x : TypesettingRules) (l : List Nat),
      l.foldl (fun r c => addToSection "LineStartProhibited".toList r (c % 2 ^ 32)) x
        = (l.map (fun c => c % 2 ^ 32)).foldl addLineStartProhibitedCharacter x := by
    intro x l
    rw [List.foldl_map]
    simp only [addToSection_lineStart]
  have f2 : ∀ (x : TypesettingRules) (l : List Nat),
      l.foldl (fun r c => addToSection "LineEndProhibited".toList r (c % 2 ^ 32)) x
        = (l.map (fun c => c % 2 ^ 32)).foldl addLineEndProhibitedCharacter x := by
    intro x l
    rw [List.foldl_map]
    simp only [addToSection_lineEnd]
  have f3 : ∀ (x : TypesettingRules) (l : List Nat),
      l.foldl (fun r c => addToSection "Inseparable".toList r (c % 2 ^ 32)) x
        = (l.map (fun c => c % 2 ^ 32)).foldl addInseparableCharacter x := by
    intro x l
    rw [List.foldl_map]
    simp only [addToSection_inseparable]
  have f4 : ∀ (x : TypesettingRules) (l : List Nat),
      l.foldl (fun r c => addToSection "Hanging".toList r (c % 2 ^ 32)) x
        = (l.map (fun c => c % 2 ^ 32)).foldl addHangingCharacter x := by
    intro x l
    rw [List.foldl_map]
    simp only [addToSection_hanging]
  rw [loadFromFile_some, getlines_saveToFile]
  rw [loadLines_header_lineStart, loadLines_writeCodes _ (by decide), loadLines_empty,
    loadLines_header_lineEnd, loadLines_writeCodes _ (by decide), loadLines_empty,
    loadLines_header_inseparable, loadLines_writeCodes _ (by decide), loadLines_empty,
    loadLines_header_hanging, loadLines_writeCodes _ (by decide)]
  rw [f1, f2, f3, f4, foldl_addLineStart, foldl_addLineEnd, foldl_addInseparable,
    foldl_addHanging, sort_map_mod _ b1, sort_map_mod _ b2, sort_map_mod _ b3,
    sort_map_mod _ b4]
  rfl

/-- C15. Rule-file round trip: for every `TypesettingRules` object `r` (one
that the interface of the class can produce), `loadFromFile` on a freshly
constructed object with the text written by `r.saveToFile` returns `true` and
leaves the fresh object with exactly the four sets of `r`. -/
theorem saveToFile_loadFromFile_round_trip (r : TypesettingRules) (h : Reachable r) :
    loadFromFile new (some (saveToFile r)) = LoadResult.returned r true := by
  obtain ⟨⟨i1, i2, i3, i4⟩, hb⟩ := reachable_invariant r h
  rw [loadFromFile_saveToFile new r hb]
  congr 1
  apply rules_ext
  · exact Finset.union_eq_right.mpr i1
  · exact Finset.union_eq_right.mpr i2
  · exact Finset.union_eq_right.mpr i3
  · exact Finset.union_eq_right.mpr i4

/-- C15, worked example: the round trip of a fresh object to which U+0041 was
added as a hanging character. -/
theorem saveToFile_loadFromFile_round_trip_witness :
    loadFromFile new (some (saveToFile (new.addHangingCharacter 0x41)))
      = LoadResult.returned (new.addHangingCharacter 0x41) true :=
  saveToFile_loadFromFile_round_trip (new.addHangingCharacter 0x41)
    (Reachable.addHanging new 0x41 Reachable.construct (by norm_num))

end TypesettingRules

namespace TypesettingEngine

/-- The literal `0.95` as a double. -/
theorem roundDouble_literal_095 :
    roundDouble (95 / 100) = 4278419646001971 / 4503599627370496 := by
  decide!

/-- The threshold at its boundary: a line of two characters without explicit
break whose width is the double 0.95, justified at the maximum width 1. The
width is below the exact product 95/100 * 1, and the line is left alone: the
double-precision product `maxWidth * 0.95` is this very width. -/
theorem applyJustification_boundary :
    (exampleLine [0x3042, 0x3044] (4278419646001971 / 4503599627370496)).width < 95 / 100 * 1
    ∧ applyJustification [exampleLine [0x3042, 0x3044] (4278419646001971 / 4503599627370496)]
        { exampleStyle with textAlignment := TextAlignment.Justify } 1 false
      = [exampleLine [0x3042, 0x3044] (4278419646001971 / 4503599627370496)] := by
  constructor <;> decide!

end TypesettingEngine

namespace LineBreaker

/-- C20, worked example: in "あい" there is a break point at position 1, with
penalty 100 and not mandatory. -/
theorem findBreakPoints_characterisation_witness :
    (∃ b ∈ findBreakPoints TypesettingRules.new [0x3042, 0x3044], b.position = 1)
    ∧ ∀ b ∈ findBreakPoints TypesettingRules.new [0x3042, 0x3044], b.position = 1 →
        b = { position := 1, penalty := 100, mandatory := false } :=
  have h := (findBreakPoints_characterisation TypesettingRules.new [0x3042, 0x3044]).2.2 1
    (by decide) (by decide)
  ⟨h.1.mpr (Or.inr (by decide!)), fun b hb hp => (h.2.1 b hb hp).trans (by decide!)⟩

end LineBreaker

namespace TypesettingEngine

/-! ### Empty text, widths and newlines of the greedy lines (C21, C26, C28, C29) -/

/-- C21. Empty input is not an error: for every style and width, `typeset` on
the empty text returns a block with no line, height 0 and the requested
width. -/
theorem typeset_empty (rules : TypesettingRules) (u : UnicodeHandler) (style : Style)
    (width : ℚ) (vertical : Bool) :
    typeset rules u [] style width vertical = { lines := [], width := width, height := 0 } := by
  simp [typeset, breakLines, applyProhibitionRules, applyJustification, applyHanging]

theorem textWidth_cons (u : UnicodeHandler) (style : Style) (vertical : Bool) (c : Nat)
    (s : List Nat) :
    textWidth u style vertical (c :: s)
      = calculateCharacterWidth u c style vertical + textWidth u style vertical s := by
  simp [textWidth]

theorem textWidth_nil (u : UnicodeHandler) (style : Style) (vertical : Bool) :
    textWidth u style vertical [] = 0 := rfl

/-- One iteration of the adjustment keeps the sum of the two widths, and
keeps each width equal to the width of the characters of the line. -/
theorem adjustPair_width (rules : TypesettingRules) (u : UnicodeHandler) (style : Style)
    (vertical : Bool) (c n : TextLine) :
    (adjustPair rules u style vertical c n).1.width
        + (adjustPair rules u style vertical c n).2.width = c.width + n.width
    ∧ (c.width = textWidth u style vertical c.text → n.width = textWidth u style vertical n.text →
        (adjustPair rules u style vertical c n).1.width
            = textWidth u style vertical (adjustPair rules u style vertical c n).1.text
          ∧ (adjustPair rules u style vertical c n).2.width
            = textWidth u style vertical (adjustPair rules u style vertical c n).2.text) := by
  unfold adjustPair
  split
  · exact ⟨rfl, fun h1 h2 => ⟨h1, h2⟩⟩
  split
  · exact ⟨rfl, fun h1 h2 => ⟨h1, h2⟩⟩
  cases hl : c.text.getLast? with
  | none =>
    simp only []
    cases hn : n.text with
    | nil => exact ⟨rfl, fun h1 h2 => ⟨h1, by rw [h2, hn]⟩⟩
    | cons f rest =>
      simp only []
      by_cases hs : rules.isLineStartProhibited f = true
      · rw [if_pos hs]
        refine ⟨by simp only []; ring, fun h1 h2 => ?_⟩
        simp only []
        rw [textWidth_append, textWidth_singleton, h1, h2, textWidth_cons]
        exact ⟨rfl, by ring⟩
      · rw [if_neg hs]
        exact ⟨rfl, fun h1 h2 => ⟨h1, by rw [h2, hn]⟩⟩
  | some l =>
    have hd : c.text.dropLast ++ [l] = c.text := List.dropLast_append_getLast? l hl
    have hw : textWidth u style vertical c.text
        = textWidth u style vertical c.text.dropLast + calculateCharacterWidth u l style vertical := by
      conv_lhs => rw [← hd]
      rw [textWidth_append, textWidth_singleton]
    simp only []
    by_cases he : rules.isLineEndProhibited l = true
    · rw [if_pos he]
      simp only []
      by_cases hs : rules.isLineStartProhibited l = true
      · rw [if_pos hs]
        refine ⟨by simp only []; ring, fun h1 h2 => ?_⟩
        simp only []
        rw [textWidth_append, textWidth_singleton, h1, h2, hw]
        exact ⟨by ring, by ring⟩
      · rw [if_neg hs]
        refine ⟨by simp only []; ring, fun h1 h2 => ?_⟩
        simp only []
        rw [textWidth_cons, h1, h2, hw]
        exact ⟨by ring, by ring⟩
    · rw [if_neg he]
      simp only []
      cases hn : n.text with
      | nil => exact ⟨rfl, fun h1 h2 => ⟨h1, by rw [h2, hn]⟩⟩
      | cons f rest =>
        simp only []
        by_cases hs : rules.isLineStartProhibited f = true
        · rw [if_pos hs]
          refine ⟨by simp only []; ring, fun h1 h2 => ?_⟩
          simp only []
          rw [textWidth_append, textWidth_singleton, h1, h2, textWidth_cons]
          exact ⟨rfl, by ring⟩
        · rw [if_neg hs]
          exact ⟨rfl, fun h1 h2 => ⟨h1, by rw [h2, hn]⟩⟩

theorem sweep_width (rules : TypesettingRules) (u : UnicodeHandler) (style : Style)
    (vertical : Bool) :
    ∀ (k : Nat) (ls : List TextLine), ls.length = k →
      ((sweep rules u style vertical ls).map TextLine.width).sum = (ls.map TextLine.width).sum
      ∧ ((∀ l ∈ ls, l.width = textWidth u style vertical l.text) →
          ∀ l ∈ sweep rules u style vertical ls, l.width = textWidth u style vertical l.text) := by
  intro k
  induction k with
  | zero =>
    intro ls h
    have : ls = [] := List.length_eq_zero.mp h
    subst this
    simp [sweep]
  | succ k ih =>
    intro ls h
    match ls, h with
    | [l], _ => simp [sweep]
    | c :: n :: rest, h =>
      obtain ⟨hsum, htext⟩ := adjustPair_width rules u style vertical c n
      obtain ⟨ih1, ih2⟩ := ih ((adjustPair rules u style vertical c n).2 :: rest)
        (by simpa using h)
      rw [sweep]
      refine ⟨?_, ?_⟩
      · simp only [List.map_cons, List.sum_cons] at ih1 ⊢
        rw [ih1]
        linarith
      · intro hall l hl
        have hc := hall c (List.mem_cons_self _ _)
        have hn := hall n (List.mem_cons_of_mem _ (List.mem_cons_self _ _))
        obtain ⟨t1, t2⟩ := htext hc hn
        rcases List.mem_cons.mp hl with rfl | hl
        · exact t1
        · refine ih2 ?_ l hl
          intro x hx
          rcases List.mem_cons.mp hx with rfl | hx
          · exact t2
          · exact hall x (List.mem_cons_of_mem _ (List.mem_cons_of_mem _ hx))

/-- C26. Width accounting of the adjuster, in exact arithmetic: for every list
of lines, `applyProhibitionRules` keeps the sum of all line widths, and if the
width of every input line is the sum of the character widths of its text, the
same holds for every output line and its new text. -/
theorem applyProhibitionRules_width (rules : TypesettingRules) (u : UnicodeHandler)
    (lines : List TextLine) (style : Style) (vertical : Bool) :
    ((applyProhibitionRules rules u lines style vertical).map TextLine.width).sum
        = (lines.map TextLine.width).sum
    ∧ ((∀ l ∈ lines, l.width = textWidth u style vertical l.text) →
        ∀ l ∈ applyProhibitionRules rules u lines style vertical,
          l.width = textWidth u style vertical l.text) := by
  rw [applyProhibitionRules_eq_sweep]
  exact sweep_width rules u style vertical lines.length lines rfl

end TypesettingEngine

namespace TypesettingEngine

theorem renderLines_append (a b : List TextLine) :
    renderLines (a ++ b) = renderLines a ++ renderLines b := by
  simp [renderLines]

theorem renderLines_cons (l : TextLine) (rest : List TextLine) :
    renderLines (l :: rest)
      = l.text ++ (if l.hasLineBreak = true then [0x0A] else []) ++ renderLines rest := by
  simp [renderLines]

theorem breakLinesStep_render (u : UnicodeHandler) (style : Style) (maxWidth : ℚ)
    (vertical : Bool) (st : BreakState) (ch : Nat) (hflag : st.currentLine.hasLineBreak = false) :
    renderLines (breakLinesStep u style maxWidth vertical st ch).lines
        ++ (breakLinesStep u style maxWidth vertical st ch).currentLine.text
      = renderLines st.lines ++ st.currentLine.text ++ [ch] := by
  unfold breakLinesStep
  by_cases hnl : ch = 0x0A
  · rw [if_pos hnl]
    simp only [renderLines_append, renderLines_cons, startNewLine, if_true, hnl]
    simp [renderLines]
  · simp only [hnl, if_false]
    by_cases hov : roundDouble (st.currentLine.width
        + calculateCharacterWidth u ch style vertical) > maxWidth ∧ st.currentLine.text ≠ []
    · rw [if_pos hov]
      simp only [renderLines_append, renderLines_cons, startNewLine, hflag]
      simp [renderLines]
    · rw [if_neg hov]
      simp

theorem foldl_breakLinesStep_render (u : UnicodeHandler) (style : Style) (maxWidth : ℚ)
    (vertical : Bool) (text : List Nat) :
    ∀ st : BreakState, st.currentLine.hasLineBreak = false →
      renderLines (text.foldl (breakLinesStep u style maxWidth vertical) st).lines
          ++ (text.foldl (breakLinesStep u style maxWidth vertical) st).currentLine.text
        = renderLines st.lines ++ st.currentLine.text ++ text
      ∧ (text.foldl (breakLinesStep u style maxWidth vertical) st).currentLine.hasLineBreak
          = false := by
  induction text with
  | nil => intro st h; simp [h]
  | cons ch rest ih =>
    intro st h
    have hf := (breakLinesStep_flag u style maxWidth vertical st ch h).1
    obtain ⟨a, b⟩ := ih _ hf
    rw [List.foldl_cons]
    refine ⟨?_, b⟩
    rw [a, breakLinesStep_render u style maxWidth vertical st ch h]
    simp

theorem breakLines_render (u : UnicodeHandler) (text : List Nat) (style : Style)
    (maxWidth : ℚ) (vertical : Bool) :
    renderLines (breakLines u text style maxWidth vertical) = text := by
  obtain ⟨h1, h2⟩ := foldl_breakLinesStep_render u style maxWidth vertical text
    ⟨[], ⟨[], 0, style.fontSize * style.lineHeight, style.fontSize * (8 / 10), false⟩⟩ rfl
  unfold breakLines
  simp only []
  split_ifs with hne
  · rw [renderLines_append, renderLines_cons, h2]
    simp only [Bool.false_eq_true, if_false, List.append_nil]
    have : renderLines [] = ([] : List Nat) := rfl
    rw [this, List.append_nil, h1]
    simp [renderLines]
  · rw [not_not] at hne
    rw [hne, List.append_nil] at h1
    rw [h1]
    simp [renderLines]

theorem adjustPair_render (rules : TypesettingRules) (u : UnicodeHandler) (style : Style)
    (vertical : Bool) (c n : TextLine) (rest : List TextLine) :
    renderLines ((adjustPair rules u style vertical c n).1
        :: (adjustPair rules u style vertical c n).2 :: rest)
      = renderLines (c :: n :: rest) := by
  by_cases hc : c.hasLineBreak = true
  · rw [adjustPair_inactive rules u style vertical c n (Or.inl hc)]
  · obtain ⟨f1, f2⟩ := adjustPair_hasLineBreak rules u style vertical c n
    have ht := adjustPair_concat rules u style vertical c n
    have ht2 : ∀ Y : List Nat, (adjustPair rules u style vertical c n).1.text
        ++ ((adjustPair rules u style vertical c n).2.text ++ Y) = c.text ++ (n.text ++ Y) := by
      intro Y
      rw [← List.append_assoc, ht, List.append_assoc]
    simp only [renderLines_cons, f1, f2, hc, Bool.false_eq_true, if_false, List.nil_append,
      List.append_nil, List.append_assoc, ht2]

theorem sweep_render (rules : TypesettingRules) (u : UnicodeHandler) (style : Style)
    (vertical : Bool) :
    ∀ (k : Nat) (ls : List TextLine), ls.length = k →
      renderLines (sweep rules u style vertical ls) = renderLines ls := by
  intro k
  induction k with
  | zero =>
    intro ls h
    have : ls = [] := List.length_eq_zero.mp h
    subst this
    simp [sweep]
  | succ k ih =>
    intro ls h
    match ls, h with
    | [l], _ => simp [sweep]
    | c :: n :: rest, h =>
      rw [sweep, renderLines_cons, ih _ (by simpa using h), ← renderLines_cons,
        adjustPair_render]

/-- C29. Only newlines are consumed by the engine: for every text and every
width, the lines produced by `breakLines` followed by `applyProhibitionRules`,
concatenated in order with a `\n` after every line flagged `hasLineBreak`,
give back exactly the text. -/
theorem adjusted_lines_render (rules : TypesettingRules) (u : UnicodeHandler) (text : List Nat)
    (style : Style) (maxWidth : ℚ) (vertical : Bool) :
    renderLines (applyProhibitionRules rules u (breakLines u text style maxWidth vertical)
      style vertical) = text := by
  rw [applyProhibitionRules_eq_sweep, sweep_render rules u style vertical _ _ rfl,
    breakLines_render]

end TypesettingEngine

namespace LineBreaker

/-! ### Overfull texts are not broken (C27) -/

theorem lineBreaker_characterWidth_nonpos (u : UnicodeHandler) (style : Style) (vertical : Bool)
    (h : style.fontSize ≤ 0) (c : Nat) : calculateCharacterWidth u c style vertical ≤ 0 := by
  unfold calculateCharacterWidth
  simp only []
  split
  · exact h
  · split
    · linarith
    · exact h

theorem sum_widths_nonpos (u : UnicodeHandler) (style : Style) (vertical : Bool)
    (h : style.fontSize ≤ 0) (text : List Nat) :
    (text.map (fun ch => calculateCharacterWidth u ch style vertical)).sum ≤ 0 := by
  induction text with
  | nil => simp
  | cons c t ih =>
    simp only [List.map_cons, List.sum_cons]
    have := lineBreaker_characterWidth_nonpos u style vertical h c
    linarith

/-- C27 (amended). Overfull text is never broken by the solver: for every
non-empty text that contains no `\n` and whose total character width is
greater than `maxWidth`, `calculateOptimalBreaks` on the output of
`findBreakPoints` returns the empty list, and `breakLines` returns the single
line `[text]`, whatever legal break points exist inside it. -/
theorem breakLines_overfull (rules : TypesettingRules) (u : UnicodeHandler)
    (text : List Nat) (style : Style) (maxWidth : ℚ) (vertical : Bool)
    (hne : text ≠ []) (_hnewline : 0x0A ∉ text)
    (hwide : maxWidth < (text.map (fun ch => calculateCharacterWidth u ch style vertical)).sum) :
    calculateOptimalBreaks u text (findBreakPoints rules text) style maxWidth vertical = some []
    ∧ breakLines rules u text style maxWidth vertical = some [text] := by
  have hdiv : maxWidth ≠ 0 ∨ 0 ≤ style.fontSize := by
    by_cases h0 : maxWidth = 0
    · right
      by_contra hneg
      have := sum_widths_nonpos u style vertical (le_of_lt (not_le.mp hneg)) text
      rw [h0] at hwide
      linarith
    · exact Or.inl h0
  have hempty := calculateOptimalBreaks_overfull rules u text style maxWidth vertical hdiv
    (le_of_lt hwide)
  refine ⟨hempty, ?_⟩
  unfold breakLines
  simp only [Option.bind_eq_bind]
  rw [hempty]
  have hpos : 0 < text.length := List.length_pos.mpr hne
  simp [hpos, substrFrom]

/-- C27 (amended), worked example: "あい" (total width 20) at width 15 is
returned as one line, although a break between the two characters is legal. -/
theorem breakLines_overfull_witness :
    calculateOptimalBreaks exampleHandler [0x3042, 0x3044]
        (findBreakPoints TypesettingRules.new [0x3042, 0x3044]) exampleStyle 15 false = some []
    ∧ breakLines TypesettingRules.new exampleHandler [0x3042, 0x3044] exampleStyle 15 false
        = some [[0x3042, 0x3044]] :=
  breakLines_overfull TypesettingRules.new exampleHandler [0x3042, 0x3044] exampleStyle 15 false
    (by decide) (by decide) (by decide!)

/-- C27, counterexample to the claim as stated: the empty text has total width
0, which is greater than `maxWidth = -1`, and `breakLines` returns no line at
all, not the single line `[text]`. -/
theorem breakLines_overfull_counterexample :
    (0x0A ∉ ([] : List Nat))
    ∧ (-1 : ℚ) < (([] : List Nat).map
        (fun ch => calculateCharacterWidth exampleHandler ch exampleStyle false)).sum
    ∧ breakLines TypesettingRules.new exampleHandler [] exampleStyle (-1) false = some []
    ∧ breakLines TypesettingRules.new exampleHandler [] exampleStyle (-1) false ≠ some [[]] := by
  refine ⟨by simp, by norm_num, by decide!, by decide!⟩

end LineBreaker

namespace RubyProcessor

/-! ### The ruby parser (C30) -/

theorem findTagLoop_some (isTag : Nat → Bool) (text : List Nat) :
    ∀ (remaining i k : Nat), findTagLoop isTag text remaining i = some k →
      i ≤ k ∧ k < i + remaining := by
  intro remaining
  induction remaining with
  | zero => intro i k h; simp [findTagLoop] at h
  | succ r ih =>
    intro i k h
    rw [findTagLoop] at h
    split_ifs at h
    · simp only [Option.some.injEq] at h
      omega
    · have := ih (i + 1) k h
      omega

theorem findTagLoop_skip (isTag : Nat → Bool) (text : List Nat) :
    ∀ (d remaining i : Nat), (∀ k, i ≤ k → k < i + d → isTag (text.getD k 0) = false) →
      findTagLoop isTag text (d + remaining) i = findTagLoop isTag text remaining (i + d) := by
  intro d
  induction d with
  | zero => intro remaining i _; simp
  | succ d ih =>
    intro remaining i h
    have e : d + 1 + remaining = (d + remaining) + 1 := by omega
    rw [e, findTagLoop, if_neg (by rw [h i (le_refl _) (by omega)]; simp)]
    rw [ih remaining (i + 1) (fun k h1 h2 => h k (by omega) (by omega))]
    congr 1
    omega

/-- The search finds the first tag character: the text before it, from the
start position on, has none. -/
theorem findTag_append (isTag : Nat → Bool) (a rest : List Nat) (c : Nat) (startPos : Nat)
    (hs : startPos ≤ a.length) (ha : ∀ x ∈ a.drop startPos, isTag x = false)
    (hc : isTag c = true) :
    findTagLoop isTag (a ++ c :: rest) ((a ++ c :: rest).length - startPos) startPos
      = some a.length := by
  have hlen : (a ++ c :: rest).length - startPos = (a.length - startPos) + (rest.length + 1) := by
    simp only [List.length_append, List.length_cons]
    omega
  rw [hlen, findTagLoop_skip]
  · have e : startPos + (a.length - startPos) = a.length := by omega
    rw [e, findTagLoop, if_pos]
    rw [List.getD_eq_getElem?_getD, List.getElem?_append_right (le_refl _)]
    simpa using hc
  · intro k h1 h2
    have hk : k < a.length := by omega
    rw [List.getD_eq_getElem?_getD, List.getElem?_append_left hk]
    have hmem : a[k] ∈ a.drop startPos := by
      rw [List.mem_iff_getElem]
      refine ⟨k - startPos, by simp; omega, ?_⟩
      simp only [List.getElem_drop]
      congr 1
      omega
    simpa [hk] using ha _ hmem

theorem findTag_none (isTag : Nat → Bool) (text : List Nat) (startPos : Nat)
    (h : ∀ x ∈ text.drop startPos, isTag x = false) :
    findTagLoop isTag text (text.length - startPos) startPos = none := by
  have := findTagLoop_skip isTag text (text.length - startPos) 0 startPos (by
    intro k h1 h2
    have hk : k < text.length := by omega
    have hmem : text[k] ∈ text.drop startPos := by
      rw [List.mem_iff_getElem]
      refine ⟨k - startPos, by simp; omega, ?_⟩
      simp only [List.getElem_drop]
      congr 1
      omega
    rw [List.getD_eq_getElem?_getD]
    simpa [hk] using h _ hmem)
  rw [Nat.add_zero] at this
  rw [this]
  rfl

/-- The loop of `parseRuby` ends normally whenever the bound exceeds the
number of characters after `pos`. -/
theorem parseRubyLoop_total (text : List Nat) :
    ∀ (fuel pos : Nat) (result : List RubyText), text.length - pos < fuel →
      ∃ r, parseRubyLoop text fuel pos result = some r := by
  intro fuel
  induction fuel with
  | zero => intro pos result h; omega
  | succ fuel ih =>
    intro pos result h
    rw [parseRubyLoop]
    split_ifs with hpos
    · cases h1 : findRubyStartTag text pos with
      | none => exact ⟨result, rfl⟩
      | some s =>
        have b1 := findTagLoop_some _ text _ _ _ h1
        simp only []
        cases h2 : findRubyTextTag text (s + 1) with
        | none => exact ih _ _ (by omega)
        | some t =>
          have b2 := findTagLoop_some _ text _ _ _ h2
          simp only []
          cases h3 : findRubyEndTag text (t + 1) with
          | none => exact ih _ _ (by omega)
          | some e =>
            have b3 := findTagLoop_some _ text _ _ _ h3
            simp only []
            rw [LineBreaker.substr_of_le (by omega), LineBreaker.substr_of_le (by omega)]
            exact ih _ _ (by omega)
    · exact ⟨result, rfl⟩

/-- C30. `parseRuby` terminates on every text (the loop returns within
`text.length + 1` iterations and `substr` never throws), and for all strings
`P`, `B`, `R`, `S` without `｜`, `《`, `》` the text `P｜B《R》S` is parsed into
exactly one entry with base `B`, ruby `R`, start `|P|` and end
`|P| + |B| + |R| + 3`. -/
theorem parseRuby_spec :
    (∀ text : List Nat, ∃ r, parseRuby text = some r)
    ∧ ∀ P B R S : List Nat,
        (∀ x ∈ P ++ B ++ R ++ S, x ≠ 0xFF5C ∧ x ≠ 0x300A ∧ x ≠ 0x300B) →
        parseRuby (P ++ [0xFF5C] ++ B ++ [0x300A] ++ R ++ [0x300B] ++ S)
          = some [{ base := B, ruby := R, startPos := P.length,
                    endPos := P.length + B.length + R.length + 3 }] := by
  refine ⟨fun text => parseRubyLoop_total text _ 0 [] (by omega), ?_⟩
  intro P B R S hfree
  have hP : ∀ x ∈ P, x ≠ 0xFF5C ∧ x ≠ 0x300A ∧ x ≠ 0x300B :=
    fun x hx => hfree x (by simp [hx])
  have hB : ∀ x ∈ B, x ≠ 0xFF5C ∧ x ≠ 0x300A ∧ x ≠ 0x300B :=
    fun x hx => hfree x (by simp [hx])
  have hR : ∀ x ∈ R, x ≠ 0xFF5C ∧ x ≠ 0x300A ∧ x ≠ 0x300B :=
    fun x hx => hfree x (by simp [hx])
  have hS : ∀ x ∈ S, x ≠ 0xFF5C ∧ x ≠ 0x300A ∧ x ≠ 0x300B :=
    fun x hx => hfree x (by simp [hx])
  obtain ⟨text, htext⟩ : ∃ text, text = P ++ [0xFF5C] ++ B ++ [0x300A] ++ R ++ [0x300B] ++ S :=
    ⟨_, rfl⟩
  rw [← htext]
  have hlen : text.length = P.length + B.length + R.length + S.length + 3 := by
    rw [htext]; simp only [List.length_append, List.length_cons, List.length_nil]; omega
  -- the three searches
  have e1 : text = P ++ 0xFF5C :: (B ++ [0x300A] ++ R ++ [0x300B] ++ S) := by
    rw [htext]; simp
  have e2 : text = (P ++ [0xFF5C] ++ B) ++ 0x300A :: (R ++ [0x300B] ++ S) := by
    rw [htext]; simp
  have e3 : text = (P ++ [0xFF5C] ++ B ++ [0x300A] ++ R) ++ 0x300B :: S := by
    rw [htext]; simp
  have f1 : findRubyStartTag text 0 = some P.length := by
    unfold findRubyStartTag
    rw [e1]
    refine findTag_append _ P _ _ 0 (Nat.zero_le _) ?_ (by decide)
    intro x hx
    rw [List.drop_zero] at hx
    have := hP x hx
    simp [this.1, this.2.1]
  have f2 : findRubyTextTag text (P.length + 1) = some (P.length + B.length + 1) := by
    unfold findRubyTextTag
    rw [e2]
    have := findTag_append (fun c => decide (c = 0x300A)) (P ++ [0xFF5C] ++ B)
      (R ++ [0x300B] ++ S) 0x300A (P.length + 1) (by simp) (by
        intro x hx
        have hd : (P ++ [0xFF5C] ++ B).drop (P.length + 1) = B := by
          rw [List.drop_append_eq_append_drop]
          simp
        rw [hd] at hx
        simp [(hB x hx).2.1]) (by decide)
    rw [this]
    simp only [List.length_append, List.length_cons, List.length_nil]
    congr 1
    omega
  have f3 : findRubyEndTag text (P.length + B.length + 1 + 1)
      = some (P.length + B.length + R.length + 2) := by
    unfold findRubyEndTag
    rw [e3]
    have := findTag_append (fun c => decide (c = 0x300B)) (P ++ [0xFF5C] ++ B ++ [0x300A] ++ R)
      S 0x300B (P.length + B.length + 1 + 1) (by simp; omega) (by
        intro x hx
        have hd : (P ++ [0xFF5C] ++ B ++ [0x300A] ++ R).drop (P.length + B.length + 1 + 1) = R := by
          have : P.length + B.length + 1 + 1 = (P ++ [0xFF5C] ++ B ++ [0x300A]).length := by
            simp only [List.length_append, List.length_cons, List.length_nil]
            omega
          rw [this, List.drop_left]
        rw [hd] at hx
        simp [(hR x hx).2.2]) (by decide)
    rw [this]
    simp only [List.length_append, List.length_cons, List.length_nil]
    congr 1
    omega
  have f4 : findRubyStartTag text (P.length + B.length + R.length + 2 + 1) = none := by
    unfold findRubyStartTag
    refine findTag_none _ text _ ?_
    intro x hx
    have hd : text.drop (P.length + B.length + R.length + 2 + 1) = S := by
      rw [e3]
      have : P.length + B.length + R.length + 2 + 1
          = (P ++ [0xFF5C] ++ B ++ [0x300A] ++ R ++ [0x300B]).length := by
        simp only [List.length_append, List.length_cons, List.length_nil]
        omega
      rw [this]
      have e4 : (P ++ [0xFF5C] ++ B ++ [0x300A] ++ R) ++ 0x300B :: S
          = (P ++ [0xFF5C] ++ B ++ [0x300A] ++ R ++ [0x300B]) ++ S := by simp
      rw [e4, List.drop_left]
    rw [hd] at hx
    have := hS x hx
    simp [this.1, this.2.1]
  -- the two extracted strings
  have s1 : substr text (P.length + 1) (sizeSub (sizeSub (P.length + B.length + 1) P.length) 1)
      = some B := by
    have q1 : sizeSub (P.length + B.length + 1) P.length = P.length + B.length + 1 - P.length :=
      LineBreaker.sizeSub_of_le (by omega)
    have q2 : sizeSub (P.length + B.length + 1 - P.length) 1
        = P.length + B.length + 1 - P.length - 1 := LineBreaker.sizeSub_of_le (by omega)
    rw [q1, q2, LineBreaker.substr_of_le (by omega)]
    have : P.length + B.length + 1 - P.length - 1 = B.length := by omega
    rw [this, e2]
    have hd : (P ++ [0xFF5C] ++ B ++ 0x300A :: (R ++ [0x300B] ++ S)).drop (P.length + 1)
        = B ++ 0x300A :: (R ++ [0x300B] ++ S) := by
      have : P.length + 1 = (P ++ [0xFF5C]).length := by simp
      rw [this, List.append_assoc (P ++ [0xFF5C]), List.drop_left]
    rw [hd, List.take_left]
  have s2 : substr text (P.length + B.length + 1 + 1)
      (sizeSub (sizeSub (P.length + B.length + R.length + 2) (P.length + B.length + 1)) 1)
      = some R := by
    have q1 : sizeSub (P.length + B.length + R.length + 2) (P.length + B.length + 1)
        = P.length + B.length + R.length + 2 - (P.length + B.length + 1) :=
      LineBreaker.sizeSub_of_le (by omega)
    have q2 : sizeSub (P.length + B.length + R.length + 2 - (P.length + B.length + 1)) 1
        = P.length + B.length + R.length + 2 - (P.length + B.length + 1) - 1 :=
      LineBreaker.sizeSub_of_le (by omega)
    rw [q1, q2, LineBreaker.substr_of_le (by omega)]
    have : P.length + B.length + R.length + 2 - (P.length + B.length + 1) - 1 = R.length := by
      omega
    rw [this, e3]
    have hd : (P ++ [0xFF5C] ++ B ++ [0x300A] ++ R ++ 0x300B :: S).drop
        (P.length + B.length + 1 + 1) = R ++ 0x300B :: S := by
      have : P.length + B.length + 1 + 1 = (P ++ [0xFF5C] ++ B ++ [0x300A]).length := by
        simp only [List.length_append, List.length_cons, List.length_nil]
        omega
      rw [this, List.append_assoc (P ++ [0xFF5C] ++ B ++ [0x300A]), List.drop_left]
    rw [hd, List.take_left]
  unfold parseRuby
  have hfuel : text.length + 1 = (text.length - 1) + 1 + 1 := by omega
  rw [hfuel, parseRubyLoop, if_pos (by omega), f1]
  simp only []
  rw [f2]
  simp only []
  rw [f3]
  simp only []
  rw [s1, s2]
  simp only [List.nil_append]
  rw [parseRubyLoop]
  split_ifs with hlt
  · rw [f4]
  · rfl

end RubyProcessor

namespace CommandLineInterface

/-! ### The command line (C22) -/

theorem parseArgs_flag (stod : List Char → Option (Option ℚ)) (o : CommandLineOptions)
    (arg : List Char) (rest : List (List Char)) (h : arg ∈ flagNames) :
    ∃ o1, parseArgs stod o (arg :: rest) = parseArgs stod o1 rest
      ∧ o1.inputFile = o.inputFile ∧ o1.outputFormat = o.outputFormat := by
  simp only [flagNames, List.map_cons, List.map_nil, List.mem_cons, List.mem_singleton,
    List.not_mem_nil, or_false] at h
  rcases h with rfl | rfl | rfl | rfl | rfl | rfl | rfl
  · exact ⟨{ o with help := true }, by rw [parseArgs.eq_def]; simp, rfl, rfl⟩
  · exact ⟨{ o with help := true }, by rw [parseArgs.eq_def]; simp, rfl, rfl⟩
  · exact ⟨{ o with version := true }, by rw [parseArgs.eq_def]; simp, rfl, rfl⟩
  · exact ⟨{ o with version := true }, by rw [parseArgs.eq_def]; simp, rfl, rfl⟩
  · exact ⟨{ o with verbose := true }, by rw [parseArgs.eq_def]; simp, rfl, rfl⟩
  · exact ⟨{ o with vertical := false }, by rw [parseArgs.eq_def]; simp, rfl, rfl⟩
  · exact ⟨{ o with vertical := true }, by rw [parseArgs.eq_def]; simp, rfl, rfl⟩

theorem parseArgs_last (stod : List Char → Option (Option ℚ)) (o : CommandLineOptions)
    (arg : List Char) (h : arg ∈ stringOptionNames ∨ arg ∈ numberOptionNames) :
    parseArgs stod o [arg] = some o := by
  simp only [stringOptionNames, numberOptionNames, List.map_cons, List.map_nil, List.mem_cons,
    List.mem_singleton, List.not_mem_nil, or_false] at h
  rcases h with (rfl | rfl | rfl | rfl | rfl | rfl | rfl | rfl | rfl)
    | (rfl | rfl | rfl | rfl | rfl | rfl | rfl | rfl) <;>
  · rw [parseArgs.eq_def]; simp

theorem parseArgs_input (stod : List Char → Option (Option ℚ)) (o : CommandLineOptions)
    (arg value : List Char) (rest : List (List Char))
    (h : arg = "-i".toList ∨ arg = "--input".toList) :
    parseArgs stod o (arg :: value :: rest) = parseArgs stod { o with inputFile := value } rest := by
  rcases h with rfl | rfl <;>
  · rw [parseArgs.eq_def]; simp

theorem parseArgs_format (stod : List Char → Option (Option ℚ)) (o : CommandLineOptions)
    (arg value : List Char) (rest : List (List Char))
    (h : arg = "-f".toList ∨ arg = "--format".toList) :
    parseArgs stod o (arg :: value :: rest) = parseArgs stod (setOutputFormat o value) rest := by
  rcases h with rfl | rfl <;>
  · rw [parseArgs.eq_def]; simp

theorem parseArgs_string (stod : List Char → Option (Option ℚ)) (o : CommandLineOptions)
    (arg value : List Char) (rest : List (List Char))
    (h : arg = "-o".toList ∨ arg = "--output".toList ∨ arg = "-s".toList ∨ arg = "--style".toList
      ∨ arg = "--font-family".toList) :
    ∃ o1, parseArgs stod o (arg :: value :: rest) = parseArgs stod o1 rest
      ∧ o1.inputFile = o.inputFile ∧ o1.outputFormat = o.outputFormat := by
  rcases h with rfl | rfl | rfl | rfl | rfl
  · exact ⟨{ o with outputFile := value }, by rw [parseArgs.eq_def]; simp, rfl, rfl⟩
  · exact ⟨{ o with outputFile := value }, by rw [parseArgs.eq_def]; simp, rfl, rfl⟩
  · exact ⟨{ o with styleFile := value }, by rw [parseArgs.eq_def]; simp, rfl, rfl⟩
  · exact ⟨{ o with styleFile := value }, by rw [parseArgs.eq_def]; simp, rfl, rfl⟩
  · exact ⟨{ o with fontFamily := value }, by rw [parseArgs.eq_def]; simp, rfl, rfl⟩

theorem parseArgs_number (stod : List Char → Option (Option ℚ)) (o : CommandLineOptions)
    (arg value : List Char) (rest : List (List Char)) (h : arg ∈ numberOptionNames) :
    (stod value = none → parseArgs stod o (arg :: value :: rest) = none)
    ∧ (∀ d, stod value = some d →
        ∃ o1, parseArgs stod o (arg :: value :: rest) = parseArgs stod o1 rest
          ∧ o1.inputFile = o.inputFile ∧ o1.outputFormat = o.outputFormat) := by
  simp only [numberOptionNames, List.map_cons, List.map_nil, List.mem_cons,
    List.mem_singleton, List.not_mem_nil, or_false] at h
  rcases h with rfl | rfl | rfl | rfl | rfl | rfl | rfl | rfl
  · exact ⟨fun hs => by rw [parseArgs.eq_def]; simp [hs],
      fun d hs => ⟨{ o with pageWidth := d }, by rw [parseArgs.eq_def]; simp [hs], rfl, rfl⟩⟩
  · exact ⟨fun hs => by rw [parseArgs.eq_def]; simp [hs],
      fun d hs => ⟨{ o with pageHeight := d }, by rw [parseArgs.eq_def]; simp [hs], rfl, rfl⟩⟩
  · exact ⟨fun hs => by rw [parseArgs.eq_def]; simp [hs],
      fun d hs => ⟨{ o with marginTop := d }, by rw [parseArgs.eq_def]; simp [hs], rfl, rfl⟩⟩
  · exact ⟨fun hs => by rw [parseArgs.eq_def]; simp [hs],
      fun d hs => ⟨{ o with marginBottom := d }, by rw [parseArgs.eq_def]; simp [hs], rfl, rfl⟩⟩
  · exact ⟨fun hs => by rw [parseArgs.eq_def]; simp [hs],
      fun d hs => ⟨{ o with marginLeft := d }, by rw [parseArgs.eq_def]; simp [hs], rfl, rfl⟩⟩
  · exact ⟨fun hs => by rw [parseArgs.eq_def]; simp [hs],
      fun d hs => ⟨{ o with marginRight := d }, by rw [parseArgs.eq_def]; simp [hs], rfl, rfl⟩⟩
  · exact ⟨fun hs => by rw [parseArgs.eq_def]; simp [hs],
      fun d hs => ⟨{ o with fontSize := d }, by rw [parseArgs.eq_def]; simp [hs], rfl, rfl⟩⟩
  · exact ⟨fun hs => by rw [parseArgs.eq_def]; simp [hs],
      fun d hs => ⟨{ o with lineHeight := d }, by rw [parseArgs.eq_def]; simp [hs], rfl, rfl⟩⟩

/-- An argument that is no known option reaches the last three branches of
the loop. -/
theorem parseArgs_unknown (stod : List Char → Option (Option ℚ)) (o : CommandLineOptions)
    (arg : List Char) (rest : List (List Char)) (h1 : arg ∉ flagNames)
    (h2 : arg ∉ stringOptionNames) (h3 : arg ∉ numberOptionNames) :
    parseArgs stod o (arg :: rest) =
      if arg.take 2 = "--".toList then
        if rest.head?.map (fun value => decide (value.head? ≠ some '-')) = some true then
          match rest with
          | value :: rest' =>
            parseArgs stod
              { o with extraOptions := Function.update o.extraOptions (arg.drop 2) value } rest'
          | [] => some o
        else
          parseArgs stod
            { o with extraOptions := Function.update o.extraOptions (arg.drop 2) "true".toList }
            rest
      else if o.inputFile = [] then parseArgs stod { o with inputFile := arg } rest
      else if o.outputFile = [] then parseArgs stod { o with outputFile := arg } rest
      else parseArgs stod o rest := by
  simp only [flagNames, stringOptionNames, numberOptionNames, List.map_cons, List.map_nil,
    List.mem_cons, List.mem_singleton, List.not_mem_nil, or_false, not_or] at h1 h2 h3
  obtain ⟨a1, a2, a3, a4, a5, a6, a7⟩ := h1
  obtain ⟨b1, b2, b3, b4, b5, b6, b7, b8, b9⟩ := h2
  obtain ⟨c1, c2, c3, c4, c5, c6, c7, c8⟩ := h3
  rw [parseArgs.eq_def]
  simp only [a1, a2, a3, a4, a5, a6, a7, b1, b2, b3, b4, b5, b6, b7, b8, b9, c1, c2, c3, c4, c5,
    c6, c7, c8, or_self, if_false]

end CommandLineInterface

namespace CommandLineInterface

theorem valuesOf_option (names : List (List Char)) (a : List Char) (l : List ArgItem) :
    valuesOf names (ArgItem.option a :: l) = valuesOf names l := by
  simp [valuesOf]

theorem valuesOf_other (names : List (List Char)) (a : List Char) (l : List ArgItem) :
    valuesOf names (ArgItem.other a :: l) = valuesOf names l := by
  simp [valuesOf]

theorem valuesOf_optionValue (names : List (List Char)) (a v : List Char) (l : List ArgItem) :
    valuesOf names (ArgItem.optionValue a v :: l)
      = if a ∈ names then v :: valuesOf names l else valuesOf names l := by
  by_cases h : a ∈ names <;> simp [valuesOf, h]

theorem otherArgs_option (a : List Char) (l : List ArgItem) :
    otherArgs (ArgItem.option a :: l) = otherArgs l := by
  simp [otherArgs]

theorem otherArgs_optionValue (a v : List Char) (l : List ArgItem) :
    otherArgs (ArgItem.optionValue a v :: l) = otherArgs l := by
  simp [otherArgs]

theorem otherArgs_other (a : List Char) (l : List ArgItem) :
    otherArgs (ArgItem.other a :: l) = a :: otherArgs l := by
  simp [otherArgs]

theorem readArgs_cons (arg : List Char) (rest : List (List Char)) :
    readArgs (arg :: rest) =
      if arg ∈ flagNames then ArgItem.option arg :: readArgs rest
      else if arg ∈ stringOptionNames ∨ arg ∈ numberOptionNames then
        match rest with
        | value :: rest' => ArgItem.optionValue arg value :: readArgs rest'
        | [] => [ArgItem.option arg]
      else if arg.take 2 = "--".toList then
        if rest.head?.map (fun value => decide (value.head? ≠ some '-')) = some true then
          match rest with
          | value :: rest' => ArgItem.optionValue arg value :: readArgs rest'
          | [] => [ArgItem.option arg]
        else ArgItem.option arg :: readArgs rest
      else ArgItem.other arg :: readArgs rest := by
  rw [readArgs.eq_def]

theorem readArgs_nil : readArgs [] = [] := by
  rw [readArgs.eq_def]

theorem inputFile_nil (o : CommandLineOptions) :
    o.inputFile = if o.inputFile = [] then [] else o.inputFile := by
  split_ifs with h
  · exact h
  · rfl

theorem readArgs_flag (arg : List Char) (rest : List (List Char)) (h : arg ∈ flagNames) :
    readArgs (arg :: rest) = ArgItem.option arg :: readArgs rest := by
  rw [readArgs_cons, if_pos h]

theorem readArgs_valued (arg value : List Char) (rest : List (List Char)) (h1 : arg ∉ flagNames)
    (h2 : arg ∈ stringOptionNames ∨ arg ∈ numberOptionNames) :
    readArgs (arg :: value :: rest) = ArgItem.optionValue arg value :: readArgs rest := by
  rw [readArgs_cons, if_neg h1, if_pos h2]

theorem readArgs_last (arg : List Char) (h1 : arg ∉ flagNames)
    (h2 : arg ∈ stringOptionNames ∨ arg ∈ numberOptionNames) :
    readArgs [arg] = [ArgItem.option arg] := by
  rw [readArgs_cons, if_neg h1, if_pos h2]

theorem names_disjoint (arg : List Char) :
    (arg ∈ stringOptionNames → arg ∉ flagNames)
    ∧ (arg ∈ numberOptionNames → arg ∉ flagNames)
    ∧ (arg ∈ numberOptionNames → arg ∉ stringOptionNames) := by
  refine ⟨?_, ?_, ?_⟩
  · intro h
    simp only [stringOptionNames, List.map_cons, List.map_nil, List.mem_cons,
      List.mem_singleton, List.not_mem_nil, or_false] at h
    rcases h with rfl | rfl | rfl | rfl | rfl | rfl | rfl | rfl | rfl <;> decide
  · intro h
    simp only [numberOptionNames, List.map_cons, List.map_nil, List.mem_cons,
      List.mem_singleton, List.not_mem_nil, or_false] at h
    rcases h with rfl | rfl | rfl | rfl | rfl | rfl | rfl | rfl <;> decide
  · intro h
    simp only [numberOptionNames, List.map_cons, List.map_nil, List.mem_cons,
      List.mem_singleton, List.not_mem_nil, or_false] at h
    rcases h with rfl | rfl | rfl | rfl | rfl | rfl | rfl | rfl <;> decide

theorem setOutputFormat_fields (o : CommandLineOptions) (value : List Char) :
    (setOutputFormat o value).outputFormat = formatOf value
    ∧ (setOutputFormat o value).inputFile = o.inputFile := by
  unfold setOutputFormat formatOf
  by_cases h : value = "pdf".toList ∨ value = "epub".toList ∨ value = "html".toList
  · rw [if_pos h, if_neg (by tauto)]
    exact ⟨rfl, rfl⟩
  · rw [if_neg h, if_pos (by tauto)]
    exact ⟨rfl, rfl⟩

theorem formatOf_valid (value : List Char) :
    formatOf value = "pdf".toList ∨ formatOf value = "epub".toList
      ∨ formatOf value = "html".toList := by
  unfold formatOf
  split_ifs with h
  · exact h
  · exact Or.inl rfl

/-- The loop on an argument list, started in any state: it returns when
`std::stod` accepts every value of a number option; the output format is then
that of the last `-f`/`--format` value, if any, and the input file, when no
`-i`/`--input` value is given and none was set before, is the first non-empty
argument that is neither an option nor the value of one. -/
theorem parseArgs_spec (stod : List Char → Option (Option ℚ)) :
    ∀ (n : Nat) (args : List (List Char)) (o : CommandLineOptions), args.length ≤ n →
      (∀ v ∈ valuesOf numberOptionNames (readArgs args), stod v ≠ none) →
      ∃ o', parseArgs stod o args = some o'
        ∧ o'.outputFormat
            = ((valuesOf ["-f".toList, "--format".toList] (readArgs args)).getLast?).elim
                o.outputFormat formatOf
        ∧ (valuesOf ["-i".toList, "--input".toList] (readArgs args) = [] →
            o'.inputFile = if o.inputFile = [] then
                ((otherArgs (readArgs args)).find? (fun arg => decide (arg ≠ []))).getD []
              else o.inputFile) := by
  intro n
  induction n with
  | zero =>
    intro args o hlen _
    have : args = [] := List.length_eq_zero.mp (Nat.le_zero.mp hlen)
    subst this
    refine ⟨o, by rw [parseArgs], by simp [readArgs_nil, valuesOf], ?_⟩
    intro _
    simp only [readArgs_nil, otherArgs, List.filterMap_nil, List.find?_nil, Option.getD_none]
    exact inputFile_nil o
  | succ n ih =>
    intro args o hlen hnum
    cases args with
    | nil =>
      refine ⟨o, by rw [parseArgs], by simp [readArgs_nil, valuesOf], ?_⟩
      intro _
      simp only [readArgs_nil, otherArgs, List.filterMap_nil, List.find?_nil, Option.getD_none]
      exact inputFile_nil o
    | cons arg rest =>
      have hrest : rest.length ≤ n := by simpa using hlen
      by_cases hflag : arg ∈ flagNames
      · -- an option without value
        obtain ⟨o1, e1, i1, f1⟩ := parseArgs_flag stod o arg rest hflag
        rw [readArgs_flag arg rest hflag] at hnum ⊢
        simp only [valuesOf_option, otherArgs_option] at hnum ⊢
        obtain ⟨o', p1, p2, p3⟩ := ih rest o1 hrest hnum
        exact ⟨o', by rw [e1, p1], by rw [p2, f1], fun h => by rw [p3 h, i1]⟩
      by_cases hval : arg ∈ stringOptionNames ∨ arg ∈ numberOptionNames
      · cases rest with
        | nil =>
          rw [readArgs_last arg hflag hval]
          refine ⟨o, parseArgs_last stod o arg hval, by simp [valuesOf], ?_⟩
          intro _
          simp only [otherArgs, List.filterMap_cons, List.filterMap_nil, List.find?_nil,
            Option.getD_none]
          exact inputFile_nil o
        | cons value rest =>
          have hrest2 : rest.length ≤ n := by simp at hrest; omega
          rw [readArgs_valued arg value rest hflag hval] at hnum ⊢
          simp only [valuesOf_optionValue, otherArgs_optionValue] at hnum ⊢
          rcases hval with hs | hn
          · have hnn : arg ∉ numberOptionNames := fun h => (names_disjoint arg).2.2 h hs
            rw [if_neg hnn] at hnum
            simp only [stringOptionNames, List.map_cons, List.map_nil, List.mem_cons,
              List.mem_singleton, List.not_mem_nil, or_false] at hs
            rcases hs with hi | hi | ho | ho | hf | hf | ho | ho | ho
            -- `-i`, `--input`
            · obtain ⟨o', p1, p2, _⟩ := ih rest { o with inputFile := value } hrest2 hnum
              refine ⟨o', by rw [parseArgs_input stod o arg value rest (Or.inl hi), p1], ?_, ?_⟩
              · rw [p2, hi]
                simp
              · rw [hi]
                simp
            · obtain ⟨o', p1, p2, _⟩ := ih rest { o with inputFile := value } hrest2 hnum
              refine ⟨o', by rw [parseArgs_input stod o arg value rest (Or.inr hi), p1], ?_, ?_⟩
              · rw [p2, hi]
                simp
              · rw [hi]
                simp
            -- `-o`, `--output`
            · obtain ⟨o1, e1, i1, f1⟩ := parseArgs_string stod o arg value rest (Or.inl ho)
              obtain ⟨o', p1, p2, p3⟩ := ih rest o1 hrest2 hnum
              refine ⟨o', by rw [e1, p1], ?_, ?_⟩
              · rw [p2, f1, ho]
                simp
              · rw [ho]
                simp only [List.mem_cons, List.mem_singleton, List.not_mem_nil, or_false]
                rw [if_neg (by decide)]
                intro h
                rw [p3 h, i1]
            · obtain ⟨o1, e1, i1, f1⟩ := parseArgs_string stod o arg value rest (Or.inr (Or.inl ho))
              obtain ⟨o', p1, p2, p3⟩ := ih rest o1 hrest2 hnum
              refine ⟨o', by rw [e1, p1], ?_, ?_⟩
              · rw [p2, f1, ho]
                simp
              · rw [ho]
                simp only [List.mem_cons, List.mem_singleton, List.not_mem_nil, or_false]
                rw [if_neg (by decide)]
                intro h
                rw [p3 h, i1]
            -- `-f`, `--format`
            · obtain ⟨g1, g2⟩ := setOutputFormat_fields o value
              obtain ⟨o', p1, p2, p3⟩ := ih rest (setOutputFormat o value) hrest2 hnum
              refine ⟨o', by rw [parseArgs_format stod o arg value rest (Or.inl hf), p1], ?_, ?_⟩
              · rw [p2, g1, hf]
                rw [if_pos (by decide)]
                cases hl : valuesOf ["-f".toList, "--format".toList] (readArgs rest) with
                | nil => simp
                | cons a l =>
                  rw [List.getLast?_cons_cons]
                  cases hg : (a :: l).getLast? with
                  | none => simp at hg
                  | some z => rfl
              · rw [hf]
                simp only [List.mem_cons, List.mem_singleton, List.not_mem_nil, or_false]
                rw [if_neg (by decide)]
                intro h
                rw [p3 h, g2]
            · obtain ⟨g1, g2⟩ := setOutputFormat_fields o value
              obtain ⟨o', p1, p2, p3⟩ := ih rest (setOutputFormat o value) hrest2 hnum
              refine ⟨o', by rw [parseArgs_format stod o arg value rest (Or.inr hf), p1], ?_, ?_⟩
              · rw [p2, g1, hf]
                rw [if_pos (by decide)]
                cases hl : valuesOf ["-f".toList, "--format".toList] (readArgs rest) with
                | nil => simp
                | cons a l =>
                  rw [List.getLast?_cons_cons]
                  cases hg : (a :: l).getLast? with
                  | none => simp at hg
                  | some z => rfl
              · rw [hf]
                simp only [List.mem_cons, List.mem_singleton, List.not_mem_nil, or_false]
                rw [if_neg (by decide)]
                intro h
                rw [p3 h, g2]
            -- `-s`, `--style`, `--font-family`
            · obtain ⟨o1, e1, i1, f1⟩ := parseArgs_string stod o arg value rest
                (Or.inr (Or.inr (Or.inl ho)))
              obtain ⟨o', p1, p2, p3⟩ := ih rest o1 hrest2 hnum
              refine ⟨o', by rw [e1, p1], ?_, ?_⟩
              · rw [p2, f1, ho]
                simp
              · rw [ho]
                simp only [List.mem_cons, List.mem_singleton, List.not_mem_nil, or_false]
                rw [if_neg (by decide)]
                intro h
                rw [p3 h, i1]
            · obtain ⟨o1, e1, i1, f1⟩ := parseArgs_string stod o arg value rest
                (Or.inr (Or.inr (Or.inr (Or.inl ho))))
              obtain ⟨o', p1, p2, p3⟩ := ih rest o1 hrest2 hnum
              refine ⟨o', by rw [e1, p1], ?_, ?_⟩
              · rw [p2, f1, ho]
                simp
              · rw [ho]
                simp only [List.mem_cons, List.mem_singleton, List.not_mem_nil, or_false]
                rw [if_neg (by decide)]
                intro h
                rw [p3 h, i1]
            · obtain ⟨o1, e1, i1, f1⟩ := parseArgs_string stod o arg value rest
                (Or.inr (Or.inr (Or.inr (Or.inr ho))))
              obtain ⟨o', p1, p2, p3⟩ := ih rest o1 hrest2 hnum
              refine ⟨o', by rw [e1, p1], ?_, ?_⟩
              · rw [p2, f1, ho]
                simp
              · rw [ho]
                simp only [List.mem_cons, List.mem_singleton, List.not_mem_nil, or_false]
                rw [if_neg (by decide)]
                intro h
                rw [p3 h, i1]
          · -- an option whose value is a number
            rw [if_pos hn] at hnum
            have hv : stod value ≠ none := hnum value (List.mem_cons_self _ _)
            obtain ⟨d, hd⟩ := Option.ne_none_iff_exists'.mp hv
            obtain ⟨o1, e1, i1, f1⟩ := (parseArgs_number stod o arg value rest hn).2 d hd
            obtain ⟨o', p1, p2, p3⟩ := ih rest o1 hrest2
              (fun v hv => hnum v (List.mem_cons_of_mem _ hv))
            have hnf : arg ∉ ["-f".toList, "--format".toList] := by
              intro h
              exact (names_disjoint arg).2.2 hn (by
                simp only [List.mem_cons, List.mem_singleton, List.not_mem_nil, or_false] at h
                rcases h with rfl | rfl <;> decide)
            have hni : arg ∉ ["-i".toList, "--input".toList] := by
              intro h
              exact (names_disjoint arg).2.2 hn (by
                simp only [List.mem_cons, List.mem_singleton, List.not_mem_nil, or_false] at h
                rcases h with rfl | rfl <;> decide)
            rw [if_neg hnf, if_neg hni]
            exact ⟨o', by rw [e1, p1], by rw [p2, f1], fun h => by rw [p3 h, i1]⟩
      · -- no known option
        have hs : arg ∉ stringOptionNames := fun h => hval (Or.inl h)
        have hn : arg ∉ numberOptionNames := fun h => hval (Or.inr h)
        have e := parseArgs_unknown stod o arg rest hflag hs hn
        rw [readArgs_cons, if_neg hflag, if_neg hval] at hnum ⊢
        by_cases hdash : arg.take 2 = "--".toList
        · rw [if_pos hdash] at e hnum ⊢
          have hnf : arg ∉ ["-f".toList, "--format".toList] := by
            intro h
            exact hs (by
              simp only [List.mem_cons, List.mem_singleton, List.not_mem_nil, or_false] at h
              rcases h with rfl | rfl <;> decide)
          have hni : arg ∉ ["-i".toList, "--input".toList] := by
            intro h
            exact hs (by
              simp only [List.mem_cons, List.mem_singleton, List.not_mem_nil, or_false] at h
              rcases h with rfl | rfl <;> decide)
          by_cases hc : rest.head?.map (fun value => decide (value.head? ≠ some '-')) = some true
          · rw [if_pos hc] at e hnum ⊢
            cases rest with
            | nil => simp at hc
            | cons value rest =>
              have hrest2 : rest.length ≤ n := by simp at hrest; omega
              simp only [] at e hnum ⊢
              simp only [valuesOf_optionValue, otherArgs_optionValue, if_neg hn, if_neg hnf,
                if_neg hni] at hnum ⊢
              obtain ⟨o', p1, p2, p3⟩ := ih rest
                { o with extraOptions := Function.update o.extraOptions (arg.drop 2) value }
                hrest2 hnum
              exact ⟨o', by rw [e, p1], p2, p3⟩
          · rw [if_neg hc] at e hnum ⊢
            simp only [valuesOf_option, otherArgs_option] at hnum ⊢
            obtain ⟨o', p1, p2, p3⟩ := ih rest
              { o with
                extraOptions := Function.update o.extraOptions (arg.drop 2) "true".toList }
              hrest hnum
            exact ⟨o', by rw [e, p1], p2, p3⟩
        · rw [if_neg hdash] at e hnum ⊢
          simp only [valuesOf_other, otherArgs_other] at hnum ⊢
          by_cases hin : o.inputFile = []
          · rw [if_pos hin] at e
            obtain ⟨o', p1, p2, p3⟩ := ih rest { o with inputFile := arg } hrest hnum
            refine ⟨o', by rw [e, p1], p2, ?_⟩
            intro h
            rw [p3 h, if_pos hin]
            by_cases ha : arg = []
            · simp [ha]
            · simp [ha]
          · rw [if_neg hin] at e
            by_cases hout : o.outputFile = []
            · rw [if_pos hout] at e
              obtain ⟨o', p1, p2, p3⟩ := ih rest { o with outputFile := arg } hrest hnum
              refine ⟨o', by rw [e, p1], p2, ?_⟩
              intro h
              rw [p3 h]
              simp [hin]
            · rw [if_neg hout] at e
              obtain ⟨o', p1, p2, p3⟩ := ih rest o hrest hnum
              refine ⟨o', by rw [e, p1], p2, ?_⟩
              intro h
              rw [p3 h, if_neg hin, if_neg hin]

end CommandLineInterface

namespace CommandLineInterface

/-- C22 (amended). For every argument vector in which `std::stod` accepts the
value of every number option, `parseCommandLine` returns options whose
`outputFormat` is one of "pdf", "epub", "html": "pdf" when no `-f`/`--format`
value is given, the last such value when it is one of the three, "pdf" when it
is anything else; and when no `-i`/`--input` value is given, `inputFile` is
the first non-empty argument that is neither an option nor the value of an
option (empty when there is none). -/
theorem parseCommandLine_spec (stod : List Char → Option (Option ℚ)) (argv : List (List Char))
    (hnum : ∀ v ∈ valuesOf numberOptionNames (readArgs (argv.drop 1)), stod v ≠ none) :
    ∃ options, parseCommandLine stod argv = some options
      ∧ (options.outputFormat = "pdf".toList ∨ options.outputFormat = "epub".toList
          ∨ options.outputFormat = "html".toList)
      ∧ options.outputFormat = expectedOutputFormat (argv.drop 1)
      ∧ (valuesOf ["-i".toList, "--input".toList] (readArgs (argv.drop 1)) = [] →
          options.inputFile = firstOtherArg (argv.drop 1)) := by
  obtain ⟨o', p1, p2, p3⟩ := parseArgs_spec stod (argv.drop 1).length (argv.drop 1)
    defaultOptions (le_refl _) hnum
  have hfmt : o'.outputFormat = expectedOutputFormat (argv.drop 1) := by
    rw [p2]
    unfold expectedOutputFormat
    cases (valuesOf ["-f".toList, "--format".toList] (readArgs (argv.drop 1))).getLast? with
    | none => rfl
    | some v => rfl
  refine ⟨o', p1, ?_, hfmt, ?_⟩
  · rw [hfmt]
    unfold expectedOutputFormat
    cases (valuesOf ["-f".toList, "--format".toList] (readArgs (argv.drop 1))).getLast? with
    | none => exact Or.inl rfl
    | some v => exact formatOf_valid v
  · intro h
    have hd : defaultOptions.inputFile = [] := rfl
    rw [p3 h, if_pos hd]
    rfl

/-- C22 (amended), the example of the unit test: `input.txt -f html`. -/
theorem parseCommandLine_spec_witness :
    ∃ options, parseCommandLine (fun _ => none)
        ["japanese-typesetting".toList, "input.txt".toList, "-f".toList, "html".toList]
          = some options
      ∧ options.inputFile = "input.txt".toList ∧ options.outputFormat = "html".toList := by
  obtain ⟨o, h1, _, h3, h4⟩ := parseCommandLine_spec (fun _ => none)
    ["japanese-typesetting".toList, "input.txt".toList, "-f".toList, "html".toList]
    (by decide)
  exact ⟨o, h1, (h4 (by decide)).trans (by decide), h3.trans (by decide)⟩

/-- C22, counterexample to the claim as stated: in `-i a.txt b.txt` the first
argument that is neither an option nor the value of one is `b.txt`, but it
becomes the output file and `inputFile` is `a.txt`; and for
`--page-width abc` the call does not return when `std::stod` throws on
`abc`. -/
theorem parseCommandLine_counterexample :
    otherArgs (readArgs ["-i".toList, "a.txt".toList, "b.txt".toList]) = ["b.txt".toList]
    ∧ (parseCommandLine (fun _ => none)
        ["japanese-typesetting".toList, "-i".toList, "a.txt".toList, "b.txt".toList]).map
          (fun o => (o.inputFile, o.outputFile)) = some ("a.txt".toList, "b.txt".toList)
    ∧ ∀ stod : List Char → Option (Option ℚ), stod "abc".toList = none →
        parseCommandLine stod
          ["japanese-typesetting".toList, "--page-width".toList, "abc".toList] = none := by
  refine ⟨by decide, by decide, ?_⟩
  intro stod hs
  exact (parseArgs_number stod defaultOptions "--page-width".toList "abc".toList []
    (by decide)).1 hs

end CommandLineInterface

namespace PluginManager

/-! ### Registration of plugins (C24) -/

theorem resolveDependenciesLoop_eq_true {P : Type} (c : PluginClass P)
    (m : List Char → Option P) (deps : List (List Char)) :
    resolveDependenciesLoop c m deps = true
      ↔ ∀ d ∈ deps, ∃ dep, m d = some dep ∧ c.isEnabled dep = true := by
  induction deps with
  | nil => simp [resolveDependenciesLoop]
  | cons d rest ih =>
    rw [resolveDependenciesLoop]
    cases hm : m d with
    | none =>
      simp only [List.mem_cons, forall_eq_or_imp, hm]
      simp
    | some dep =>
      simp only [List.mem_cons, forall_eq_or_imp, hm]
      by_cases he : c.isEnabled dep = false
      · simp [he]
      · rw [if_neg he, ih]
        have he2 : c.isEnabled dep = true := by simpa using he
        simp [he2]

/-- C24 (amended). `registerPlugin` enforces dependencies: for every registry
state and plugin `p` with an id not yet registered whose `initialize`
succeeds, if every id in the dependency list of `p` is registered and enabled
then `getPlugin(p.id)` returns `p` afterwards, every other entry is unchanged,
and the call returns `true` provided that `enable` succeeds when the info of
`p` is flagged enabled; if some dependency is missing or disabled the call
returns `false` and the set of registered plugins is unchanged. -/
theorem registerPlugin_dependencies {P : Type} (c : PluginClass P)
    (m : List Char → Option P) (p : P) (hnew : m (c.getInfo p).id = none)
    (hinit : (c.initializePlugin p).1 = true) :
    (dependenciesMet c m p →
      getPlugin (registerPlugin c m (some p)).2 (c.getInfo p).id = some (afterRegistration c p)
      ∧ (∀ other, other ≠ (c.getInfo p).id →
          getPlugin (registerPlugin c m (some p)).2 other = getPlugin m other)
      ∧ (((c.getInfo p).enabled = true → (c.enable (c.initializePlugin p).2).1 = true) →
          (registerPlugin c m (some p)).1 = true))
    ∧ (¬ dependenciesMet c m p → registerPlugin c m (some p) = (false, m)) := by
  have hsome : ¬ (m (c.getInfo p).id).isSome = true := by rw [hnew]; simp
  have hinit2 : ¬ (c.initializePlugin p).1 = false := by rw [hinit]; simp
  refine ⟨?_, ?_⟩
  · intro hdeps
    have hres : ¬ resolveDependencies c m p = false := by
      have : resolveDependencies c m p = true :=
        (resolveDependenciesLoop_eq_true c m _).mpr hdeps
      rw [this]; simp
    unfold registerPlugin getPlugin afterRegistration
    simp only [if_neg hsome, if_neg hres, if_neg hinit2]
    by_cases hen : (c.getInfo p).enabled = true
    · simp only [if_pos hen]
      by_cases hok : (c.enable (c.initializePlugin p).2).1 = false
      · simp only [if_pos hok]
        refine ⟨by simp, fun other ho => by simp [Function.update, ho], ?_⟩
        intro h
        rw [h hen] at hok
        exact absurd hok (by simp)
      · simp only [if_neg hok]
        exact ⟨by simp, fun other ho => by simp [Function.update, ho], fun _ => trivial⟩
    · simp only [if_neg hen]
      exact ⟨by simp, fun other ho => by simp [Function.update, ho], fun _ => trivial⟩
  · intro hdeps
    have hres : resolveDependencies c m p = false := by
      by_contra h
      exact hdeps ((resolveDependenciesLoop_eq_true c m _).mp (by simpa using h))
    unfold registerPlugin
    simp only [if_neg hsome, if_pos hres]

/-- C24 (amended), worked example: a plugin that depends on a registered and
enabled plugin is registered; one that depends on a missing plugin is not. -/
theorem registerPlugin_dependencies_witness :
    (registerPlugin examplePluginClass
        (fun i => if i = "dep".toList then
          some { id := "dep".toList, dependencies := [], enabled := true, canEnable := true }
          else none)
        (some { id := "p".toList, dependencies := ["dep".toList], enabled := false,
                canEnable := true })).1 = true
    ∧ (registerPlugin examplePluginClass (fun _ => none)
        (some { id := "p".toList, dependencies := ["dep".toList], enabled := false,
                canEnable := true })).1 = false := by
  have h1 := registerPlugin_dependencies examplePluginClass
    (fun i => if i = "dep".toList then
      some { id := "dep".toList, dependencies := [], enabled := true, canEnable := true }
      else none)
    { id := "p".toList, dependencies := ["dep".toList], enabled := false, canEnable := true }
    (by decide) rfl
  have h2 := registerPlugin_dependencies examplePluginClass (fun _ => none)
    { id := "p".toList, dependencies := ["dep".toList], enabled := false, canEnable := true }
    rfl rfl
  refine ⟨(h1.1 ?_).2.2 (fun h => absurd h (by decide)), ?_⟩
  · intro d hd
    have hd' : d = "dep".toList := by simpa [examplePluginClass] using hd
    subst hd'
    exact ⟨_, rfl, rfl⟩
  · rw [h2.2 ?_]
    intro hmet
    obtain ⟨dep, hdep, _⟩ := hmet "dep".toList (by simp [examplePluginClass])
    simp at hdep

/-- C24, counterexample to the claim as stated: a plugin without dependencies
whose `initialize` succeeds, whose info is flagged enabled and whose `enable`
fails: `registerPlugin` on the empty registry returns `false`, although every
dependency is registered and enabled; the plugin is registered all the same. -/
theorem registerPlugin_counterexample :
    dependenciesMet examplePluginClass (fun _ => none)
      { id := "p".toList, dependencies := [], enabled := true, canEnable := false }
    ∧ (examplePluginClass.initializePlugin
        { id := "p".toList, dependencies := [], enabled := true, canEnable := false }).1 = true
    ∧ (registerPlugin examplePluginClass (fun _ => none)
        (some { id := "p".toList, dependencies := [], enabled := true,
                canEnable := false })).1 = false
    ∧ getPlugin (registerPlugin examplePluginClass (fun _ => none)
        (some { id := "p".toList, dependencies := [], enabled := true,
                canEnable := false })).2 "p".toList
      = some { id := "p".toList, dependencies := [], enabled := true, canEnable := false } := by
  refine ⟨?_, rfl, by decide, by decide⟩
  intro d hd
  simp [examplePluginClass] at hd

end PluginManager

namespace SampleRubyPlugin

/-! ### The sample ruby plugin (C23) -/

/-- C23. The example of the unit test fails in two ways. The constructor
stores the literal "《》" in the configuration as a `const char*`, so for a
plugin that is only enabled `applyRuby` throws `std::bad_any_cast`. And when
`rubyFormat` is set to the `std::string` "《》", `substr(0, 1)` and
`substr(1, 1)` take the first two bytes (E3, 80) of the three-byte encoding of
`《`, so the result is not "日本語《にほんご》の漢字《かんじ》について". With the one-byte
characters of "()" the result is the expected one. -/
theorem applyRuby_multibyte_format :
    applyRuby literalReplace new.enable (utf8 "日本語の漢字について") = ApplyRubyResult.badAnyCast
    ∧ applyRuby literalReplace
        (new.enable.setConfig (utf8 "rubyFormat") (AnyValue.string (utf8 "《》")))
        (utf8 "日本語の漢字について")
      = ApplyRubyResult.returned
          (utf8 "日本語" ++ [0xE3] ++ utf8 "にほんご" ++ [0x80] ++ utf8 "の漢字" ++ [0xE3]
            ++ utf8 "かんじ" ++ [0x80] ++ utf8 "について")
    ∧ applyRuby literalReplace
        (new.enable.setConfig (utf8 "rubyFormat") (AnyValue.string (utf8 "《》")))
        (utf8 "日本語の漢字について")
      ≠ ApplyRubyResult.returned (utf8 "日本語《にほんご》の漢字《かんじ》について")
    ∧ applyRuby literalReplace
        (new.enable.setConfig (utf8 "rubyFormat") (AnyValue.string (utf8 "()")))
        (utf8 "日本語の漢字について")
      = ApplyRubyResult.returned (utf8 "日本語(にほんご)の漢字(かんじ)について") := by
  refine ⟨by decide!, by decide!, by decide!, by decide!⟩

end SampleRubyPlugin

namespace LineBreaker

/-! ### The width constraint of the solver (C25) -/

end LineBreaker

namespace LineBreaker

end LineBreaker

namespace TypesettingEngine

/-- C26, worked example: "あ（" and "い" with exact widths; the adjustment moves
`（` to the second line and both widths stay exact. -/
theorem applyProhibitionRules_width_witness :
    ((applyProhibitionRules TypesettingRules.new exampleHandler
        [exampleLine [0x3042, 0xFF08] 20, exampleLine [0x3044] 10] exampleStyle false).map
          TextLine.width).sum = 30
    ∧ ∀ l ∈ applyProhibitionRules TypesettingRules.new exampleHandler
        [exampleLine [0x3042, 0xFF08] 20, exampleLine [0x3044] 10] exampleStyle false,
        l.width = textWidth exampleHandler exampleStyle false l.text :=
  have h := applyProhibitionRules_width TypesettingRules.new exampleHandler
    [exampleLine [0x3042, 0xFF08] 20, exampleLine [0x3044] 10] exampleStyle false
  ⟨h.1.trans (by decide!), h.2 (by decide!)⟩

end TypesettingEngine

namespace RubyProcessor

/-- C30, worked example: "あ｜漢《か》い". -/
theorem parseRuby_spec_witness :
    parseRuby [0x3042, 0xFF5C, 0x6F22, 0x300A, 0x304B, 0x300B, 0x3044]
      = some [{ base := [0x6F22], ruby := [0x304B], startPos := 1, endPos := 6 }] :=
  parseRuby_spec.2 [0x3042] [0x6F22] [0x304B] [0x3044] (by decide)

end RubyProcessor

namespace TypesettingEngine

end TypesettingEngine

end JapaneseTypesetting
